import Mathlib

/-!
Verification of the command/phase configuration model of the rushstack
repository, centred on `src/apps/rush-lib/src/api/CommandLineConfiguration.ts`
and `src/libraries/node-core-library/src/Async.ts`.

The TypeScript constructor is stateful: `IPhase` and `Command` objects hold
mutable `Set`s of references to each other.  The shallow embedding uses names
as identities for phases and commands (the registries are `Map`s keyed by
name, so names identify objects), and models the identity of shared `Set`
objects (a command's `phases` and `associatedParameters`) by allocation ids
into explicit stores (`phaseSets`, `paramSets`), threaded through an explicit
`ConfigState`.  Fallible code returns `Except ConfigError`; `render` maps each
structured error to the exact message text thrown by the TypeScript code.
-/

namespace RushConfig

/-- Modelled from the spec: `RushConstants.commandLineFilename` (the file
RushConstants.ts is not among the provided sources); the value
"command-line.json" is witnessed by the error-message snapshots in the
repository's RushCommandLineParser tests. -/
def commandLineFilename : String := "command-line.json"

/-- Modelled from the spec: `RushConstants.phaseNamePrefix`; the value
"_phase:" is witnessed by the doc comment on `IPhase.logFilenameIdentifier`
("a phase with name \"_phase:compile\" has a `logFilenameIdentifier` of
\"_phase_compile\""). -/
def phasePrefixName : String := "_phase:"

/-- Modelled from the spec: `RushConstants.buildCommandName`. -/
def buildCommandName : String := "build"

/-- Modelled from the spec: `RushConstants.rebuildCommandName`. -/
def rebuildCommandName : String := "rebuild"

/-- Association-list lookup, the model of `Map.get`: first binding wins
(a `Map` never holds two bindings of one key). -/
def assocGet {α β : Type} [DecidableEq α] (l : List (α × β)) (k : α) : Option β :=
  match l with
  | [] => none
  | (k', v) :: rest => if k = k' then some v else assocGet rest k

/-- The model of `Map.set`: replace in place when the key is bound (a JS `Map`
keeps the original insertion position), append at the end otherwise. -/
def assocSet {α β : Type} [DecidableEq α] (l : List (α × β)) (k : α) (v : β) : List (α × β) :=
  match l with
  | [] => [(k, v)]
  | (k', v') :: rest => if k = k' then (k, v) :: rest else (k', v') :: assocSet rest k v

/-- The model of `Set.add` on an insertion-ordered set. -/
def insertUnique {α : Type} [DecidableEq α] (l : List α) (x : α) : List α :=
  if x ∈ l then l else l ++ [x]

/-- `[a-z]` of the phase-name regular expression. -/
def isLowerAlpha (c : Char) : Bool := 'a' ≤ c && c ≤ 'z'

/-- `[a-z0-9]` of the phase-name regular expression. -/
def isLowerAlphaNum (c : Char) : Bool := isLowerAlpha c || ('0' ≤ c && c ≤ '9')

/-- Matcher for `[a-z0-9]*([-][a-z0-9]+)*`: every hyphen must be followed
directly by a lowercase letter or digit, and all other characters are
lowercase letters or digits. -/
def matchNameTail : List Char → Bool
  | [] => true
  | '-' :: rest =>
    match rest with
    | [] => false
    | c :: rest' => isLowerAlphaNum c && matchNameTail rest'
  | c :: rest => isLowerAlphaNum c && matchNameTail rest

/-- The phase-name check of the constructor:
`new RegExp('^' + phaseNamePrefix + '[a-z][a-z0-9]*([-][a-z0-9]+)*$')`. -/
def phaseNameOk (name : String) : Bool :=
  phasePrefixName.toList.isPrefixOf name.toList &&
  (match name.toList.drop phasePrefixName.length with
   | [] => false
   | c :: rest => isLowerAlpha c && matchNameTail rest)

/-- `_normalizeNameForLogFilenameIdentifiers`: replace every colon with an
underscore. -/
def normalizeNameForLogFilenameIdentifiers (name : String) : String :=
  String.mk (name.toList.map fun c => if c = ':' then '_' else c)

/-- The raw JSON declaration of one phase (`IPhaseJson`): `dependencies.self`
and `dependencies.upstream` default to the empty list when absent, which the
constructor's loops treat identically to an absent field. -/
structure PhaseJson where
  name : String
  selfDeps : List String
  upstreamDeps : List String
  ignoreMissingScript : Bool
  allowWarningsOnSuccess : Bool
deriving DecidableEq, Repr

/-- The processed in-memory phase (`IPhase`), with the two dependency `Set`s
held as insertion-ordered lists of phase names.  `associatedParameters` is not
modelled: the constructor never adds to a phase's parameter set (the
association is deferred to `PhasedScriptAction`). -/
structure PhaseData where
  isSynthetic : Bool
  logFilenameIdentifier : String
  selfDeps : List String
  upstreamDeps : List String
  ignoreMissingScript : Bool
  allowWarningsOnSuccess : Bool
deriving DecidableEq, Repr

/-- The structured form of each `throw new Error(...)` of
CommandLineConfiguration.ts; `render` recovers the exact message. -/
inductive ConfigError where
  | duplicatePhase (name : String)
  | badPhaseName (name : String)
  | missingSelfDependency (phase dep : String)
  | missingUpstreamDependency (phase dep : String)
  | phaseSelfCycle (dep : String) (path : List String)
  | cycleCheckFuel
  | internalPhaseLookup (name : String)
  | duplicateCommand (name : String)
  | commandPhaseMissing (cmd phase : String)
  | watchPhaseMissing (cmd phase : String)
  | specialCommandGlobalKind (name : String)
  | specialCommandUnsafe (name : String)
  | missingBuildPhases
  | choiceDefaultInvalid (param dv : String) (alts : List String)
  | paramCommandMissing (param cmd : String)
  | paramPhaseMissing (param phase : String)
  | paramNoCommands (param : String)
  | paramOnlyPhasedNoPhases (param : String)
deriving DecidableEq, Repr

/-- The exact message text of each thrown error.  `cycleCheckFuel` and
`internalPhaseLookup` have no TypeScript counterpart: they stand for the
recursion-depth bookkeeping of the embedding and for the non-null assertion
`this.phases.get(rawPhase.name)!`, and are proved unreachable. -/
def ConfigError.render : ConfigError → String
  | .duplicatePhase name =>
    "In " ++ commandLineFilename ++ ", the phase \"" ++ name ++ "\" is specified more than once."
  | .badPhaseName name =>
    "In " ++ commandLineFilename ++ ", the phase \"" ++ name ++
    "\"'s name is not a valid phase name. Phase names must begin with the required prefix \"" ++
    phasePrefixName ++
    "\" followed by a name containing lowercase letters, numbers, or hyphens. The name must start with a letter and must not end with a hyphen."
  | .missingSelfDependency phase dep =>
    "In " ++ commandLineFilename ++ ", in the phase \"" ++ phase ++
    "\", the self dependency phase \"" ++ dep ++ "\" does not exist."
  | .missingUpstreamDependency phase dep =>
    "In " ++ commandLineFilename ++ ", in the phase \"" ++ phase ++ "\", the upstream dependency phase \"" ++
    dep ++ "\" does not exist."
  | .phaseSelfCycle dep path =>
    "In " ++ commandLineFilename ++ ", there exists a cycle within the set of " ++ dep ++
    " dependencies: " ++ String.intercalate ", " path
  | .cycleCheckFuel => "internal: cycle-check recursion depth exhausted"
  | .internalPhaseLookup name => "internal: phase lookup failed for " ++ name
  | .duplicateCommand name =>
    "In " ++ commandLineFilename ++ ", the command \"" ++ name ++ "\" is specified more than once."
  | .commandPhaseMissing cmd phase =>
    "In " ++ commandLineFilename ++ ", in the \"phases\" property of the \"" ++ cmd ++
    "\" command, the phase \"" ++ phase ++ "\" does not exist."
  | .watchPhaseMissing cmd phase =>
    "In " ++ commandLineFilename ++ ", in the \"watchPhases\" property of the \"" ++ cmd ++
    "\" command, the phase \"" ++ phase ++ "\" does not exist."
  | .specialCommandGlobalKind name =>
    commandLineFilename ++ " defines a command \"" ++ name ++
    "\" using the command kind \"global\". This command can only be designated as a command kind \"bulk\" or \"phased\"."
  | .specialCommandUnsafe name =>
    commandLineFilename ++ " defines a command \"" ++ name ++
    "\" using \"safeForSimultaneousRushProcesses=true\". This configuration is not supported for \"" ++
    name ++ "\"."
  | .missingBuildPhases => "Phases for the \"" ++ buildCommandName ++ "\" were not found."
  | .choiceDefaultInvalid param dv alts =>
    "In " ++ commandLineFilename ++ ", the parameter \"" ++ param ++ "\", specifies a default value \"" ++
    dv ++ "\" which is not one of the defined alternatives: \"" ++ String.intercalate "," alts ++ "\""
  | .paramCommandMissing param cmd =>
    commandLineFilename ++ " defines a parameter \"" ++ param ++ "\" that is associated with a command \"" ++
    cmd ++ "\" that does not exist or does not support custom parameters."
  | .paramPhaseMissing param phase =>
    commandLineFilename ++ " defines a parameter \"" ++ param ++ "\" that is associated with a phase \"" ++
    phase ++ "\" that does not exist."
  | .paramNoCommands param =>
    commandLineFilename ++ " defines a parameter \"" ++ param ++ "\" that lists no associated commands."
  | .paramOnlyPhasedNoPhases param =>
    commandLineFilename ++ " defines a parameter \"" ++ param ++
    "\" that is only associated with phased commands, but lists no associated phases."

/-- Fresh `IPhase` object built in the first loop of the constructor. -/
def freshPhase (p : PhaseJson) : PhaseData :=
  { isSynthetic := false
    logFilenameIdentifier := normalizeNameForLogFilenameIdentifiers p.name
    selfDeps := []
    upstreamDeps := []
    ignoreMissingScript := p.ignoreMissingScript
    allowWarningsOnSuccess := p.allowWarningsOnSuccess }

/-- First loop of the constructor over `phasesJson`: duplicate-name check, then
the regular-expression check, then registration. -/
def registerPhases : List PhaseJson → List (String × PhaseData) →
    Except ConfigError (List (String × PhaseData))
  | [], reg => .ok reg
  | p :: rest, reg =>
    if (assocGet reg p.name).isSome then .error (.duplicatePhase p.name)
    else if phaseNameOk p.name then registerPhases rest (reg ++ [(p.name, freshPhase p)])
    else .error (.badPhaseName p.name)

/-- Resolution of one list of named dependencies against the registry, adding
each (with `Set.add` semantics) to the accumulated dependency list. -/
def resolveDepNames (reg : List (String × PhaseData)) (phaseName : String) (isSelf : Bool) :
    List String → List String → Except ConfigError (List String)
  | [], acc => .ok acc
  | d :: rest, acc =>
    if (assocGet reg d).isSome then resolveDepNames reg phaseName isSelf rest (insertUnique acc d)
    else .error (if isSelf then .missingSelfDependency phaseName d
                 else .missingUpstreamDependency phaseName d)

/-- Second loop of the constructor: resolve every phase's named self and
upstream dependencies against the full registry. -/
def resolvePhaseDeps : List PhaseJson → List (String × PhaseData) →
    Except ConfigError (List (String × PhaseData))
  | [], reg => .ok reg
  | p :: rest, reg =>
    match assocGet reg p.name with
    | none => .error (.internalPhaseLookup p.name)
    | some pd =>
      match resolveDepNames reg p.name true p.selfDeps pd.selfDeps with
      | .error e => .error e
      | .ok sd =>
        match resolveDepNames reg p.name false p.upstreamDeps pd.upstreamDeps with
        | .error e => .error e
        | .ok ud =>
          resolvePhaseDeps rest (assocSet reg p.name { pd with selfDeps := sd, upstreamDeps := ud })

/-- The resolved self-dependency names of a phase (`phase.dependencies.self`). -/
def selfDepsOf (reg : List (String × PhaseData)) (name : String) : List String :=
  match assocGet reg name with
  | some pd => pd.selfDeps
  | none => []

/-- The resolved upstream-dependency names of a phase
(`phase.dependencies.upstream`). -/
def upstreamDepsOf (reg : List (String × PhaseData)) (name : String) : List String :=
  match assocGet reg name with
  | some pd => pd.upstreamDeps
  | none => []

/-- The loop of `_checkForPhaseSelfCycles` over `phase.dependencies.self`,
abstracted over the recursive DFS call: a dependency already on the path is a
back-edge and throws the cycle error listing the current path. -/
def goSelfDepsF
    (rec : String → List String → List String → Except ConfigError (List String)) :
    List String → List String → List String → Except ConfigError (List String)
  | [], _, safe => .ok safe
  | d :: rest, path, safe =>
    if d ∈ path then .error (.phaseSelfCycle d path)
    else
      match rec d (path ++ [d]) safe with
      | .error e => .error e
      | .ok safe' => goSelfDepsF rec rest path safe'

/-- `_checkForPhaseSelfCycles`: depth-first search over the self-dependency
subgraph.  `path` models the mutable `phasesInPath` set (add before the
recursive call, delete after ≡ pass `path ++ [dep]` down), `safe` the
`cycleFreePhases` set.  `fuel` bounds the recursion depth for Lean's
termination checker; it is decremented once per recursion level and
`reg.length + 1` is proved sufficient, since the path grows by one
not-yet-visited registered phase per level. -/
def checkForPhaseSelfCycles (reg : List (String × PhaseData)) :
    Nat → String → List String → List String → Except ConfigError (List String)
  | 0, _, _, _ => .error .cycleCheckFuel
  | fuel + 1, name, path, safe =>
    if name ∈ safe then .ok safe
    else
      match goSelfDepsF (checkForPhaseSelfCycles reg fuel) (selfDepsOf reg name) path safe with
      | .error e => .error e
      | .ok safe' => .ok (insertUnique safe' name)

/-- The dependency loop instantiated with the DFS at the given depth. -/
def goSelfDeps (reg : List (String × PhaseData)) (fuel : Nat) :
    List String → List String → List String → Except ConfigError (List String) :=
  goSelfDepsF (checkForPhaseSelfCycles reg fuel)

/-- The loop `for (const phase of this.phases.values())` running the DFS from
every phase, sharing the `cycleFreePhases` set across starts. -/
def checkAllPhaseCycles (reg : List (String × PhaseData)) :
    List (String × PhaseData) → List String → Except ConfigError (List String)
  | [], safe => .ok safe
  | (name, _) :: rest, safe =>
    match checkForPhaseSelfCycles reg (reg.length + 1) name [] safe with
    | .error e => .error e
    | .ok safe' => checkAllPhaseCycles reg rest safe'

/-- The whole `if (phasesJson)` section of the constructor: register, resolve,
check for self-dependency cycles. -/
def processPhasesSection (phasesJson : Option (List PhaseJson)) :
    Except ConfigError (List (String × PhaseData)) :=
  match phasesJson with
  | none => .ok []
  | some pj =>
    match registerPhases pj [] with
    | .error e => .error e
    | .ok reg0 =>
      match resolvePhaseDeps pj reg0 with
      | .error e => .error e
      | .ok reg =>
        match checkAllPhaseCycles reg reg [] with
        | .error e => .error e
        | .ok _ => .ok reg

/-- `watchOptions` of a phased command declaration. -/
structure WatchOptionsJson where
  alwaysWatch : Bool
  watchPhases : List String
deriving DecidableEq, Repr

/-- A `phased`-kind command declaration (the fields the constructor reads). -/
structure PhasedCommandJson where
  name : String
  safeForSimultaneousRushProcesses : Bool
  phases : List String
  watchOptions : Option WatchOptionsJson
deriving DecidableEq, Repr

/-- A `global`-kind command declaration (the fields the constructor reads). -/
structure GlobalCommandJson where
  name : String
  safeForSimultaneousRushProcesses : Bool
deriving DecidableEq, Repr

/-- A `bulk`-kind command declaration (the fields the constructor reads;
absent optional booleans are `false`, matching the `!!` coercions). -/
structure BulkCommandJson where
  name : String
  safeForSimultaneousRushProcesses : Bool
  ignoreDependencyOrder : Bool
  ignoreMissingScript : Bool
  allowWarningsInSuccessfulBuild : Bool
  watchForChanges : Bool
  incremental : Bool
deriving DecidableEq, Repr

/-- `CommandJson`: the tagged union over `commandKind`. -/
inductive CommandJson where
  | phased (c : PhasedCommandJson)
  | global (c : GlobalCommandJson)
  | bulk (c : BulkCommandJson)
deriving DecidableEq, Repr

def CommandJson.name : CommandJson → String
  | .phased c => c.name
  | .global c => c.name
  | .bulk c => c.name

def CommandJson.safeForSimultaneousRushProcesses : CommandJson → Bool
  | .phased c => c.safeForSimultaneousRushProcesses
  | .global c => c.safeForSimultaneousRushProcesses
  | .bulk c => c.safeForSimultaneousRushProcesses

/-- Whether the declaration uses `commandKind: "global"`. -/
def CommandJson.isGlobalKind : CommandJson → Bool
  | .global _ => true
  | _ => false

/-- The kind of a normalized `Command` (bulk commands have been translated to
phased, so only two kinds remain). -/
inductive CommandKind where
  | global
  | phased
deriving DecidableEq, Repr

/-- A normalized `Command` stored in `this.commands`.  `phasesId` and
`watchPhasesId` are the allocation ids of the command's `phases` and
`watchPhases` `Set` objects in `ConfigState.phaseSets` (`none` for global
commands, which have no such sets); `assocParamsId` likewise identifies the
`associatedParameters` set in `ConfigState.paramSets`.  Ids model JS object
identity: two commands sharing an id share the underlying `Set` object. -/
structure CommandData where
  kind : CommandKind
  isSynthetic : Bool
  safeForSimultaneousRushProcesses : Bool
  phasesId : Option Nat
  watchPhasesId : Option Nat
  alwaysWatch : Bool
  assocParamsId : Nat
deriving DecidableEq, Repr

/-- A custom parameter declaration (`IParameterJson`); `alternatives` holds
the names of a choice parameter's alternatives.  The same structure is also
what `this.parameters` stores after normalization. -/
inductive ParameterKind where
  | flag
  | choice
  | stringKind
deriving DecidableEq, Repr

structure ParameterJson where
  parameterKind : ParameterKind
  longName : String
  associatedCommands : List String
  associatedPhases : List String
  alternatives : List String
  defaultValue : Option String
deriving DecidableEq, Repr

/-- The mutable state of the `CommandLineConfiguration` under construction:
the three public registries, the private synthetic-phase map, and the
allocation stores for shared `Set` objects. -/
structure ConfigState where
  phases : List (String × PhaseData)
  commands : List (String × CommandData)
  parameters : List ParameterJson
  syntheticPhasesByBulkName : List (String × String)
  phaseSets : List (Nat × List String)
  paramSets : List (Nat × List Nat)
  nextId : Nat
deriving DecidableEq, Repr

def initialState : ConfigState :=
  { phases := [], commands := [], parameters := [],
    syntheticPhasesByBulkName := [], phaseSets := [], paramSets := [], nextId := 0 }

/-- Allocate a fresh phase-name `Set` object (`new Set<IPhase>()`). -/
def allocPhaseSet (st : ConfigState) (v : List String) : Nat × ConfigState :=
  (st.nextId, { st with phaseSets := st.phaseSets ++ [(st.nextId, v)], nextId := st.nextId + 1 })

/-- Allocate a fresh parameter `Set` object (`new Set<IParameterJson>()`). -/
def allocParamSet (st : ConfigState) (v : List Nat) : Nat × ConfigState :=
  (st.nextId, { st with paramSets := st.paramSets ++ [(st.nextId, v)], nextId := st.nextId + 1 })

/-- `_translateBulkCommandToPhasedCommand`: build the synthetic phase named
after the command (upstream-depending on itself unless `ignoreDependencyOrder`),
register it in `phases` and in the bulk-name map, and return the translated
phased command whose `phases` set holds exactly that phase.  When
`watchForChanges` is set, `watchPhases` is the same `Set` object as `phases`. -/
def translateBulkCommandToPhasedCommand (st : ConfigState) (c : BulkCommandJson) :
    CommandData × ConfigState :=
  let pd : PhaseData :=
    { isSynthetic := true
      logFilenameIdentifier := normalizeNameForLogFilenameIdentifiers c.name
      selfDeps := []
      upstreamDeps := if c.ignoreDependencyOrder then [] else [c.name]
      ignoreMissingScript := c.ignoreMissingScript
      allowWarningsOnSuccess := c.allowWarningsInSuccessfulBuild }
  let st := { st with
    phases := assocSet st.phases c.name pd
    syntheticPhasesByBulkName := assocSet st.syntheticPhasesByBulkName c.name c.name }
  let (pid, st) := allocPhaseSet st [c.name]
  let (wid, st) := if c.watchForChanges then (pid, st) else allocPhaseSet st []
  let (aid, st) := allocParamSet st []
  ({ kind := .phased
     isSynthetic := true
     safeForSimultaneousRushProcesses := c.safeForSimultaneousRushProcesses
     phasesId := some pid
     watchPhasesId := some wid
     alwaysWatch := c.watchForChanges
     assocParamsId := aid }, st)

/-- Resolution of a phased command's declared `phases` list: each named phase
must exist; existing ones are added with `Set.add` semantics. -/
def resolveCommandPhases (reg : List (String × PhaseData)) (cmdName : String) :
    List String → List String → Except ConfigError (List String)
  | [], acc => .ok acc
  | ph :: rest, acc =>
    if (assocGet reg ph).isSome then resolveCommandPhases reg cmdName rest (insertUnique acc ph)
    else .error (.commandPhaseMissing cmdName ph)

/-- Resolution of `watchOptions.watchPhases` (no implicit expansion). -/
def resolveWatchPhases (reg : List (String × PhaseData)) (cmdName : String) :
    List String → List String → Except ConfigError (List String)
  | [], acc => .ok acc
  | ph :: rest, acc =>
    if (assocGet reg ph).isSome then resolveWatchPhases reg cmdName rest (insertUnique acc ph)
    else .error (.watchPhaseMissing cmdName ph)

/-- One step of the implicit phase-dependency expansion: JS `Set` iteration
visits elements in insertion order, including elements appended during the
iteration, so the loop is modelled with a cursor `i` into the growing
insertion-ordered set.  `fuel` bounds the iteration count for termination;
`expandPhases` supplies enough for the loop to reach its fixpoint. -/
def expandLoop (reg : List (String × PhaseData)) : Nat → List String → Nat → List String
  | 0, set, _ => set
  | fuel + 1, set, i =>
    if h : i < set.length then
      let x := set.get ⟨i, h⟩
      expandLoop reg fuel ((selfDepsOf reg x ++ upstreamDepsOf reg x).foldl insertUnique set) (i + 1)
    else set

/-- The `for (const phase of commandPhases)` expansion loop over the growing
set, starting from the command's resolved declared phases. -/
def expandPhases (reg : List (String × PhaseData)) (init : List String) : List String :=
  expandLoop reg (init.length + reg.length + 1) init 0

/-- Resolution of a phased command's `watchOptions`, when present, into the
`alwaysWatch` flag and the resolved watch-phase names. -/
def resolveWatchOptions (reg : List (String × PhaseData)) (cmdName : String) :
    Option WatchOptionsJson → Except ConfigError (Bool × List String)
  | none => .ok (false, [])
  | some w =>
    match resolveWatchPhases reg cmdName w.watchPhases [] with
    | .error e => .error e
    | .ok ws => .ok (w.alwaysWatch, ws)

/-- The `switch (command.commandKind)` normalization of one command: a phased
command resolves its declared phases, expands them, and resolves its watch
options; a global command is taken as-is; a bulk command is translated. -/
def normalizeCommand (st : ConfigState) : CommandJson →
    Except ConfigError (CommandData × ConfigState)
  | .phased pc =>
    match resolveCommandPhases st.phases pc.name pc.phases [] with
    | .error e => .error e
    | .ok initPhases =>
      match resolveWatchOptions st.phases pc.name pc.watchOptions with
      | .error e => .error e
      | .ok (aw, watch) =>
        let (pid, st1) := allocPhaseSet st (expandPhases st.phases initPhases)
        let (wid, st2) := allocPhaseSet st1 watch
        let (aid, st3) := allocParamSet st2 []
        .ok ({ kind := .phased
               isSynthetic := false
               safeForSimultaneousRushProcesses := pc.safeForSimultaneousRushProcesses
               phasesId := some pid
               watchPhasesId := some wid
               alwaysWatch := aw
               assocParamsId := aid }, st3)
  | .global gc =>
    let (aid, st1) := allocParamSet st []
    .ok ({ kind := .global
           isSynthetic := false
           safeForSimultaneousRushProcesses := gc.safeForSimultaneousRushProcesses
           phasesId := none
           watchPhasesId := none
           alwaysWatch := false
           assocParamsId := aid }, st1)
  | .bulk bc => .ok (translateBulkCommandToPhasedCommand st bc)

/-- Processing of one entry of `commandsJson`: duplicate check, normalization
by kind (with bulk translation), then the build/rebuild safety checks, then
registration.  Returns the updated state and the `buildCommandPhases`
local variable (the id of the build command's phase set, when seen). -/
def processOneCommand (st : ConfigState) (bcp : Option Nat) (c : CommandJson) :
    Except ConfigError (ConfigState × Option Nat) :=
  if (assocGet st.commands c.name).isSome then .error (.duplicateCommand c.name)
  else
    match normalizeCommand st c with
    | .error e => .error e
    | .ok (cd, st1) =>
      if c.name = buildCommandName ∨ c.name = rebuildCommandName then
        if cd.kind = .global then .error (.specialCommandGlobalKind c.name)
        else if c.safeForSimultaneousRushProcesses then .error (.specialCommandUnsafe c.name)
        else
          .ok ({ st1 with commands := assocSet st1.commands c.name cd },
               if c.name = buildCommandName then cd.phasesId else bcp)
      else
        .ok ({ st1 with commands := assocSet st1.commands c.name cd }, bcp)

/-- The `if (commandsJson)` loop of the constructor. -/
def processCommands : List CommandJson → ConfigState → Option Nat →
    Except ConfigError (ConfigState × Option Nat)
  | [], st, bcp => .ok (st, bcp)
  | c :: rest, st, bcp =>
    match processOneCommand st bcp c with
    | .error e => .error e
    | .ok (st', bcp') => processCommands rest st' bcp'

/-- `DEFAULT_BUILD_COMMAND_JSON` (the fields the constructor reads). -/
def defaultBuildCommandJson : BulkCommandJson :=
  { name := buildCommandName
    safeForSimultaneousRushProcesses := false
    ignoreDependencyOrder := false
    ignoreMissingScript := false
    allowWarningsInSuccessfulBuild := false
    watchForChanges := false
    incremental := true }

/-- `DEFAULT_REBUILD_COMMAND_JSON` (the fields the constructor reads). -/
def defaultRebuildCommandJson : BulkCommandJson :=
  { name := rebuildCommandName
    safeForSimultaneousRushProcesses := false
    ignoreDependencyOrder := false
    ignoreMissingScript := false
    allowWarningsInSuccessfulBuild := false
    watchForChanges := false
    incremental := false }

/-- The second half of the default-commands section: when no "rebuild"
command exists, synthesize one from `DEFAULT_REBUILD_COMMAND_JSON` whose
`phases` is the very `buildCommandPhases` set and whose `associatedParameters`
is the build command's own set object (`buildCmd.assocParamsId`). -/
def synthesizeDefaultRebuild (st : ConfigState) (buildCmd : CommandData) (bcp : Option Nat) :
    Except ConfigError ConfigState :=
  if (assocGet st.commands rebuildCommandName).isSome then .ok st
  else
    match bcp with
    | none => .error .missingBuildPhases
    | some pid =>
      .ok { st with
        phaseSets := st.phaseSets ++ [(st.nextId, [])]
        nextId := st.nextId + 1
        commands := assocSet st.commands rebuildCommandName
          { kind := .phased
            isSynthetic := true
            safeForSimultaneousRushProcesses :=
              defaultRebuildCommandJson.safeForSimultaneousRushProcesses
            phasesId := some pid
            watchPhasesId := some st.nextId
            alwaysWatch := false
            assocParamsId := buildCmd.assocParamsId } }

/-- The `if (!options.doNotIncludeDefaultBuildCommands)` section: add the
default build command when absent (a bulk translation of
`DEFAULT_BUILD_COMMAND_JSON`, recording its phase set as
`buildCommandPhases`), then synthesize the default rebuild command when
absent. -/
def applyDefaultBuildCommands (doNotInclude : Bool) (st : ConfigState) (bcp : Option Nat) :
    Except ConfigError ConfigState :=
  if doNotInclude then .ok st
  else
    match assocGet st.commands buildCommandName with
    | some bc => synthesizeDefaultRebuild st bc bcp
    | none =>
      match translateBulkCommandToPhasedCommand st defaultBuildCommandJson with
      | (cd, st1) =>
        synthesizeDefaultRebuild
          { st1 with commands := assocSet st1.commands buildCommandName cd } cd cd.phasesId

/-- Add a parameter (by its index in `this.parameters`) to a command's
`associatedParameters` set (`Set.add` semantics on the stored set). -/
def addToParamSet (sets : List (Nat × List Nat)) (id : Nat) (paramIdx : Nat) :
    List (Nat × List Nat) :=
  match assocGet sets id with
  | some l => assocSet sets id (insertUnique l paramIdx)
  | none => sets

/-- The choice-parameter validation: `defaultValue && indexOf < 0` (note the
JS truthiness: an empty-string default skips the check). -/
def choiceDefaultCheck (p : ParameterJson) : Except ConfigError Unit :=
  match p.parameterKind with
  | .choice =>
    match p.defaultValue with
    | some dv =>
      if dv ≠ "" && !(p.alternatives.contains dv) then
        .error (.choiceDefaultInvalid p.longName dv p.alternatives)
      else .ok ()
    | none => .ok ()
  | _ => .ok ()

/-- The loop over `normalizedParameter.associatedCommands`: push the synthetic
phase of a translated bulk command onto the parameter's `associatedPhases`
(a JS array push, before the existence check), then require the command to
exist, add the parameter to its `associatedParameters` set, and track the
`parameterHasAssociatedCommands` / `parameterIsOnlyAssociatedWithPhasedCommands`
flags. -/
def processParamCommands (longName : String) (paramIdx : Nat) :
    List String → ConfigState → List String → Bool → Bool →
    Except ConfigError (ConfigState × List String × Bool × Bool)
  | [], st, phasesAcc, hasCmds, onlyPhased => .ok (st, phasesAcc, hasCmds, onlyPhased)
  | cmdName :: rest, st, phasesAcc, hasCmds, onlyPhased =>
    let phasesAcc :=
      match assocGet st.syntheticPhasesByBulkName cmdName with
      | some synthName => phasesAcc ++ [synthName]
      | none => phasesAcc
    match assocGet st.commands cmdName with
    | none => .error (.paramCommandMissing longName cmdName)
    | some cmd =>
      processParamCommands longName paramIdx rest
        { st with paramSets := addToParamSet st.paramSets cmd.assocParamsId paramIdx }
        phasesAcc true (onlyPhased && decide (cmd.kind = .phased))

/-- The loop over `normalizedParameter.associatedPhases` (after the synthetic
pushes): each named phase must exist; tracks `parameterHasAssociatedPhases`. -/
def checkParamPhases (longName : String) (reg : List (String × PhaseData)) :
    List String → Bool → Except ConfigError Bool
  | [], hasPhases => .ok hasPhases
  | ph :: rest, hasPhases =>
    match assocGet reg ph with
    | none => .error (.paramPhaseMissing longName ph)
    | some _ => checkParamPhases longName reg rest true

/-- Processing of one entry of `parametersJson`: normalize (copy the two
association lists), push onto `this.parameters`, validate the choice default,
walk the associated commands and phases, and apply the two final
associated-command / associated-phase validations.  The stored parameter is
the same mutated object, so its `associatedPhases` ends up holding the
synthetic pushes. -/
def processOneParameter (st : ConfigState) (p : ParameterJson) :
    Except ConfigError ConfigState :=
  let paramIdx := st.parameters.length
  let st0 := { st with parameters := st.parameters ++ [p] }
  match choiceDefaultCheck p with
  | .error e => .error e
  | .ok _ =>
    match processParamCommands p.longName paramIdx p.associatedCommands st0
        p.associatedPhases false true with
    | .error e => .error e
    | .ok (st1, phasesAcc, hasCmds, onlyPhased) =>
      match checkParamPhases p.longName st1.phases phasesAcc false with
      | .error e => .error e
      | .ok hasPhases =>
        if !hasCmds then .error (.paramNoCommands p.longName)
        else if onlyPhased && !hasPhases then .error (.paramOnlyPhasedNoPhases p.longName)
        else .ok { st1 with
          parameters := st1.parameters.set paramIdx { p with associatedPhases := phasesAcc } }

/-- The `if (parametersJson)` loop of the constructor. -/
def processParameters : List ParameterJson → ConfigState → Except ConfigError ConfigState
  | [], st => .ok st
  | p :: rest, st =>
    match processOneParameter st p with
    | .error e => .error e
    | .ok st' => processParameters rest st'

/-- `ICommandLineJson`: the three optional sections of command-line.json. -/
structure CommandLineJson where
  phases : Option (List PhaseJson)
  commands : Option (List CommandJson)
  parameters : Option (List ParameterJson)
deriving DecidableEq, Repr

/-- `ICommandLineConfigurationOptions`. -/
structure CommandLineConfigurationOptions where
  doNotIncludeDefaultBuildCommands : Bool
deriving DecidableEq, Repr

/-- The `CommandLineConfiguration` constructor: phases section, commands
section, default build/rebuild commands, parameters section. -/
def constructCommandLineConfiguration (json : Option CommandLineJson)
    (opts : CommandLineConfigurationOptions) : Except ConfigError ConfigState :=
  match processPhasesSection (json.bind (·.phases)) with
  | .error e => .error e
  | .ok reg =>
    match processCommands ((json.bind (·.commands)).getD [])
        { initialState with phases := reg } none with
    | .error e => .error e
    | .ok (st, bcp) =>
      match applyDefaultBuildCommands opts.doNotIncludeDefaultBuildCommands st bcp with
      | .error e => .error e
      | .ok st' => processParameters ((json.bind (·.parameters)).getD []) st'

/-- The outcome of `JsonFile.loadAndValidate` inside `tryLoadFromFile`: the
file is absent (`FileSystem.isNotExistError`), loading or schema validation
failed with some other error, or a validated `ICommandLineJson` was produced.
File input/output is an external collaborator; this inductive is its
interface. -/
inductive LoadFileResult where
  | notExistError
  | otherLoadError (message : String)
  | loaded (json : CommandLineJson)
deriving DecidableEq, Repr

/-- `CommandLineConfiguration.tryLoadFromFile`: a not-exist error is swallowed
(returning `undefined`), any other load error is rethrown, and a loaded file
is passed to the constructor with `doNotIncludeDefaultBuildCommands: true`
(whose own errors propagate). -/
def tryLoadFromFile (r : LoadFileResult) : Except String (Option ConfigState) :=
  match r with
  | .notExistError => .ok none
  | .otherLoadError m => .error m
  | .loaded json =>
    match constructCommandLineConfiguration (some json) ⟨true⟩ with
    | .error e => .error e.render
    | .ok st => .ok (some st)

/-! ### `Async.forEachAsync` (src/libraries/node-core-library/src/Async.ts)

The event-loop execution of `forEachAsync` is modelled as a transition system
over the function's own state variables.  `operationsInProgress` counts both
slots awaiting `iterator.next()` and running callbacks (the counter is
incremented before the `await iterator.next()`), so it is split here into
`awaitingIterator + running`.  The model covers executions whose callbacks
resolve (the claim is about resolution; rejection short-circuits via
`reject`).  Elements are abstracted to their count: `pending` items not yet
yielded, `running` callbacks in flight, `callbacksCompleted` finished. -/

structure ForEachAsyncState where
  pending : Nat
  awaitingIterator : Nat
  running : Nat
  callbacksCompleted : Nat
  iteratorIsComplete : Bool
  resolved : Bool
deriving DecidableEq, Repr

def forEachAsyncInit (total : Nat) : ForEachAsyncState :=
  { pending := total, awaitingIterator := 0, running := 0,
    callbacksCompleted := 0, iteratorIsComplete := false, resolved := false }

/-- The atomic event-loop steps of `forEachAsync` with concurrency limit
`concurrency`:
* `claimSlot` — one iteration of the `while` guard of `queueOperationsAsync`:
  only when `operationsInProgress < concurrency`, the iterator is not done and
  the promise is unsettled; increments the counter before awaiting the
  iterator.
* `iterYield` — `iterator.next()` resolves with a value: the slot starts the
  callback.
* `iterDone` — `iterator.next()` reports done: `iteratorIsComplete` is set and
  the slot's counter increment is undone.
* `complete` — a callback's promise resolves: the counter is decremented and
  `onOperationCompletionAsync` runs (its requeueing is the `claimSlot` step).
* `resolve` — `onOperationCompletionAsync` (or the tail of
  `queueOperationsAsync`) finds `operationsInProgress === 0` with the iterator
  complete, and resolves the overall promise. -/
inductive ForEachAsyncStep (concurrency : Nat) :
    ForEachAsyncState → ForEachAsyncState → Prop
  | claimSlot (s : ForEachAsyncState) (h1 : s.resolved = false)
      (h2 : s.iteratorIsComplete = false)
      (h3 : s.awaitingIterator + s.running < concurrency) :
      ForEachAsyncStep concurrency s { s with awaitingIterator := s.awaitingIterator + 1 }
  | iterYield (s : ForEachAsyncState) (h1 : 0 < s.awaitingIterator) (h2 : 0 < s.pending) :
      ForEachAsyncStep concurrency s
        { s with pending := s.pending - 1, awaitingIterator := s.awaitingIterator - 1,
                 running := s.running + 1 }
  | iterDone (s : ForEachAsyncState) (h1 : 0 < s.awaitingIterator) (h2 : s.pending = 0) :
      ForEachAsyncStep concurrency s
        { s with awaitingIterator := s.awaitingIterator - 1, iteratorIsComplete := true }
  | complete (s : ForEachAsyncState) (h1 : 0 < s.running) :
      ForEachAsyncStep concurrency s
        { s with running := s.running - 1, callbacksCompleted := s.callbacksCompleted + 1 }
  | resolve (s : ForEachAsyncState) (h1 : s.resolved = false)
      (h2 : s.iteratorIsComplete = true) (h3 : s.awaitingIterator = 0) (h4 : s.running = 0) :
      ForEachAsyncStep concurrency s { s with resolved := true }

/-- The states reachable by `forEachAsync` on an iterable of `total` elements. -/
def ForEachAsyncReachable (concurrency total : Nat) (s : ForEachAsyncState) : Prop :=
  Relation.ReflTransGen (ForEachAsyncStep concurrency) (forEachAsyncInit total) s

/-- The inductive invariant of the `forEachAsync` transition system:
`operationsInProgress` (= awaiting + running) never exceeds the concurrency
limit, items are conserved, the iterator completes only once drained, and
resolution implies quiescence. -/
def forEachAsyncInv (concurrency total : Nat) (s : ForEachAsyncState) : Prop :=
  s.awaitingIterator + s.running ≤ concurrency ∧
  s.pending + s.running + s.callbacksCompleted = total ∧
  (s.iteratorIsComplete = true → s.pending = 0) ∧
  (s.resolved = true → s.iteratorIsComplete = true ∧ s.awaitingIterator = 0 ∧ s.running = 0)

/-! ### Predicates used in the theorem statements -/

/-- The names of the registered phases, in registration order. -/
def regNames (reg : List (String × PhaseData)) : List String := reg.map Prod.fst

/-- The edge relation of the self-dependency subgraph: `b` is a registered
self dependency of `a`. -/
def selfEdge (reg : List (String × PhaseData)) (a b : String) : Prop :=
  ∃ pd, assocGet reg a = some pd ∧ b ∈ pd.selfDeps

/-- Acyclicity of the self-dependency subgraph: no phase reaches itself by a
nonempty chain of self-dependency edges. -/
def SelfAcyclic (reg : List (String × PhaseData)) : Prop :=
  ∀ a, ¬ Relation.TransGen (selfEdge reg) a a

/-- Well-formedness of a phase registry as established by registration and
dependency resolution: names are distinct and every self dependency names a
registered phase. -/
def RegWF (reg : List (String × PhaseData)) : Prop :=
  (regNames reg).Nodup ∧ ∀ pr ∈ reg, ∀ d ∈ pr.2.selfDeps, d ∈ regNames reg

/-- Full well-formedness of a phase registry: names distinct, and both
dependency lists of every phase name registered phases. -/
def PhasesWF (reg : List (String × PhaseData)) : Prop :=
  (regNames reg).Nodup ∧
  ∀ pr ∈ reg, (∀ d ∈ pr.2.selfDeps, d ∈ regNames reg) ∧
    (∀ d ∈ pr.2.upstreamDeps, d ∈ regNames reg)

/-- Freshness of the allocation counter over both stores. -/
def StoreWF (st : ConfigState) : Prop :=
  (∀ pr ∈ st.phaseSets, pr.1 < st.nextId) ∧ (∀ pr ∈ st.paramSets, pr.1 < st.nextId)

/-- A phase set closed under self and upstream dependencies of its members. -/
def ClosedPhaseSet (reg : List (String × PhaseData)) (ps : List String) : Prop :=
  ∀ ph ∈ ps, (∀ d ∈ selfDepsOf reg ph, d ∈ ps) ∧ (∀ d ∈ upstreamDepsOf reg ph, d ∈ ps)

/-- The parameter's `associatedPhases` after the synthetic pushes of the
associated-commands loop: the declared phases followed by the synthetic phase
of each associated translated bulk command, in order. -/
def paramAugmentedPhases (st : ConfigState) (p : ParameterJson) : List String :=
  p.associatedPhases ++
    p.associatedCommands.filterMap (fun c => assocGet st.syntheticPhasesByBulkName c)

/-- The exact conditions under which processing a declared parameter throws:
an invalid (nonempty) choice default, an associated command that does not
exist, an associated phase (after synthetic augmentation) that does not
exist, an empty associated-command list, or an all-phased association with no
phases.  This is the spec-side characterization that the amended claim C7
compares against `processOneParameter`. -/
def parameterFails (st : ConfigState) (p : ParameterJson) : Prop :=
  (p.parameterKind = .choice ∧
    ∃ dv, p.defaultValue = some dv ∧ dv ≠ "" ∧ dv ∉ p.alternatives) ∨
  (∃ c ∈ p.associatedCommands, assocGet st.commands c = none) ∨
  (∃ ph ∈ paramAugmentedPhases st p, assocGet st.phases ph = none) ∨
  p.associatedCommands = [] ∨
  ((∀ c ∈ p.associatedCommands, ∀ cd, assocGet st.commands c = some cd → cd.kind = .phased) ∧
    paramAugmentedPhases st p = [])

/-- The invariant tying the `buildCommandPhases` local variable to the command
registry during the commands loop: once a "build" command has been processed,
`buildCommandPhases` is exactly its (present) `phases` set; before that it is
still unset. -/
def BuildPhasesInv (st : ConfigState) (bcp : Option Nat) : Prop :=
  match assocGet st.commands buildCommandName with
  | some bc => bcp = bc.phasesId ∧ bc.phasesId.isSome = true
  | none => bcp = none

/-- Every registered command's `phases` set id resolves in the store to a set
closed under self and upstream dependencies (the C2 invariant). -/
def CommandSetsClosed (st : ConfigState) : Prop :=
  ∀ pr ∈ st.commands, ∀ pid, pr.2.phasesId = some pid →
    ∃ ps, assocGet st.phaseSets pid = some ps ∧ ClosedPhaseSet st.phases ps

/-- Every registered command's `associatedParameters` set id resolves in the
parameter-set store. -/
def ParamSetsWF (st : ConfigState) : Prop :=
  ∀ pr ∈ st.commands, (assocGet st.paramSets pr.2.assocParamsId).isSome = true

/-- Both dependency lists of every registered phase name registered phases. -/
def PhaseDepsWF (reg : List (String × PhaseData)) : Prop :=
  ∀ pr ∈ reg, (∀ d ∈ pr.2.selfDeps, d ∈ regNames reg) ∧
    (∀ d ∈ pr.2.upstreamDeps, d ∈ regNames reg)

/-- The combined state invariant maintained through the constructor pipeline:
fresh allocation ids, resolvable parameter-set ids, resolvable phase
dependencies, and dependency-closed command phase sets. -/
def StateInv (st : ConfigState) : Prop :=
  StoreWF st ∧ ParamSetsWF st ∧ PhaseDepsWF st.phases ∧ CommandSetsClosed st

/-- Well-formedness of the phase registry names: no two phases share a name,
and every non-synthetic (declared) phase's name matches the required pattern.
Synthetic phases are exempt: they are named after their bulk command. -/
def PhaseRegOk (reg : List (String × PhaseData)) : Prop :=
  (reg.map Prod.fst).Nodup ∧ ∀ pr ∈ reg, pr.2.isSynthetic = false → phaseNameOk pr.1 = true

/-- The configuration constructed from an absent command-line.json with the
default build commands included — a concrete evaluation point for witnesses
and counterexamples. -/
def defaultConstructedState : ConfigState :=
  match constructCommandLineConfiguration
      (some { phases := none, commands := none, parameters := none })
      { doNotIncludeDefaultBuildCommands := false } with
  | .ok st => st
  | .error _ => initialState

/-- A configuration declaring two phases and one phased command, a concrete
evaluation point for the construction pipeline. -/
def examplePhasedJson : CommandLineJson :=
  { phases := some
      [{ name := "_phase:compile", selfDeps := [], upstreamDeps := [],
         ignoreMissingScript := false, allowWarningsOnSuccess := false },
       { name := "_phase:test", selfDeps := ["_phase:compile"],
         upstreamDeps := ["_phase:compile"],
         ignoreMissingScript := false, allowWarningsOnSuccess := false }]
    commands := some [CommandJson.phased
      { name := "check", safeForSimultaneousRushProcesses := false,
        phases := ["_phase:test"], watchOptions := none }]
    parameters := none }

/-- The configuration constructed from `examplePhasedJson` (defaults
excluded), for witnesses. -/
def examplePhasedState : ConfigState :=
  match constructCommandLineConfiguration (some examplePhasedJson)
      { doNotIncludeDefaultBuildCommands := true } with
  | .ok st => st
  | .error _ => initialState

/-- A small state holding one translated bulk command "run" (with synthetic
phase "run") and its empty associated-parameter set, a concrete evaluation
point for the parameter-association loop. -/
def exampleParamState : ConfigState :=
  { phases := [("run",
      { isSynthetic := true, logFilenameIdentifier := "run", selfDeps := [],
        upstreamDeps := ["run"], ignoreMissingScript := false,
        allowWarningsOnSuccess := false })]
    commands := [("run",
      { kind := .phased, isSynthetic := true, safeForSimultaneousRushProcesses := false,
        phasesId := some 0, watchPhasesId := some 1, alwaysWatch := false,
        assocParamsId := 2 })]
    parameters := []
    syntheticPhasesByBulkName := [("run", "run")]
    phaseSets := [(0, ["run"]), (1, [])]
    paramSets := [(2, [])]
    nextId := 3 }

/-- A flag parameter associated with the "run" command. -/
def exampleParamJson : ParameterJson :=
  { parameterKind := .flag, longName := "--verbose", associatedCommands := ["run"],
    associatedPhases := [], alternatives := [], defaultValue := none }

/-- Cycle-freedom of a node of the self-dependency subgraph: no cycle is
reachable from it. -/
def CycleFree (reg : List (String × PhaseData)) (x : String) : Prop :=
  ¬ ∃ y, Relation.ReflTransGen (selfEdge reg) x y ∧ Relation.TransGen (selfEdge reg) y y

/-- What the DFS reports on a back-edge: the cycle target is on the reported
path, the path is a self-dependency chain in traversal order, and the detected
back-edge closes it from the path's last element to the target. -/
def GoodCycleErr (reg : List (String × PhaseData)) (d : String) (p : List String) : Prop :=
  d ∈ p ∧ List.Chain' (selfEdge reg) p ∧ ∃ l, p.getLast? = some l ∧ selfEdge reg l d

/-- A registry with a single phase that self-depends on itself — the smallest
self-dependency cycle. -/
def exampleCycleReg : List (String × PhaseData) :=
  [("_phase:a",
    { isSynthetic := false, logFilenameIdentifier := "_phase_a",
      selfDeps := ["_phase:a"], upstreamDeps := [], ignoreMissingScript := false,
      allowWarningsOnSuccess := false })]

/-! ## Helper lemmas on the association-list and set primitives -/

theorem assocGet_eq_none {α β : Type} [DecidableEq α] {l : List (α × β)} {k : α} :
    assocGet l k = none ↔ k ∉ l.map Prod.fst := by
  induction l with
  | nil => simp [assocGet]
  | cons pr rest ih =>
    obtain ⟨k', v⟩ := pr
    by_cases h : k = k' <;> simp [assocGet, h, ih]

theorem assocGet_mem {α β : Type} [DecidableEq α] {l : List (α × β)} {k : α} {v : β}
    (h : assocGet l k = some v) : (k, v) ∈ l := by
  induction l with
  | nil => simp [assocGet] at h
  | cons pr rest ih =>
    obtain ⟨k', v'⟩ := pr
    by_cases hk : k = k'
    · subst hk
      simp [assocGet] at h
      simp [h]
    · simp [assocGet, hk] at h
      simp [ih h]

theorem assocGet_append_left {α β : Type} [DecidableEq α] {l₁ l₂ : List (α × β)} {k : α} {v : β}
    (h : assocGet l₁ k = some v) : assocGet (l₁ ++ l₂) k = some v := by
  induction l₁ with
  | nil => simp [assocGet] at h
  | cons pr rest ih =>
    obtain ⟨k', v'⟩ := pr
    by_cases hk : k = k' <;> simp_all [assocGet]

theorem assocGet_append_right {α β : Type} [DecidableEq α] {l₁ l₂ : List (α × β)} {k : α}
    (h : assocGet l₁ k = none) : assocGet (l₁ ++ l₂) k = assocGet l₂ k := by
  induction l₁ with
  | nil => simp
  | cons pr rest ih =>
    obtain ⟨k', v'⟩ := pr
    by_cases hk : k = k' <;> simp_all [assocGet]

theorem assocGet_assocSet_self {α β : Type} [DecidableEq α] (l : List (α × β)) (k : α) (v : β) :
    assocGet (assocSet l k v) k = some v := by
  induction l with
  | nil => simp [assocGet, assocSet]
  | cons pr rest ih =>
    obtain ⟨k', v'⟩ := pr
    by_cases hk : k = k' <;> simp [assocGet, assocSet, hk, ih]

theorem assocGet_assocSet_ne {α β : Type} [DecidableEq α] (l : List (α × β)) (k k' : α) (v : β)
    (h : k' ≠ k) : assocGet (assocSet l k v) k' = assocGet l k' := by
  induction l with
  | nil => simp [assocGet, assocSet, h]
  | cons pr rest ih =>
    obtain ⟨k₀, v₀⟩ := pr
    by_cases hk : k = k₀
    · subst hk
      simp [assocGet, assocSet, h]
    · by_cases hk' : k' = k₀ <;> simp [assocGet, assocSet, hk, hk', ih]

theorem mem_assocSet {α β : Type} [DecidableEq α] {l : List (α × β)} {k : α} {v : β}
    {pr : α × β} (h : pr ∈ assocSet l k v) : pr = (k, v) ∨ pr ∈ l := by
  induction l with
  | nil => simpa [assocSet] using h
  | cons pr₀ rest ih =>
    obtain ⟨k₀, v₀⟩ := pr₀
    by_cases hk : k = k₀
    · subst hk
      simp [assocSet] at h
      rcases h with h | h
      · exact Or.inl (by simp [h])
      · exact Or.inr (by simp [h])
    · simp [assocSet, hk] at h
      rcases h with h | h
      · exact Or.inr (by simp [h])
      · rcases ih h with h' | h'
        · exact Or.inl h'
        · exact Or.inr (by simp [h'])

theorem map_fst_assocSet {α β : Type} [DecidableEq α] (l : List (α × β)) (k : α) (v : β) :
    (assocSet l k v).map Prod.fst =
      if k ∈ l.map Prod.fst then l.map Prod.fst else l.map Prod.fst ++ [k] := by
  induction l with
  | nil => simp [assocSet]
  | cons pr rest ih =>
    obtain ⟨k₀, v₀⟩ := pr
    by_cases hk : k = k₀
    · simp [assocSet, hk]
    · by_cases hmem : k ∈ rest.map Prod.fst <;>
        simp [assocSet, hk, hmem, ih, Ne.symm hk]

theorem nodup_map_fst_assocSet {α β : Type} [DecidableEq α] {l : List (α × β)} {k : α} {v : β}
    (h : (l.map Prod.fst).Nodup) : ((assocSet l k v).map Prod.fst).Nodup := by
  rw [map_fst_assocSet]
  by_cases hmem : k ∈ l.map Prod.fst
  · simpa [hmem] using h
  · rw [if_neg hmem, List.nodup_append]
    refine ⟨h, List.nodup_singleton _, fun x hx hk' => ?_⟩
    simp only [List.mem_singleton] at hk'
    subst hk'
    exact hmem hx

theorem mem_insertUnique {α : Type} [DecidableEq α] (l : List α) (x y : α) :
    x ∈ insertUnique l y ↔ x ∈ l ∨ x = y := by
  unfold insertUnique
  by_cases h : y ∈ l
  · simp only [if_pos h]
    constructor
    · exact Or.inl
    · rintro (hx | rfl) <;> assumption
  · simp [if_neg h]

theorem subset_insertUnique {α : Type} [DecidableEq α] (l : List α) (y : α) :
    ∀ x ∈ l, x ∈ insertUnique l y := by
  intro x hx
  rw [mem_insertUnique]
  exact Or.inl hx

theorem self_mem_insertUnique {α : Type} [DecidableEq α] (l : List α) (y : α) :
    y ∈ insertUnique l y := by
  rw [mem_insertUnique]
  exact Or.inr rfl

theorem insertUnique_subset {α : Type} [DecidableEq α] {l : List α} {y : α} {s : List α}
    (h1 : ∀ a ∈ l, a ∈ s) (h2 : y ∈ s) : ∀ a ∈ insertUnique l y, a ∈ s := by
  intro a ha
  rcases (mem_insertUnique l a y).mp ha with h | rfl
  · exact h1 a h
  · exact h2

theorem nodup_insertUnique {α : Type} [DecidableEq α] {l : List α} {y : α}
    (h : l.Nodup) : (insertUnique l y).Nodup := by
  unfold insertUnique
  by_cases hy : y ∈ l
  · simpa [hy]
  · simpa [hy, List.nodup_append] using h

theorem subset_foldl_insertUnique {α : Type} [DecidableEq α] (ds : List α) :
    ∀ (l : List α), ∀ x ∈ l, x ∈ ds.foldl insertUnique l := by
  induction ds with
  | nil => intro l x hx; simpa using hx
  | cons d rest ih =>
    intro l x hx
    exact ih (insertUnique l d) x (subset_insertUnique l d x hx)

theorem mem_foldl_insertUnique {α : Type} [DecidableEq α] {ds : List α} {d : α}
    (h : d ∈ ds) : ∀ (l : List α), d ∈ ds.foldl insertUnique l := by
  induction ds with
  | nil => simp at h
  | cons d₀ rest ih =>
    intro l
    rcases List.mem_cons.mp h with rfl | h'
    · exact subset_foldl_insertUnique rest (insertUnique l d) d (self_mem_insertUnique l d)
    · exact ih h' (insertUnique l d₀)

theorem foldl_insertUnique_subset {α : Type} [DecidableEq α] (ds : List α) :
    ∀ {l s : List α}, (∀ x ∈ l, x ∈ s) → (∀ x ∈ ds, x ∈ s) →
      ∀ x ∈ ds.foldl insertUnique l, x ∈ s := by
  induction ds with
  | nil => intro l s h1 _ x hx; exact h1 x (by simpa using hx)
  | cons d rest ih =>
    intro l s h1 h2 x hx
    refine ih (insertUnique_subset h1 (h2 d (by simp))) (fun a ha => h2 a (by simp [ha])) x hx

theorem nodup_foldl_insertUnique {α : Type} [DecidableEq α] (ds : List α) :
    ∀ {l : List α}, l.Nodup → (ds.foldl insertUnique l).Nodup := by
  induction ds with
  | nil => intro l h; simpa using h
  | cons d rest ih => intro l h; exact ih (nodup_insertUnique h)

theorem mem_of_foldl_insertUnique {α : Type} [DecidableEq α] (ds : List α) :
    ∀ {l : List α} {x : α}, x ∈ ds.foldl insertUnique l → x ∈ l ∨ x ∈ ds := by
  induction ds with
  | nil => intro l x hx; exact Or.inl (by simpa using hx)
  | cons d rest ih =>
    intro l x hx
    rcases ih hx with h | h
    · rcases (mem_insertUnique l x d).mp h with h' | rfl
      · exact Or.inl h'
      · exact Or.inr (by simp)
    · exact Or.inr (by simp [h])

theorem assocGet_of_forall_lt {β : Type} {l : List (Nat × β)} {n : Nat}
    (h : ∀ pr ∈ l, pr.1 < n) : assocGet l n = none := by
  rw [assocGet_eq_none]
  intro hmem
  obtain ⟨pr, hpr, hfst⟩ := List.mem_map.mp hmem
  exact absurd (hfst ▸ h pr hpr) (lt_irrefl n)

theorem assocGet_snoc_self {β : Type} {l : List (Nat × β)} {n : Nat} {v : β}
    (h : assocGet l n = none) : assocGet (l ++ [(n, v)]) n = some v := by
  rw [assocGet_append_right h]
  simp [assocGet]

theorem assocGet_snoc2_self {β : Type} {l : List (Nat × β)} {n : Nat} {v w : β}
    (h : assocGet l n = none) : assocGet (l ++ [(n, v)] ++ [(n + 1, w)]) n = some v := by
  rw [List.append_assoc, assocGet_append_right h]
  simp [assocGet]

/-! ## Claim C3: bulk-command translation -/

/-- C3: for every bulk command, `_translateBulkCommandToPhasedCommand`
produces a phased command whose `phases` set holds exactly one synthetic phase
named after the command, and that phase's upstream dependency set contains the
phase itself if and only if the command's `ignoreDependencyOrder` flag is
unset. -/
theorem translateBulk_singleSyntheticPhase_upstreamSelf (st : ConfigState) (c : BulkCommandJson)
    (hwf : StoreWF st) :
    (translateBulkCommandToPhasedCommand st c).1.kind = .phased ∧
    (translateBulkCommandToPhasedCommand st c).1.isSynthetic = true ∧
    (∃ pid, (translateBulkCommandToPhasedCommand st c).1.phasesId = some pid ∧
      assocGet (translateBulkCommandToPhasedCommand st c).2.phaseSets pid = some [c.name]) ∧
    (∃ pd, assocGet (translateBulkCommandToPhasedCommand st c).2.phases c.name = some pd ∧
      pd.isSynthetic = true ∧ pd.selfDeps = [] ∧
      (c.name ∈ pd.upstreamDeps ↔ c.ignoreDependencyOrder = false)) := by
  have hfresh : assocGet st.phaseSets st.nextId = none := assocGet_of_forall_lt hwf.1
  cases hw : c.watchForChanges <;> cases hi : c.ignoreDependencyOrder <;>
    simp only [translateBulkCommandToPhasedCommand, allocPhaseSet, allocParamSet, hw, hi] <;>
    simp only [Bool.false_eq_true, Bool.true_eq_false, if_false, if_true, ite_true, ite_false,
      reduceIte] <;>
    exact ⟨by trivial, by trivial,
      ⟨st.nextId, by trivial,
        by first | exact assocGet_snoc_self hfresh | exact assocGet_snoc2_self hfresh⟩,
      ⟨_, assocGet_assocSet_self _ _ _, by trivial, by trivial, by simp [hi]⟩⟩

/-- Witness for C3 at a concrete input: the default build command translated
from the empty initial state. -/
theorem translateBulk_singleSyntheticPhase_upstreamSelf_witness :
    (translateBulkCommandToPhasedCommand initialState defaultBuildCommandJson).1.kind = .phased ∧
    (translateBulkCommandToPhasedCommand initialState defaultBuildCommandJson).1.isSynthetic = true ∧
    (∃ pid,
      (translateBulkCommandToPhasedCommand initialState defaultBuildCommandJson).1.phasesId =
        some pid ∧
      assocGet (translateBulkCommandToPhasedCommand initialState defaultBuildCommandJson).2.phaseSets
        pid = some [defaultBuildCommandJson.name]) ∧
    (∃ pd,
      assocGet (translateBulkCommandToPhasedCommand initialState defaultBuildCommandJson).2.phases
        defaultBuildCommandJson.name = some pd ∧
      pd.isSynthetic = true ∧ pd.selfDeps = [] ∧
      (defaultBuildCommandJson.name ∈ pd.upstreamDeps ↔
        defaultBuildCommandJson.ignoreDependencyOrder = false)) :=
  translateBulk_singleSyntheticPhase_upstreamSelf initialState defaultBuildCommandJson
    (by constructor <;> simp [initialState])


theorem forEachAsyncStep_inv {concurrency total : Nat} {s s' : ForEachAsyncState}
    (hstep : ForEachAsyncStep concurrency s s')
    (ih : forEachAsyncInv concurrency total s) : forEachAsyncInv concurrency total s' := by
  obtain ⟨h1, h2, h3, h4⟩ := ih
  cases hstep with
  | claimSlot ha hb hc =>
    refine ⟨by simp; omega, by simpa using h2, by simpa using h3, fun hr => ?_⟩
    simp only [] at hr
    simp [ha] at hr
  | iterYield ha hb =>
    refine ⟨by simp; omega, by simp; omega, fun hic => ?_, fun hr => ?_⟩
    · have := h3 (by simpa using hic)
      omega
    · obtain ⟨hic, haw, hrun⟩ := h4 (by simpa using hr)
      exact absurd ha (by omega)
  | iterDone ha hb =>
    refine ⟨by simp; omega, by simpa using h2, fun _ => by simpa using hb, fun hr => ?_⟩
    obtain ⟨hic, haw, hrun⟩ := h4 (by simpa using hr)
    exact absurd ha (by omega)
  | complete ha =>
    refine ⟨by simp; omega, by simp; omega, by simpa using h3, fun hr => ?_⟩
    obtain ⟨hic, haw, hrun⟩ := h4 (by simpa using hr)
    exact absurd ha (by omega)
  | resolve ha hb hc hd =>
    exact ⟨by simpa using h1, by simpa using h2, by simpa using h3,
      fun _ => by simp [hb, hc, hd]⟩

/-- C6: in every execution of `Async.forEachAsync` over an iterable of `total`
elements with concurrency limit `concurrency`, at no reachable state are more
than `concurrency` callback invocations simultaneously in progress, and when
the returned promise resolves, every element's callback has completed (the
completed-callback count equals the element count, with none left pending or
running). -/
theorem forEachAsync_concurrencyBound_and_completion (concurrency total : Nat)
    (s : ForEachAsyncState) (h : ForEachAsyncReachable concurrency total s) :
    s.running ≤ concurrency ∧
    (s.resolved = true → s.callbacksCompleted = total ∧ s.running = 0 ∧ s.pending = 0) := by
  suffices inv : forEachAsyncInv concurrency total s by
    obtain ⟨h1, h2, h3, h4⟩ := inv
    refine ⟨by omega, fun hr => ?_⟩
    obtain ⟨hic, ha, hrun⟩ := h4 hr
    have := h3 hic
    omega
  induction h with
  | refl => simp [forEachAsyncInv, forEachAsyncInit]
  | tail hsteps hstep ih => exact forEachAsyncStep_inv hstep ih

/-- Witness for C6: a complete concrete execution with one element and
concurrency 1, reaching resolution with the single callback completed. -/
theorem forEachAsync_concurrencyBound_and_completion_witness :
    (⟨0, 0, 0, 1, true, true⟩ : ForEachAsyncState).running ≤ 1 ∧
    ((⟨0, 0, 0, 1, true, true⟩ : ForEachAsyncState).resolved = true →
      (⟨0, 0, 0, 1, true, true⟩ : ForEachAsyncState).callbacksCompleted = 1 ∧
      (⟨0, 0, 0, 1, true, true⟩ : ForEachAsyncState).running = 0 ∧
      (⟨0, 0, 0, 1, true, true⟩ : ForEachAsyncState).pending = 0) := by
  have s1 : ForEachAsyncStep 1 (forEachAsyncInit 1) ⟨1, 1, 0, 0, false, false⟩ :=
    ForEachAsyncStep.claimSlot _ rfl rfl (by decide)
  have s2 : ForEachAsyncStep 1 (⟨1, 1, 0, 0, false, false⟩ : ForEachAsyncState)
      ⟨0, 0, 1, 0, false, false⟩ :=
    ForEachAsyncStep.iterYield _ (by decide) (by decide)
  have s3 : ForEachAsyncStep 1 (⟨0, 0, 1, 0, false, false⟩ : ForEachAsyncState)
      ⟨0, 0, 0, 1, false, false⟩ :=
    ForEachAsyncStep.complete _ (by decide)
  have s4 : ForEachAsyncStep 1 (⟨0, 0, 0, 1, false, false⟩ : ForEachAsyncState)
      ⟨0, 1, 0, 1, false, false⟩ :=
    ForEachAsyncStep.claimSlot _ rfl rfl (by decide)
  have s5 : ForEachAsyncStep 1 (⟨0, 1, 0, 1, false, false⟩ : ForEachAsyncState)
      ⟨0, 0, 0, 1, true, false⟩ :=
    ForEachAsyncStep.iterDone _ (by decide) (by decide)
  have s6 : ForEachAsyncStep 1 (⟨0, 0, 0, 1, true, false⟩ : ForEachAsyncState)
      ⟨0, 0, 0, 1, true, true⟩ :=
    ForEachAsyncStep.resolve _ rfl rfl rfl rfl
  exact forEachAsync_concurrencyBound_and_completion 1 1 _
    (Relation.ReflTransGen.tail
      (Relation.ReflTransGen.tail
        (Relation.ReflTransGen.tail
          (Relation.ReflTransGen.tail
            (Relation.ReflTransGen.tail
              (Relation.ReflTransGen.tail Relation.ReflTransGen.refl s1) s2) s3) s4) s5) s6)


/-! ## Frame and inversion lemmas for the constructor pipeline -/

theorem normalizeCommand_frame {st : ConfigState} {c : CommandJson} {cd : CommandData}
    {st1 : ConfigState} (h : normalizeCommand st c = .ok (cd, st1)) :
    st1.commands = st.commands ∧ st1.parameters = st.parameters := by
  cases c with
  | phased pc =>
    simp only [normalizeCommand] at h
    split at h
    · exact absurd h (by simp)
    · split at h
      · exact absurd h (by simp)
      · simp only [allocPhaseSet, allocParamSet, Except.ok.injEq, Prod.mk.injEq] at h
        obtain ⟨-, h2⟩ := h
        subst h2
        exact ⟨rfl, rfl⟩
  | global gc =>
    simp only [normalizeCommand, allocParamSet, Except.ok.injEq, Prod.mk.injEq] at h
    obtain ⟨-, h2⟩ := h
    subst h2
    exact ⟨rfl, rfl⟩
  | bulk bc =>
    simp only [normalizeCommand, translateBulkCommandToPhasedCommand, allocPhaseSet,
      allocParamSet, Except.ok.injEq, Prod.mk.injEq] at h
    obtain ⟨-, h2⟩ := h
    subst h2
    cases bc.watchForChanges <;> exact ⟨rfl, rfl⟩

theorem processOneCommand_ok_inversion {st : ConfigState} {bcp : Option Nat} {c : CommandJson}
    {st' : ConfigState} {bcp' : Option Nat}
    (h : processOneCommand st bcp c = .ok (st', bcp')) :
    assocGet st.commands c.name = none ∧
    ∃ cd st1, normalizeCommand st c = .ok (cd, st1) ∧
      st' = { st1 with commands := assocSet st1.commands c.name cd } ∧
      bcp' = (if c.name = buildCommandName then cd.phasesId else bcp) ∧
      ((c.name = buildCommandName ∨ c.name = rebuildCommandName) →
        cd.kind ≠ .global ∧ c.safeForSimultaneousRushProcesses = false) := by
  simp only [processOneCommand] at h
  split at h
  · exact absurd h (by simp)
  · rename_i hdup
    refine ⟨by simpa using hdup, ?_⟩
    split at h
    · exact absurd h (by simp)
    · rename_i cd st1 hnorm
      split at h
      · rename_i hspecial
        split at h
        · exact absurd h (by simp)
        · split at h
          · exact absurd h (by simp)
          · rename_i hglobal hsafe
            simp only [Except.ok.injEq, Prod.mk.injEq] at h
            exact ⟨cd, st1, hnorm, h.1.symm, h.2.symm,
              fun _ => ⟨hglobal, by simpa using hsafe⟩⟩
      · rename_i hspecial
        simp only [Except.ok.injEq, Prod.mk.injEq] at h
        refine ⟨cd, st1, hnorm, h.1.symm, ?_, fun hs => absurd hs hspecial⟩
        have hb : c.name ≠ buildCommandName := fun hb => hspecial (Or.inl hb)
        simp [hb, h.2.symm]

theorem processOneCommand_names {st : ConfigState} {bcp : Option Nat} {c : CommandJson}
    {st' : ConfigState} {bcp' : Option Nat}
    (h : processOneCommand st bcp c = .ok (st', bcp')) :
    ∀ pr ∈ st'.commands, pr ∈ st.commands ∨ pr.1 = c.name := by
  obtain ⟨-, cd, st1, hnorm, hst, -, -⟩ := processOneCommand_ok_inversion h
  intro pr hpr
  rw [hst] at hpr
  simp only [] at hpr
  rcases mem_assocSet hpr with h' | h'
  · exact Or.inr (by simp [h'])
  · exact Or.inl ((normalizeCommand_frame hnorm).1 ▸ h')

theorem processCommands_names :
    ∀ {cs : List CommandJson} {st : ConfigState} {bcp : Option Nat} {st' : ConfigState}
      {bcp' : Option Nat}, processCommands cs st bcp = .ok (st', bcp') →
      ∀ pr ∈ st'.commands, pr ∈ st.commands ∨ ∃ c ∈ cs, CommandJson.name c = pr.1 := by
  intro cs
  induction cs with
  | nil =>
    intro st bcp st' bcp' h pr hpr
    simp only [processCommands, Except.ok.injEq, Prod.mk.injEq] at h
    exact Or.inl (h.1 ▸ hpr)
  | cons c rest ih =>
    intro st bcp st' bcp' h pr hpr
    simp only [processCommands] at h
    split at h
    · exact absurd h (by simp)
    · rename_i st1 bcp1 h1
      rcases ih h pr hpr with h' | ⟨c', hc', hname⟩
      · rcases processOneCommand_names h1 pr h' with h'' | h''
        · exact Or.inl h''
        · exact Or.inr ⟨c, by simp, h''.symm⟩
      · exact Or.inr ⟨c', by simp [hc'], hname⟩

theorem applyDefaults_doNotInclude (st : ConfigState) (bcp : Option Nat) :
    applyDefaultBuildCommands true st bcp = .ok st := rfl

theorem processParamCommands_frame {longName : String} {paramIdx : Nat} :
    ∀ {cmds : List String} {st : ConfigState} {acc : List String} {b1 b2 : Bool}
      {st1 : ConfigState} {acc' : List String} {b1' b2' : Bool},
      processParamCommands longName paramIdx cmds st acc b1 b2 = .ok (st1, acc', b1', b2') →
      st1.commands = st.commands ∧ st1.phases = st.phases ∧
      st1.syntheticPhasesByBulkName = st.syntheticPhasesByBulkName ∧
      st1.phaseSets = st.phaseSets ∧ st1.parameters = st.parameters ∧
      st1.nextId = st.nextId := by
  intro cmds
  induction cmds with
  | nil =>
    intro st acc b1 b2 st1 acc' b1' b2' h
    simp only [processParamCommands, Except.ok.injEq, Prod.mk.injEq] at h
    rw [← h.1]
    exact ⟨rfl, rfl, rfl, rfl, rfl, rfl⟩
  | cons cmdName rest ih =>
    intro st acc b1 b2 st1 acc' b1' b2' h
    simp only [processParamCommands] at h
    split at h
    · exact absurd h (by simp)
    · rename_i cmd hcmd
      obtain ⟨e1, e2, e3, e4, e5, e6⟩ := ih h
      exact ⟨e1, e2, e3, e4, e5, e6⟩

theorem processOneParameter_frame {st : ConfigState} {p : ParameterJson} {st' : ConfigState}
    (h : processOneParameter st p = .ok st') :
    st'.commands = st.commands ∧ st'.phases = st.phases ∧
    st'.syntheticPhasesByBulkName = st.syntheticPhasesByBulkName ∧
    st'.phaseSets = st.phaseSets ∧ st'.nextId = st.nextId := by
  simp only [processOneParameter] at h
  split at h
  · exact absurd h (by simp)
  · split at h
    · exact absurd h (by simp)
    · rename_i st1 phasesAcc hasCmds onlyPhased hcmds
      split at h
      · exact absurd h (by simp)
      · split at h
        · exact absurd h (by simp)
        · split at h
          · exact absurd h (by simp)
          · simp only [Except.ok.injEq] at h
            obtain ⟨e1, e2, e3, e4, -, e6⟩ := processParamCommands_frame hcmds
            rw [← h]
            exact ⟨e1, e2, e3, e4, e6⟩

theorem processParameters_frame :
    ∀ {ps : List ParameterJson} {st : ConfigState} {st' : ConfigState},
      processParameters ps st = .ok st' →
      st'.commands = st.commands ∧ st'.phases = st.phases ∧
      st'.syntheticPhasesByBulkName = st.syntheticPhasesByBulkName ∧
      st'.phaseSets = st.phaseSets ∧ st'.nextId = st.nextId := by
  intro ps
  induction ps with
  | nil =>
    intro st st' h
    simp only [processParameters, Except.ok.injEq] at h
    rw [← h]
    exact ⟨rfl, rfl, rfl, rfl, rfl⟩
  | cons p rest ih =>
    intro st st' h
    simp only [processParameters] at h
    split at h
    · exact absurd h (by simp)
    · rename_i st1 h1
      obtain ⟨e1, e2, e3, e4, e5⟩ := ih h
      obtain ⟨f1, f2, f3, f4, f5⟩ := processOneParameter_frame h1
      exact ⟨e1.trans f1, e2.trans f2, e3.trans f3, e4.trans f4, e5.trans f5⟩

/-! ## Claim C10: `tryLoadFromFile` -/

/-- C10: `tryLoadFromFile` returns `undefined` exactly when the file does not
exist; any other load or validation error propagates; and a successfully
loaded file is constructed with `doNotIncludeDefaultBuildCommands: true`, so
every command of the result was declared in the file (no default build or
rebuild command is added by this path). -/
theorem tryLoadFromFile_spec :
    (∀ r, tryLoadFromFile r = .ok none ↔ r = .notExistError) ∧
    (∀ m, tryLoadFromFile (.otherLoadError m) = .error m) ∧
    (∀ json st, tryLoadFromFile (.loaded json) = .ok (some st) →
      ∀ pr ∈ st.commands, ∃ c ∈ json.commands.getD [], CommandJson.name c = pr.1) := by
  refine ⟨fun r => ⟨fun h => ?_, fun h => by rw [h]; rfl⟩, fun m => rfl, fun json st h pr hpr => ?_⟩
  · cases r with
    | notExistError => rfl
    | otherLoadError m => exact absurd h (by simp [tryLoadFromFile])
    | loaded json =>
      simp only [tryLoadFromFile] at h
      split at h <;> simp at h
  · simp only [tryLoadFromFile] at h
    split at h
    · exact absurd h (by simp)
    · rename_i st0 hconstruct
      simp only [Except.ok.injEq, Option.some.injEq] at h
      subst h
      simp only [constructCommandLineConfiguration] at hconstruct
      split at hconstruct
      · exact absurd hconstruct (by simp)
      · split at hconstruct
        · exact absurd hconstruct (by simp)
        · rename_i reg hreg st1 bcp hcmds
          rw [applyDefaults_doNotInclude] at hconstruct
          have hframe := (processParameters_frame hconstruct).1
          rw [hframe] at hpr
          rcases processCommands_names hcmds pr hpr with h' | ⟨c, hc, hname⟩
          · simp [initialState] at h'
          · exact ⟨c, by simpa using hc, hname⟩

/-- Witness for C10: the not-exist outcome yields `undefined`, and any other
load error propagates. -/
theorem tryLoadFromFile_spec_witness :
    tryLoadFromFile .notExistError = .ok none ∧
    tryLoadFromFile (.otherLoadError "boom") = .error "boom" :=
  ⟨(tryLoadFromFile_spec.1 .notExistError).mpr rfl, tryLoadFromFile_spec.2.1 "boom"⟩


/-! ## Claim C4: build/rebuild safety rules -/

theorem normalizeCommand_kind_global_iff {st : ConfigState} {c : CommandJson} {cd : CommandData}
    {st1 : ConfigState} (h : normalizeCommand st c = .ok (cd, st1)) :
    (cd.kind = .global ↔ c.isGlobalKind = true) := by
  cases c with
  | phased pc =>
    simp only [normalizeCommand] at h
    split at h
    · exact absurd h (by simp)
    · split at h
      · exact absurd h (by simp)
      · simp only [Except.ok.injEq, Prod.mk.injEq] at h
        rw [← h.1]
        simp [CommandJson.isGlobalKind]
  | global gc =>
    simp only [normalizeCommand, Except.ok.injEq, Prod.mk.injEq] at h
    rw [← h.1]
    simp [CommandJson.isGlobalKind]
  | bulk bc =>
    simp only [normalizeCommand, translateBulkCommandToPhasedCommand, Except.ok.injEq,
      Prod.mk.injEq] at h
    rw [← h.1]
    simp [CommandJson.isGlobalKind]

theorem processOneCommand_special_violation_ne_ok {c : CommandJson}
    (hname : c.name = buildCommandName ∨ c.name = rebuildCommandName)
    (hviol : c.isGlobalKind = true ∨ c.safeForSimultaneousRushProcesses = true) :
    ∀ (st : ConfigState) (bcp : Option Nat) (r : ConfigState × Option Nat),
      processOneCommand st bcp c ≠ .ok r := by
  rintro st bcp ⟨st', bcp'⟩ h
  obtain ⟨-, cd, st1, hnorm, -, -, hspec⟩ := processOneCommand_ok_inversion h
  obtain ⟨hkind, hsafe⟩ := hspec hname
  rcases hviol with hg | hs
  · exact hkind ((normalizeCommand_kind_global_iff hnorm).mpr hg)
  · rw [hsafe] at hs
    exact absurd hs (by simp)

theorem processCommands_ok_elem :
    ∀ {cs : List CommandJson} {st : ConfigState} {bcp : Option Nat}
      {r : ConfigState × Option Nat}, processCommands cs st bcp = .ok r →
      ∀ c ∈ cs, ∃ st0 bcp0 r0, processOneCommand st0 bcp0 c = .ok r0 := by
  intro cs
  induction cs with
  | nil => intro st bcp r h c hc; simp at hc
  | cons c0 rest ih =>
    intro st bcp r h c hc
    simp only [processCommands] at h
    split at h
    · exact absurd h (by simp)
    · rename_i st1 bcp1 h1
      rcases List.mem_cons.mp hc with rfl | hmem
      · exact ⟨st, bcp, _, h1⟩
      · exact ih h c hmem

/-- C4: a configuration declaring a command named "build" or "rebuild" with
global kind, or with `safeForSimultaneousRushProcesses=true`, never constructs
successfully; and when the offending command is reached (its name not yet
taken, its normalization succeeding), the thrown error is exactly the one
naming the command and the violated rule, whose rendered message spells out
the command name together with either the forbidden "global" kind and the
allowed kinds, or the forbidden flag. -/
theorem buildRebuild_specialRules (json : CommandLineJson)
    (opts : CommandLineConfigurationOptions) (c : CommandJson)
    (hc : c ∈ json.commands.getD [])
    (hname : c.name = buildCommandName ∨ c.name = rebuildCommandName)
    (hviol : c.isGlobalKind = true ∨ c.safeForSimultaneousRushProcesses = true) :
    (∀ st, constructCommandLineConfiguration (some json) opts ≠ .ok st) ∧
    (∀ (st : ConfigState) (bcp : Option Nat), assocGet st.commands c.name = none →
      (c.isGlobalKind = true →
        processOneCommand st bcp c = .error (.specialCommandGlobalKind c.name)) ∧
      (c.isGlobalKind = false → c.safeForSimultaneousRushProcesses = true →
        (∃ r, normalizeCommand st c = .ok r) →
        processOneCommand st bcp c = .error (.specialCommandUnsafe c.name))) ∧
    ConfigError.render (.specialCommandGlobalKind c.name) =
      commandLineFilename ++ " defines a command \"" ++ c.name ++
      "\" using the command kind \"global\". This command can only be designated as a command kind \"bulk\" or \"phased\"." ∧
    ConfigError.render (.specialCommandUnsafe c.name) =
      commandLineFilename ++ " defines a command \"" ++ c.name ++
      "\" using \"safeForSimultaneousRushProcesses=true\". This configuration is not supported for \"" ++
      c.name ++ "\"." := by
  refine ⟨fun st h => ?_, fun st bcp hdup => ⟨fun hg => ?_, fun hg hs ⟨⟨cd, st1⟩, hnorm⟩ => ?_⟩,
    rfl, rfl⟩
  · simp only [constructCommandLineConfiguration] at h
    split at h
    · exact absurd h (by simp)
    · split at h
      · exact absurd h (by simp)
      · rename_i reg hreg r hcmds
        obtain ⟨st0, bcp0, r0, h0⟩ := processCommands_ok_elem hcmds c (by simpa using hc)
        exact processOneCommand_special_violation_ne_ok hname hviol st0 bcp0 r0 h0
  · cases c with
    | phased pc => simp [CommandJson.isGlobalKind] at hg
    | bulk bc => simp [CommandJson.isGlobalKind] at hg
    | global gc =>
      simp only [processOneCommand, hdup, Option.isSome_none, Bool.false_eq_true, if_false,
        normalizeCommand]
      have : (CommandJson.global gc).name = buildCommandName ∨
          (CommandJson.global gc).name = rebuildCommandName := hname
      simp only [if_pos this]
      rfl
  · have hkind : cd.kind ≠ .global := fun hcontra =>
      absurd ((normalizeCommand_kind_global_iff hnorm).mp hcontra) (by simp [hg])
    simp only [processOneCommand, hdup, Option.isSome_none, Bool.false_eq_true, if_false, hnorm,
      if_pos hname]
    rw [if_neg hkind, if_pos (by simpa using hs)]

/-- Witness for C4: declaring "build" as a global-kind command is rejected
with the exact error naming the command and the forbidden kind. -/
theorem buildRebuild_specialRules_witness :
    processOneCommand initialState none
        (CommandJson.global { name := "build", safeForSimultaneousRushProcesses := false }) =
      .error (.specialCommandGlobalKind "build") ∧
    ConfigError.render (.specialCommandGlobalKind "build") =
      commandLineFilename ++ " defines a command \"" ++ "build" ++
      "\" using the command kind \"global\". This command can only be designated as a command kind \"bulk\" or \"phased\"." :=
  have h := buildRebuild_specialRules
    { phases := none,
      commands :=
        some [CommandJson.global { name := "build", safeForSimultaneousRushProcesses := false }],
      parameters := none }
    { doNotIncludeDefaultBuildCommands := false }
    (CommandJson.global { name := "build", safeForSimultaneousRushProcesses := false })
    (by simp) (Or.inl rfl) (Or.inl rfl)
  ⟨(h.2.1 initialState none rfl).1 rfl, h.2.2.1⟩


/-! ## Claim C5: the synthesized rebuild command shares build's set objects -/

theorem translateBulk_fields (st : ConfigState) (c : BulkCommandJson) :
    (translateBulkCommandToPhasedCommand st c).1.kind = .phased ∧
    (translateBulkCommandToPhasedCommand st c).1.phasesId = some st.nextId ∧
    (translateBulkCommandToPhasedCommand st c).2.commands = st.commands ∧
    (translateBulkCommandToPhasedCommand st c).1.isSynthetic = true := by
  cases hw : c.watchForChanges <;>
    simp [translateBulkCommandToPhasedCommand, allocPhaseSet, allocParamSet, hw]

theorem normalizeCommand_phased_phasesId {st : ConfigState} {c : CommandJson} {cd : CommandData}
    {st1 : ConfigState} (h : normalizeCommand st c = .ok (cd, st1)) (hk : cd.kind ≠ .global) :
    cd.phasesId.isSome = true := by
  cases c with
  | phased pc =>
    simp only [normalizeCommand] at h
    split at h
    · exact absurd h (by simp)
    · split at h
      · exact absurd h (by simp)
      · simp only [Except.ok.injEq, Prod.mk.injEq] at h
        rw [← h.1]
        rfl
  | global gc =>
    simp only [normalizeCommand, Except.ok.injEq, Prod.mk.injEq] at h
    rw [← h.1] at hk
    simp at hk
  | bulk bc =>
    simp only [normalizeCommand] at h
    have h' := Except.ok.inj h
    have h1 : cd = (translateBulkCommandToPhasedCommand st bc).1 := by rw [h']
    rw [h1, (translateBulk_fields st bc).2.1]
    rfl

theorem processOneCommand_buildPhasesInv {st : ConfigState} {bcp : Option Nat} {c : CommandJson}
    {st' : ConfigState} {bcp' : Option Nat}
    (h : processOneCommand st bcp c = .ok (st', bcp'))
    (hInv : BuildPhasesInv st bcp) : BuildPhasesInv st' bcp' := by
  obtain ⟨hdup, cd, st1, hnorm, hst, hbcp, hspec⟩ := processOneCommand_ok_inversion h
  have hcomm : st1.commands = st.commands := (normalizeCommand_frame hnorm).1
  subst hst
  by_cases hb : c.name = buildCommandName
  · unfold BuildPhasesInv
    simp only [hb, assocGet_assocSet_self]
    refine ⟨by rw [hbcp, if_pos hb], ?_⟩
    exact normalizeCommand_phased_phasesId hnorm (hspec (Or.inl hb)).1
  · unfold BuildPhasesInv
    simp only []
    rw [assocGet_assocSet_ne _ _ _ _ (fun hcontra => hb hcontra.symm), hcomm]
    rw [hbcp, if_neg hb]
    exact hInv

theorem processCommands_buildPhasesInv :
    ∀ {cs : List CommandJson} {st : ConfigState} {bcp : Option Nat} {st' : ConfigState}
      {bcp' : Option Nat}, processCommands cs st bcp = .ok (st', bcp') →
      BuildPhasesInv st bcp → BuildPhasesInv st' bcp' := by
  intro cs
  induction cs with
  | nil =>
    intro st bcp st' bcp' h hInv
    simp only [processCommands, Except.ok.injEq, Prod.mk.injEq] at h
    rw [← h.1, ← h.2]
    exact hInv
  | cons c rest ih =>
    intro st bcp st' bcp' h hInv
    simp only [processCommands] at h
    split at h
    · exact absurd h (by simp)
    · rename_i st1 bcp1 h1
      exact ih h (processOneCommand_buildPhasesInv h1 hInv)

theorem synthesizeDefaultRebuild_spec {st : ConfigState} {buildCmd : CommandData} {pid : Nat}
    {st' : ConfigState}
    (hnorebuild : assocGet st.commands rebuildCommandName = none)
    (h : synthesizeDefaultRebuild st buildCmd (some pid) = .ok st') :
    assocGet st'.commands rebuildCommandName = some
      { kind := .phased
        isSynthetic := true
        safeForSimultaneousRushProcesses :=
          defaultRebuildCommandJson.safeForSimultaneousRushProcesses
        phasesId := some pid
        watchPhasesId := some st.nextId
        alwaysWatch := false
        assocParamsId := buildCmd.assocParamsId } ∧
    (∀ k, k ≠ rebuildCommandName → assocGet st'.commands k = assocGet st.commands k) := by
  simp only [synthesizeDefaultRebuild, hnorebuild, Option.isSome_none, Bool.false_eq_true,
    if_false, reduceIte, Except.ok.injEq] at h
  subst h
  constructor
  · exact assocGet_assocSet_self _ _ _
  · intro k hk
    exact assocGet_assocSet_ne _ _ _ _ hk

theorem applyDefaults_false_of_build {st : ConfigState} {bcp : Option Nat} {bc : CommandData}
    (hb : assocGet st.commands buildCommandName = some bc) :
    applyDefaultBuildCommands false st bcp = synthesizeDefaultRebuild st bc bcp := by
  unfold applyDefaultBuildCommands
  rw [hb]
  rfl

theorem applyDefaults_false_of_noBuild {st : ConfigState} {bcp : Option Nat}
    (hb : assocGet st.commands buildCommandName = none) :
    applyDefaultBuildCommands false st bcp =
      synthesizeDefaultRebuild
        { (translateBulkCommandToPhasedCommand st defaultBuildCommandJson).2 with
          commands := assocSet
            (translateBulkCommandToPhasedCommand st defaultBuildCommandJson).2.commands
            buildCommandName
            (translateBulkCommandToPhasedCommand st defaultBuildCommandJson).1 }
        (translateBulkCommandToPhasedCommand st defaultBuildCommandJson).1
        (translateBulkCommandToPhasedCommand st defaultBuildCommandJson).1.phasesId := by
  unfold applyDefaultBuildCommands
  rw [hb]
  rfl

/-- C5: for every configuration that does not declare a "rebuild" command,
constructed with the default build commands included, the constructor
synthesizes a "rebuild" command whose `phases` set is the very same set object
as the "build" command's (equal `phasesId` into the set store) and whose
`associatedParameters` is the same object as "build"'s (equal
`assocParamsId`). -/
theorem rebuild_shares_build_phaseSet_and_parameters (json : CommandLineJson) (st : ConfigState)
    (hnorebuild : ∀ c ∈ json.commands.getD [], CommandJson.name c ≠ rebuildCommandName)
    (h : constructCommandLineConfiguration (some json)
      { doNotIncludeDefaultBuildCommands := false } = .ok st) :
    ∃ bc rc, assocGet st.commands buildCommandName = some bc ∧
      assocGet st.commands rebuildCommandName = some rc ∧
      rc.isSynthetic = true ∧ rc.kind = .phased ∧
      rc.phasesId = bc.phasesId ∧ rc.phasesId.isSome = true ∧
      rc.assocParamsId = bc.assocParamsId := by
  have hne : rebuildCommandName ≠ buildCommandName := by decide
  simp only [constructCommandLineConfiguration] at h
  split at h
  · exact absurd h (by simp)
  · split at h
    · exact absurd h (by simp)
    · rename_i st1 bcp hcmds
      have hInv : BuildPhasesInv st1 bcp := by
        refine processCommands_buildPhasesInv hcmds ?_
        unfold BuildPhasesInv
        simp [initialState, assocGet]
      have hnoreb1 : assocGet st1.commands rebuildCommandName = none := by
        rw [assocGet_eq_none]
        intro hmem
        obtain ⟨pr, hpr, hfst⟩ := List.mem_map.mp hmem
        rcases processCommands_names hcmds pr hpr with h' | ⟨c, hc, hcname⟩
        · simp [initialState] at h'
        · exact hnorebuild c (by simpa using hc) (hcname.trans hfst)
      split at h
      · exact absurd h (by simp)
      · rename_i st2 hdefaults
        obtain ⟨e1, -, -, -, -⟩ := processParameters_frame h
        rw [e1]
        clear h
        cases hbuild : assocGet st1.commands buildCommandName with
        | some bc =>
          rw [applyDefaults_false_of_build hbuild] at hdefaults
          unfold BuildPhasesInv at hInv
          rw [hbuild] at hInv
          obtain ⟨hbcp, hsome⟩ := hInv
          obtain ⟨pid, hpid⟩ := Option.isSome_iff_exists.mp hsome
          rw [hbcp, hpid] at hdefaults
          obtain ⟨hrc, hothers⟩ := synthesizeDefaultRebuild_spec hnoreb1 hdefaults
          exact ⟨bc, _, (hothers buildCommandName (Ne.symm hne)).trans hbuild, hrc, rfl, rfl,
            by simp [hpid], by simp, rfl⟩
        | none =>
          rw [applyDefaults_false_of_noBuild hbuild] at hdefaults
          obtain ⟨hkind, hpid, hcomm, hsynth⟩ := translateBulk_fields st1 defaultBuildCommandJson
          rw [hpid] at hdefaults
          obtain ⟨hrc, hothers⟩ := synthesizeDefaultRebuild_spec
            (by
              show assocGet
                (assocSet (translateBulkCommandToPhasedCommand st1 defaultBuildCommandJson).2.commands
                  buildCommandName
                  (translateBulkCommandToPhasedCommand st1 defaultBuildCommandJson).1)
                rebuildCommandName = none
              rw [assocGet_assocSet_ne _ _ _ _ hne, hcomm]
              exact hnoreb1) hdefaults
          refine ⟨(translateBulkCommandToPhasedCommand st1 defaultBuildCommandJson).1, _, ?_, hrc,
            rfl, rfl, by simp [hpid], by simp, rfl⟩
          rw [hothers buildCommandName (Ne.symm hne)]
          show assocGet
            (assocSet (translateBulkCommandToPhasedCommand st1 defaultBuildCommandJson).2.commands
              buildCommandName
              (translateBulkCommandToPhasedCommand st1 defaultBuildCommandJson).1)
            buildCommandName = some _
          exact assocGet_assocSet_self _ _ _

/-- Witness for C5: the empty configuration (no commands declared), with the
default build commands included. -/
theorem rebuild_shares_build_phaseSet_and_parameters_witness :
    ∃ bc rc,
      assocGet defaultConstructedState.commands buildCommandName = some bc ∧
      assocGet defaultConstructedState.commands rebuildCommandName = some rc ∧
      rc.isSynthetic = true ∧ rc.kind = .phased ∧
      rc.phasesId = bc.phasesId ∧ rc.phasesId.isSome = true ∧
      rc.assocParamsId = bc.assocParamsId :=
  rebuild_shares_build_phaseSet_and_parameters
    { phases := none, commands := none, parameters := none } defaultConstructedState
    (by simp) rfl


/-! ## Claim C8: phase-name pattern and uniqueness -/

theorem registerPhases_regOk :
    ∀ {pj : List PhaseJson} {reg reg' : List (String × PhaseData)},
      registerPhases pj reg = .ok reg' → PhaseRegOk reg → PhaseRegOk reg' := by
  intro pj
  induction pj with
  | nil =>
    intro reg reg' h hok
    simp only [registerPhases, Except.ok.injEq] at h
    rw [← h]
    exact hok
  | cons p rest ih =>
    intro reg reg' h hok
    simp only [registerPhases] at h
    split at h
    · exact absurd h (by simp)
    · rename_i hdup
      split at h
      · rename_i hname
        refine ih h ⟨?_, ?_⟩
        · simp only [List.map_append, List.map_cons, List.map_nil]
          rw [List.nodup_append]
          refine ⟨hok.1, List.nodup_singleton _, fun x hx hx' => ?_⟩
          simp only [List.mem_singleton] at hx'
          subst hx'
          exact (assocGet_eq_none.mp (by simpa using hdup)) hx
        · intro pr hpr hsynth
          rcases List.mem_append.mp hpr with h' | h'
          · exact hok.2 pr h' hsynth
          · simp only [List.mem_singleton] at h'
            subst h'
            exact hname
      · exact absurd h (by simp)

theorem resolvePhaseDeps_regOk :
    ∀ {pj : List PhaseJson} {reg reg' : List (String × PhaseData)},
      resolvePhaseDeps pj reg = .ok reg' → PhaseRegOk reg → PhaseRegOk reg' := by
  intro pj
  induction pj with
  | nil =>
    intro reg reg' h hok
    simp only [resolvePhaseDeps, Except.ok.injEq] at h
    rw [← h]
    exact hok
  | cons p rest ih =>
    intro reg reg' h hok
    simp only [resolvePhaseDeps] at h
    split at h
    · exact absurd h (by simp)
    · rename_i pd hpd
      split at h
      · exact absurd h (by simp)
      · rename_i sd hsd
        split at h
        · exact absurd h (by simp)
        · rename_i ud hud
          refine ih h ⟨nodup_map_fst_assocSet hok.1, ?_⟩
          intro pr hpr hsynth
          rcases mem_assocSet hpr with h' | h'
          · have hflag : pd.isSynthetic = false := by
              rw [h'] at hsynth
              simpa using hsynth
            have := hok.2 (p.name, pd) (assocGet_mem hpd) hflag
            rw [h']
            simpa using this
          · exact hok.2 pr h' hsynth

theorem processPhasesSection_regOk {phasesJson : Option (List PhaseJson)}
    {reg : List (String × PhaseData)} (h : processPhasesSection phasesJson = .ok reg) :
    PhaseRegOk reg := by
  cases phasesJson with
  | none =>
    simp only [processPhasesSection, Except.ok.injEq] at h
    rw [← h]
    exact ⟨List.nodup_nil, by simp⟩
  | some pj =>
    simp only [processPhasesSection] at h
    split at h
    · exact absurd h (by simp)
    · rename_i reg0 hreg0
      split at h
      · exact absurd h (by simp)
      · rename_i reg1 hreg1
        split at h
        · exact absurd h (by simp)
        · simp only [Except.ok.injEq] at h
          subst h
          exact resolvePhaseDeps_regOk hreg1
            (registerPhases_regOk hreg0 ⟨List.nodup_nil, by simp⟩)

theorem translateBulk_phases (st : ConfigState) (c : BulkCommandJson) :
    ∃ pd, (translateBulkCommandToPhasedCommand st c).2.phases = assocSet st.phases c.name pd ∧
      pd.isSynthetic = true ∧ pd.selfDeps = [] ∧ (∀ d ∈ pd.upstreamDeps, d = c.name) := by
  refine ⟨{ isSynthetic := true
            logFilenameIdentifier := normalizeNameForLogFilenameIdentifiers c.name
            selfDeps := []
            upstreamDeps := if c.ignoreDependencyOrder then [] else [c.name]
            ignoreMissingScript := c.ignoreMissingScript
            allowWarningsOnSuccess := c.allowWarningsInSuccessfulBuild }, ?_, rfl, rfl, ?_⟩
  · cases hw : c.watchForChanges <;>
      simp [translateBulkCommandToPhasedCommand, allocPhaseSet, allocParamSet, hw]
  · cases hi : c.ignoreDependencyOrder <;> simp [hi]

theorem phaseRegOk_assocSet_synthetic {reg : List (String × PhaseData)} {n : String}
    {pd : PhaseData} (hok : PhaseRegOk reg) (hsynth : pd.isSynthetic = true) :
    PhaseRegOk (assocSet reg n pd) := by
  refine ⟨nodup_map_fst_assocSet hok.1, ?_⟩
  intro pr hpr hns
  rcases mem_assocSet hpr with h' | h'
  · subst h'
    simp only [] at hns
    rw [hsynth] at hns
    exact absurd hns (by simp)
  · exact hok.2 pr h' hns

theorem normalizeCommand_phases {st : ConfigState} {c : CommandJson} {cd : CommandData}
    {st1 : ConfigState} (h : normalizeCommand st c = .ok (cd, st1)) :
    st1.phases = st.phases ∨
    ∃ n pd, st1.phases = assocSet st.phases n pd ∧ pd.isSynthetic = true ∧
      pd.selfDeps = [] ∧ (∀ d ∈ pd.upstreamDeps, d = n) := by
  cases c with
  | phased pc =>
    simp only [normalizeCommand] at h
    split at h
    · exact absurd h (by simp)
    · split at h
      · exact absurd h (by simp)
      · simp only [allocPhaseSet, allocParamSet, Except.ok.injEq, Prod.mk.injEq] at h
        rw [← h.2]
        exact Or.inl rfl
  | global gc =>
    simp only [normalizeCommand, allocParamSet, Except.ok.injEq, Prod.mk.injEq] at h
    rw [← h.2]
    exact Or.inl rfl
  | bulk bc =>
    simp only [normalizeCommand, Except.ok.injEq] at h
    obtain ⟨pd, hphases, h1, h2, h3⟩ := translateBulk_phases st bc
    have hst1 : st1 = (translateBulkCommandToPhasedCommand st bc).2 := by rw [h]
    exact Or.inr ⟨bc.name, pd, by rw [hst1, hphases], h1, h2, h3⟩

theorem processOneCommand_phaseRegOk {st : ConfigState} {bcp : Option Nat} {c : CommandJson}
    {st' : ConfigState} {bcp' : Option Nat}
    (h : processOneCommand st bcp c = .ok (st', bcp'))
    (hok : PhaseRegOk st.phases) : PhaseRegOk st'.phases := by
  obtain ⟨hdup, cd, st1, hnorm, hst, -, -⟩ := processOneCommand_ok_inversion h
  subst hst
  simp only []
  rcases normalizeCommand_phases hnorm with h' | ⟨n, pd, h', hsynth, -, -⟩
  · rw [h']
    exact hok
  · rw [h']
    exact phaseRegOk_assocSet_synthetic hok hsynth

theorem processCommands_phaseRegOk :
    ∀ {cs : List CommandJson} {st : ConfigState} {bcp : Option Nat} {st' : ConfigState}
      {bcp' : Option Nat}, processCommands cs st bcp = .ok (st', bcp') →
      PhaseRegOk st.phases → PhaseRegOk st'.phases := by
  intro cs
  induction cs with
  | nil =>
    intro st bcp st' bcp' h hok
    simp only [processCommands, Except.ok.injEq, Prod.mk.injEq] at h
    rw [← h.1]
    exact hok
  | cons c rest ih =>
    intro st bcp st' bcp' h hok
    simp only [processCommands] at h
    split at h
    · exact absurd h (by simp)
    · rename_i st1 bcp1 h1
      exact ih h (processOneCommand_phaseRegOk h1 hok)

theorem synthesizeDefaultRebuild_phases {st : ConfigState} {buildCmd : CommandData}
    {bcp : Option Nat} {st' : ConfigState}
    (h : synthesizeDefaultRebuild st buildCmd bcp = .ok st') : st'.phases = st.phases := by
  simp only [synthesizeDefaultRebuild] at h
  split at h
  · simp only [Except.ok.injEq] at h
    rw [← h]
  · split at h
    · exact absurd h (by simp)
    · simp only [Except.ok.injEq] at h
      rw [← h]

theorem applyDefaults_phaseRegOk {doNotInclude : Bool} {st : ConfigState} {bcp : Option Nat}
    {st' : ConfigState} (h : applyDefaultBuildCommands doNotInclude st bcp = .ok st')
    (hok : PhaseRegOk st.phases) : PhaseRegOk st'.phases := by
  cases doNotInclude with
  | true =>
    simp only [applyDefaultBuildCommands, if_true] at h
    simp only [Except.ok.injEq] at h
    rw [← h]
    exact hok
  | false =>
    cases hbuild : assocGet st.commands buildCommandName with
    | some bc =>
      rw [applyDefaults_false_of_build hbuild] at h
      rw [synthesizeDefaultRebuild_phases h]
      exact hok
    | none =>
      rw [applyDefaults_false_of_noBuild hbuild] at h
      rw [synthesizeDefaultRebuild_phases h]
      obtain ⟨pd, hphases, hsynth, -, -⟩ := translateBulk_phases st defaultBuildCommandJson
      show PhaseRegOk (translateBulkCommandToPhasedCommand st defaultBuildCommandJson).2.phases
      rw [hphases]
      exact phaseRegOk_assocSet_synthetic hok hsynth

/-- C8 (amended): after every successful construction, no two phases in the
registry share a name, and every non-synthetic (declared) phase's name matches
the required pattern (the required prefix followed by lowercase letters,
numbers or hyphens, starting with a letter and not ending with a hyphen).
Synthetic phases translated from bulk commands are named after the command and
are exempt from the pattern. -/
theorem phases_nodup_and_declared_names_match_pattern (json : Option CommandLineJson)
    (opts : CommandLineConfigurationOptions) (st : ConfigState)
    (h : constructCommandLineConfiguration json opts = .ok st) :
    (st.phases.map Prod.fst).Nodup ∧
    ∀ pr ∈ st.phases, pr.2.isSynthetic = false → phaseNameOk pr.1 = true := by
  simp only [constructCommandLineConfiguration] at h
  split at h
  · exact absurd h (by simp)
  · rename_i reg hreg
    split at h
    · exact absurd h (by simp)
    · rename_i st1 bcp hcmds
      split at h
      · exact absurd h (by simp)
      · rename_i st2 hdefaults
        have h0 : PhaseRegOk reg := processPhasesSection_regOk hreg
        have h1 : PhaseRegOk st1.phases := processCommands_phaseRegOk hcmds h0
        have h2 : PhaseRegOk st2.phases := applyDefaults_phaseRegOk hdefaults h1
        have h3 := (processParameters_frame h).2.1
        rw [h3]
        exact h2

/-- Counterexample to C8 as stated: the default construction (empty
command-line.json) registers the synthetic phase "build", whose name does not
match the required phase-name pattern. -/
theorem phaseNamePattern_counterexample :
    constructCommandLineConfiguration
        (some { phases := none, commands := none, parameters := none })
        { doNotIncludeDefaultBuildCommands := false } = .ok defaultConstructedState ∧
    ∃ pd, assocGet defaultConstructedState.phases "build" = some pd ∧
      pd.isSynthetic = true ∧ phaseNameOk "build" = false :=
  ⟨rfl, ⟨_, rfl, rfl, rfl⟩⟩

/-- Witness for the amended C8 at the default construction. -/
theorem phases_nodup_and_declared_names_match_pattern_witness :
    (defaultConstructedState.phases.map Prod.fst).Nodup ∧
    ∀ pr ∈ defaultConstructedState.phases, pr.2.isSynthetic = false →
      phaseNameOk pr.1 = true :=
  phases_nodup_and_declared_names_match_pattern
    (some { phases := none, commands := none, parameters := none })
    { doNotIncludeDefaultBuildCommands := false } defaultConstructedState rfl


/-! ## Claim C7: parameter validation -/

theorem choiceDefaultCheck_ok_iff (p : ParameterJson) :
    choiceDefaultCheck p = .ok () ↔
      ¬(p.parameterKind = .choice ∧
        ∃ dv, p.defaultValue = some dv ∧ dv ≠ "" ∧ dv ∉ p.alternatives) := by
  unfold choiceDefaultCheck
  cases hk : p.parameterKind with
  | choice =>
    cases hd : p.defaultValue with
    | none => simp [hd]
    | some dv =>
      by_cases he : dv = ""
      · simp [hd, he]
      · by_cases hc : dv ∈ p.alternatives
        · simp [hd, he, hc]
        · simp [hd, he, hc]
  | flag => simp [hk]
  | stringKind => simp [hk]

theorem processParamCommands_ok_iff (longName : String) (paramIdx : Nat) :
    ∀ (cmds : List String) (st : ConfigState) (acc : List String) (b1 b2 : Bool),
      (∃ r, processParamCommands longName paramIdx cmds st acc b1 b2 = .ok r) ↔
        ∀ c ∈ cmds, (assocGet st.commands c).isSome := by
  intro cmds
  induction cmds with
  | nil => intro st acc b1 b2; simp [processParamCommands]
  | cons c rest ih =>
    intro st acc b1 b2
    simp only [processParamCommands]
    cases hc : assocGet st.commands c with
    | none => simp [hc]
    | some cd =>
      constructor
      · intro hex x hx
        rcases List.mem_cons.mp hx with rfl | hx'
        · simp [hc]
        · exact (ih _ _ _ _).mp hex x hx'
      · intro hall
        exact (ih _ _ _ _).mpr (fun x hx => hall x (by simp [hx]))

theorem processParamCommands_ok_spec (longName : String) (paramIdx : Nat) :
    ∀ (cmds : List String) (st : ConfigState) (acc : List String) (b1 b2 : Bool)
      {st1 : ConfigState} {acc' : List String} {b1' b2' : Bool},
      processParamCommands longName paramIdx cmds st acc b1 b2 = .ok (st1, acc', b1', b2') →
      acc' = acc ++ cmds.filterMap (fun c => assocGet st.syntheticPhasesByBulkName c) ∧
      (b1' = true ↔ (b1 = true ∨ cmds ≠ [])) ∧
      (b2' = true ↔ (b2 = true ∧ ∀ c ∈ cmds, ∀ cd, assocGet st.commands c = some cd →
        cd.kind = .phased)) := by
  intro cmds
  induction cmds with
  | nil =>
    intro st acc b1 b2 st1 acc' b1' b2' h
    simp only [processParamCommands, Except.ok.injEq, Prod.mk.injEq] at h
    obtain ⟨-, h2, h3, h4⟩ := h
    subst h2; subst h3; subst h4
    simp
  | cons c rest ih =>
    intro st acc b1 b2 st1 acc' b1' b2' h
    simp only [processParamCommands] at h
    cases hc : assocGet st.commands c with
    | none => rw [hc] at h; exact absurd h (by simp)
    | some cd =>
      rw [hc] at h
      obtain ⟨e1, e2, e3⟩ := ih _ _ _ _ h
      refine ⟨?_, ?_, ?_⟩
      · rw [e1]
        cases hs : assocGet st.syntheticPhasesByBulkName c <;>
          simp [hs, List.filterMap_cons]
      · rw [e2]
        simp
      · rw [e3]
        constructor
        · rintro ⟨hb, hall⟩
          simp only [Bool.and_eq_true, decide_eq_true_eq] at hb
          refine ⟨hb.1, fun x hx cdx hcdx => ?_⟩
          rcases List.mem_cons.mp hx with rfl | hx'
          · rw [hc] at hcdx
            exact (Option.some.inj hcdx) ▸ hb.2
          · exact hall x hx' cdx hcdx
        · rintro ⟨hb, hall⟩
          refine ⟨?_, fun x hx cdx hcdx => hall x (by simp [hx]) cdx hcdx⟩
          simp only [Bool.and_eq_true, decide_eq_true_eq]
          exact ⟨hb, hall c (by simp) cd hc⟩

theorem checkParamPhases_ok_iff (longName : String) (reg : List (String × PhaseData)) :
    ∀ (phs : List String) (b : Bool),
      (∃ r, checkParamPhases longName reg phs b = .ok r) ↔
        ∀ ph ∈ phs, (assocGet reg ph).isSome := by
  intro phs
  induction phs with
  | nil => intro b; simp [checkParamPhases]
  | cons ph rest ih =>
    intro b
    simp only [checkParamPhases]
    cases hp : assocGet reg ph with
    | none => simp [hp]
    | some pd =>
      constructor
      · intro hex x hx
        rcases List.mem_cons.mp hx with rfl | hx'
        · simp [hp]
        · exact (ih _).mp hex x hx'
      · intro hall
        exact (ih _).mpr (fun x hx => hall x (by simp [hx]))

theorem checkParamPhases_ok_spec (longName : String) (reg : List (String × PhaseData)) :
    ∀ (phs : List String) (b : Bool) {b' : Bool},
      checkParamPhases longName reg phs b = .ok b' →
      (b' = true ↔ (b = true ∨ phs ≠ [])) := by
  intro phs
  induction phs with
  | nil =>
    intro b b' h
    simp only [checkParamPhases, Except.ok.injEq] at h
    subst h
    simp
  | cons ph rest ih =>
    intro b b' h
    simp only [checkParamPhases] at h
    cases hp : assocGet reg ph with
    | none => rw [hp] at h; exact absurd h (by simp)
    | some pd =>
      rw [hp] at h
      rw [ih _ h]
      simp

theorem processOneParameter_ok_iff (st : ConfigState) (p : ParameterJson) :
    (∃ st', processOneParameter st p = .ok st') ↔ ¬ parameterFails st p := by
  constructor
  · rintro ⟨st', h⟩
    simp only [processOneParameter] at h
    split at h
    · exact absurd h (by simp)
    · rename_i u hchoice
      split at h
      · exact absurd h (by simp)
      · rename_i st1 acc' b1' b2' hloop
        split at h
        · exact absurd h (by simp)
        · rename_i b' hphases
          obtain ⟨e1, e2, e3⟩ := processParamCommands_ok_spec _ _ _ _ _ _ _ hloop
          have hframe := processParamCommands_frame hloop
          intro hfails
          rcases hfails with hbad | ⟨c, hc, hcnone⟩ | ⟨ph, hph, hphnone⟩ | hempty | ⟨hall, hemptyph⟩
          · cases u
            exact (choiceDefaultCheck_ok_iff p).mp hchoice hbad
          · have := (processParamCommands_ok_iff p.longName st.parameters.length
              p.associatedCommands _ p.associatedPhases false true).mp ⟨_, hloop⟩ c hc
            rw [show ({ st with parameters := st.parameters ++ [p] } : ConfigState).commands =
              st.commands from rfl] at this
            rw [hcnone] at this
            exact absurd this (by simp)
          · have hiff := (checkParamPhases_ok_iff p.longName st1.phases acc' false).mp
              ⟨_, hphases⟩ ph (by
                rw [e1]
                simpa [paramAugmentedPhases] using hph)
            rw [hframe.2.1] at hiff
            rw [show ({ st with parameters := st.parameters ++ [p] } : ConfigState).phases =
              st.phases from rfl] at hiff
            rw [hphnone] at hiff
            exact absurd hiff (by simp)
          · have hb1 : b1' = false := by
              cases hbv : b1' with
              | false => rfl
              | true =>
                rcases e2.mp hbv with h' | h'
                · exact absurd h' (by simp)
                · exact absurd hempty h'
            rw [hb1] at h
            exact absurd h (by simp)
          · cases hb1v : b1' with
            | false =>
              rw [hb1v] at h
              exact absurd h (by simp)
            | true =>
              have hb2 : b2' = true := e3.mpr ⟨rfl, fun c hc cd hcd => hall c hc cd hcd⟩
              have hspec := checkParamPhases_ok_spec _ _ _ _ hphases
              have hbf : b' = false := by
                cases hbv : b' with
                | false => rfl
                | true =>
                  rcases hspec.mp hbv with h' | h'
                  · exact absurd h' (by simp)
                  · rw [e1] at h'
                    exact absurd (by simpa [paramAugmentedPhases] using hemptyph) h'
              rw [hb1v, hb2, hbf] at h
              exact absurd h (by simp)
  · intro hnofail
    have h1 : ¬(p.parameterKind = .choice ∧
        ∃ dv, p.defaultValue = some dv ∧ dv ≠ "" ∧ dv ∉ p.alternatives) :=
      fun hx => hnofail (Or.inl hx)
    have h2 : ∀ c ∈ p.associatedCommands, (assocGet st.commands c).isSome := by
      intro c hc
      cases hcv : assocGet st.commands c with
      | none => exact absurd (Or.inr (Or.inl ⟨c, hc, hcv⟩)) hnofail
      | some _ => simp
    have h3 : ∀ ph ∈ paramAugmentedPhases st p, (assocGet st.phases ph).isSome := by
      intro ph hph
      cases hpv : assocGet st.phases ph with
      | none => exact absurd (Or.inr (Or.inr (Or.inl ⟨ph, hph, hpv⟩))) hnofail
      | some _ => simp
    have h4 : p.associatedCommands ≠ [] :=
      fun hx => hnofail (Or.inr (Or.inr (Or.inr (Or.inl hx))))
    have hchoice : choiceDefaultCheck p = .ok () := (choiceDefaultCheck_ok_iff p).mpr h1
    obtain ⟨⟨st1, acc', b1', b2'⟩, hloop⟩ :=
      (processParamCommands_ok_iff p.longName st.parameters.length p.associatedCommands
        { st with parameters := st.parameters ++ [p] } p.associatedPhases false true).mpr
        (fun c hc => h2 c hc)
    obtain ⟨e1, e2, e3⟩ := processParamCommands_ok_spec _ _ _ _ _ _ _ hloop
    have hframe := processParamCommands_frame hloop
    obtain ⟨b', hphases⟩ :=
      (checkParamPhases_ok_iff p.longName st1.phases acc' false).mpr (by
        intro ph hph
        rw [hframe.2.1]
        refine h3 ph ?_
        rw [e1] at hph
        simpa [paramAugmentedPhases] using hph)
    have hb1 : b1' = true := e2.mpr (Or.inr h4)
    have hsecond : (b2' && !b') = false := by
      cases hb2v : b2' with
      | false => simp
      | true =>
        have hallph := (e3.mp hb2v).2
        have haug : paramAugmentedPhases st p ≠ [] := fun hemp =>
          hnofail (Or.inr (Or.inr (Or.inr (Or.inr
            ⟨fun c hc cd hcd => hallph c hc cd hcd, hemp⟩))))
        have hb' : b' = true :=
          (checkParamPhases_ok_spec _ _ _ _ hphases).mpr (Or.inr (fun hx => haug (by
            rw [e1] at hx
            simpa [paramAugmentedPhases] using hx)))
        simp [hb']
    refine ⟨{ st1 with parameters :=
      st1.parameters.set st.parameters.length { p with associatedPhases := acc' } }, ?_⟩
    simp only [processOneParameter, hchoice, hloop, hphases, hb1, hsecond]
    simp

theorem parameterFails_congr {st1 st2 : ConfigState} (p : ParameterJson)
    (hc : st1.commands = st2.commands) (hp : st1.phases = st2.phases)
    (hs : st1.syntheticPhasesByBulkName = st2.syntheticPhasesByBulkName) :
    parameterFails st1 p ↔ parameterFails st2 p := by
  unfold parameterFails paramAugmentedPhases
  rw [hc, hp, hs]

/-- C7 (amended): parameter processing fails in exactly these cases — a choice
parameter whose (nonempty) default is not among its alternatives, a named
associated command that does not exist, a named associated phase (after
synthetic augmentation) that does not exist, an empty associated-command list,
or an association exclusively with phased commands and no associated phase;
otherwise parameter processing succeeds. -/
theorem parameterValidation_failsExactly (ps : List ParameterJson) (st : ConfigState) :
    (∃ st', processParameters ps st = .ok st') ↔ ∀ p ∈ ps, ¬ parameterFails st p := by
  induction ps generalizing st with
  | nil => simp [processParameters]
  | cons p rest ih =>
    simp only [processParameters]
    constructor
    · rintro ⟨st', h⟩
      split at h
      · exact absurd h (by simp)
      · rename_i st1 h1
        intro q hq
        rcases List.mem_cons.mp hq with rfl | hq'
        · exact (processOneParameter_ok_iff st q).mp ⟨st1, h1⟩
        · obtain ⟨f1, f2, f3, -, -⟩ := processOneParameter_frame h1
          exact fun hf => (ih st1).mp ⟨st', h⟩ q hq' ((parameterFails_congr q f1 f2 f3).mpr hf)
    · intro hall
      obtain ⟨st1, h1⟩ := (processOneParameter_ok_iff st p).mpr (hall p (by simp))
      obtain ⟨f1, f2, f3, -, -⟩ := processOneParameter_frame h1
      obtain ⟨st', h'⟩ := (ih st1).mpr
        (fun q hq hf => hall q (by simp [hq]) ((parameterFails_congr q f1 f2 f3).mp hf))
      refine ⟨st', ?_⟩
      simp only [h1]
      exact h'

/-- Counterexample to C7 as stated: this parameter resolves one existing
associated command ("mycmd", a global command) and is not exclusively
associated with phased commands, so neither of the claim's two failure cases
applies and the claim predicts success; but the code throws, because the
choice parameter's default value is not among its alternatives. -/
theorem parameterValidation_counterexample :
    constructCommandLineConfiguration
        (some { phases := none
                commands := some [CommandJson.global
                  { name := "mycmd", safeForSimultaneousRushProcesses := false }]
                parameters := some [{ parameterKind := .choice
                                      longName := "--flavor"
                                      associatedCommands := ["mycmd"]
                                      associatedPhases := []
                                      alternatives := ["vanilla"]
                                      defaultValue := some "chocolate" }] })
        { doNotIncludeDefaultBuildCommands := true } =
      .error (.choiceDefaultInvalid "--flavor" "chocolate" ["vanilla"]) := rfl

/-- Witness for the amended C7: an empty parameter list always succeeds. -/
theorem parameterValidation_failsExactly_witness :
    ∃ st', processParameters [] initialState = .ok st' :=
  (parameterValidation_failsExactly [] initialState).mpr (by simp)


/-! ## Machinery for the pipeline state invariant (claims C2 and C9) -/

theorem assocGet_isSome_iff {α β : Type} [DecidableEq α] {l : List (α × β)} {k : α} :
    (assocGet l k).isSome = true ↔ k ∈ l.map Prod.fst := by
  cases h : assocGet l k with
  | none => simpa using assocGet_eq_none.mp h
  | some v =>
    simp only [Option.isSome_some, true_iff]
    exact List.mem_map.mpr ⟨(k, v), assocGet_mem h, rfl⟩

theorem regNames_assocSet_of_mem {reg : List (String × PhaseData)} {k : String}
    {v : PhaseData} (h : k ∈ regNames reg) :
    regNames (assocSet reg k v) = regNames reg := by
  unfold regNames at h ⊢
  rw [map_fst_assocSet, if_pos h]

theorem regNames_assocSet_superset {reg : List (String × PhaseData)} (k : String)
    (v : PhaseData) : ∀ x ∈ regNames reg, x ∈ regNames (assocSet reg k v) := by
  intro x hx
  unfold regNames at hx ⊢
  rw [map_fst_assocSet]
  split <;> simp [hx]

theorem set_append_length {α : Type} (l : List α) (a b : α) :
    (l ++ [a]).set l.length b = l ++ [b] := by
  induction l with
  | nil => rfl
  | cons x xs ih => simp [List.set, ih]

theorem foldl_insertUnique_append {α : Type} [DecidableEq α] (ds : List α) :
    ∀ (l : List α), ∃ ext, ds.foldl insertUnique l = l ++ ext := by
  induction ds with
  | nil => intro l; exact ⟨[], by simp⟩
  | cons d rest ih =>
    intro l
    obtain ⟨ext, hext⟩ := ih (insertUnique l d)
    by_cases hd : d ∈ l
    · refine ⟨ext, ?_⟩
      rw [List.foldl_cons, hext]
      unfold insertUnique
      rw [if_pos hd]
    · refine ⟨d :: ext, ?_⟩
      rw [List.foldl_cons, hext]
      unfold insertUnique
      rw [if_neg hd, List.append_assoc]
      rfl

theorem selfDepsOf_subset_names {reg : List (String × PhaseData)}
    (hwf : PhaseDepsWF reg) (x : String) : ∀ d ∈ selfDepsOf reg x, d ∈ regNames reg := by
  intro d hd
  unfold selfDepsOf at hd
  cases h : assocGet reg x with
  | none => rw [h] at hd; simp at hd
  | some pd =>
    rw [h] at hd
    exact (hwf _ (assocGet_mem h)).1 d hd

theorem upstreamDepsOf_subset_names {reg : List (String × PhaseData)}
    (hwf : PhaseDepsWF reg) (x : String) : ∀ d ∈ upstreamDepsOf reg x, d ∈ regNames reg := by
  intro d hd
  unfold upstreamDepsOf at hd
  cases h : assocGet reg x with
  | none => rw [h] at hd; simp at hd
  | some pd =>
    rw [h] at hd
    exact (hwf _ (assocGet_mem h)).2 d hd

theorem expandLoop_spec (reg : List (String × PhaseData)) (U : List String)
    (hwf : PhaseDepsWF reg) (hU : ∀ x ∈ regNames reg, x ∈ U) :
    ∀ (fuel : Nat) (set : List String) (i : Nat),
      set.Nodup → (∀ x ∈ set, x ∈ U) → i ≤ set.length →
      (∀ x ∈ set.take i, (∀ d ∈ selfDepsOf reg x, d ∈ set) ∧
        (∀ d ∈ upstreamDepsOf reg x, d ∈ set)) →
      U.length + 1 ≤ fuel + i →
      (∀ x ∈ set, x ∈ expandLoop reg fuel set i) ∧
      (expandLoop reg fuel set i).Nodup ∧
      (∀ x ∈ expandLoop reg fuel set i, x ∈ U) ∧
      ClosedPhaseSet reg (expandLoop reg fuel set i) := by
  intro fuel
  induction fuel with
  | zero =>
    intro set i hnodup hsub hi hclosed hfuel
    have hlen : set.length ≤ U.length := (hnodup.subperm hsub).length_le
    omega
  | succ fuel ih =>
    intro set i hnodup hsub hi hclosed hfuel
    simp only [expandLoop]
    split
    · rename_i hlt
      set x := set.get ⟨i, hlt⟩ with hx
      set deps := selfDepsOf reg x ++ upstreamDepsOf reg x with hdeps
      have hdepsU : ∀ d ∈ deps, d ∈ U := by
        intro d hd
        rcases List.mem_append.mp hd with h' | h'
        · exact hU d (selfDepsOf_subset_names hwf x d h')
        · exact hU d (upstreamDepsOf_subset_names hwf x d h')
      obtain ⟨ext, hext⟩ := foldl_insertUnique_append deps set
      refine ih (deps.foldl insertUnique set) (i + 1)
        (nodup_foldl_insertUnique deps hnodup)
        (foldl_insertUnique_subset deps hsub hdepsU)
        ?_ ?_ ?_ |>.imp ?_ id
      · rw [hext]
        simp only [List.length_append]
        omega
      · intro y hy
        have htake : (deps.foldl insertUnique set).take (i + 1) = set.take (i + 1) := by
          rw [hext, List.take_append_of_le_length (by omega)]
        rw [htake] at hy
        rw [List.take_succ] at hy
        simp only [List.mem_append] at hy
        rcases hy with hy | hy
        · obtain ⟨hs, hu⟩ := hclosed y hy
          exact ⟨fun d hd => subset_foldl_insertUnique deps set d (hs d hd),
            fun d hd => subset_foldl_insertUnique deps set d (hu d hd)⟩
        · have hyx : y = x := by
            simp only [List.getElem?_eq_getElem hlt, Option.toList_some,
              List.mem_singleton] at hy
            exact hy
          subst hyx
          constructor
          · intro d hd
            exact mem_foldl_insertUnique (by simp [hdeps, hd]) set
          · intro d hd
            exact mem_foldl_insertUnique (by simp [hdeps, hd]) set
      · omega
      · intro hall y hy
        exact hall y (subset_foldl_insertUnique deps set y hy)
    · rename_i hge
      have hieq : i = set.length := by omega
      refine ⟨fun y hy => hy, hnodup, hsub, fun y hy => ?_⟩
      rw [hieq, List.take_length] at hclosed
      exact hclosed y hy


theorem expandPhases_spec (reg : List (String × PhaseData)) (init : List String)
    (hwf : PhaseDepsWF reg) (hinit : init.Nodup) :
    (∀ x ∈ init, x ∈ expandPhases reg init) ∧ (expandPhases reg init).Nodup ∧
    ClosedPhaseSet reg (expandPhases reg init) := by
  have h := expandLoop_spec reg (init ++ regNames reg) hwf
    (fun x hx => List.mem_append.mpr (Or.inr hx))
    (init.length + reg.length + 1) init 0 hinit
    (fun x hx => List.mem_append.mpr (Or.inl hx)) (by omega) (by simp)
    (by simp only [List.length_append, regNames, List.length_map]; omega)
  exact ⟨h.1, h.2.1, h.2.2.2⟩

theorem resolveCommandPhases_spec (reg : List (String × PhaseData)) (cmdName : String) :
    ∀ (phs : List String) (acc : List String) {acc' : List String},
      resolveCommandPhases reg cmdName phs acc = .ok acc' →
      (∀ x ∈ acc, x ∈ acc') ∧ (∀ ph ∈ phs, ph ∈ acc') ∧
      (acc.Nodup → acc'.Nodup) := by
  intro phs
  induction phs with
  | nil =>
    intro acc acc' h
    simp only [resolveCommandPhases, Except.ok.injEq] at h
    subst h
    exact ⟨fun x hx => hx, by simp, id⟩
  | cons ph rest ih =>
    intro acc acc' h
    simp only [resolveCommandPhases] at h
    split at h
    · obtain ⟨h1, h2, h3⟩ := ih _ h
      refine ⟨fun x hx => h1 x (subset_insertUnique acc ph x hx), ?_, ?_⟩
      · intro q hq
        rcases List.mem_cons.mp hq with rfl | hq'
        · exact h1 q (self_mem_insertUnique acc q)
        · exact h2 q hq'
      · intro hnd
        exact h3 (nodup_insertUnique hnd)
    · exact absurd h (by simp)

theorem selfDepsOf_assocSet_self (reg : List (String × PhaseData)) (n : String)
    (pd : PhaseData) : selfDepsOf (assocSet reg n pd) n = pd.selfDeps := by
  unfold selfDepsOf
  rw [assocGet_assocSet_self]

theorem selfDepsOf_assocSet_ne (reg : List (String × PhaseData)) (n : String) (pd : PhaseData)
    (k : String) (h : k ≠ n) : selfDepsOf (assocSet reg n pd) k = selfDepsOf reg k := by
  unfold selfDepsOf
  rw [assocGet_assocSet_ne _ _ _ _ h]

theorem upstreamDepsOf_assocSet_self (reg : List (String × PhaseData)) (n : String)
    (pd : PhaseData) : upstreamDepsOf (assocSet reg n pd) n = pd.upstreamDeps := by
  unfold upstreamDepsOf
  rw [assocGet_assocSet_self]

theorem upstreamDepsOf_assocSet_ne (reg : List (String × PhaseData)) (n : String)
    (pd : PhaseData) (k : String) (h : k ≠ n) :
    upstreamDepsOf (assocSet reg n pd) k = upstreamDepsOf reg k := by
  unfold upstreamDepsOf
  rw [assocGet_assocSet_ne _ _ _ _ h]

theorem closedPhaseSet_assocSet_synth {reg : List (String × PhaseData)} {ps : List String}
    {n : String} {pd : PhaseData} (hclosed : ClosedPhaseSet reg ps)
    (hself : pd.selfDeps = []) (hup : ∀ d ∈ pd.upstreamDeps, d = n) :
    ClosedPhaseSet (assocSet reg n pd) ps := by
  intro ph hph
  by_cases hn : ph = n
  · subst hn
    constructor
    · intro d hd
      rw [selfDepsOf_assocSet_self, hself] at hd
      simp at hd
    · intro d hd
      rw [upstreamDepsOf_assocSet_self] at hd
      rw [hup d hd]
      exact hph
  · obtain ⟨h1, h2⟩ := hclosed ph hph
    constructor
    · intro d hd
      rw [selfDepsOf_assocSet_ne _ _ _ _ hn] at hd
      exact h1 d hd
    · intro d hd
      rw [upstreamDepsOf_assocSet_ne _ _ _ _ hn] at hd
      exact h2 d hd

theorem assocGet_append_isSome {α β : Type} [DecidableEq α] {l1 : List (α × β)}
    (l2 : List (α × β)) {k : α} (h : (assocGet l1 k).isSome = true) :
    (assocGet (l1 ++ l2) k).isSome = true := by
  obtain ⟨v, hv⟩ := Option.isSome_iff_exists.mp h
  rw [assocGet_append_left hv]
  rfl

theorem addToParamSet_isSome (sets : List (Nat × List Nat)) (id i : Nat) (k : Nat) :
    (assocGet (addToParamSet sets id i) k).isSome = (assocGet sets k).isSome := by
  unfold addToParamSet
  cases h : assocGet sets id with
  | none => rfl
  | some l =>
    by_cases hk : k = id
    · subst hk
      rw [assocGet_assocSet_self, h]
      rfl
    · rw [assocGet_assocSet_ne _ _ _ _ hk]

theorem addToParamSet_mem_mono {sets : List (Nat × List Nat)} {id i k : Nat} {l : List Nat}
    (h : assocGet sets k = some l) :
    ∃ l', assocGet (addToParamSet sets id i) k = some l' ∧ ∀ x ∈ l, x ∈ l' := by
  unfold addToParamSet
  cases hid : assocGet sets id with
  | none => exact ⟨l, h, fun x hx => hx⟩
  | some l0 =>
    by_cases hk : k = id
    · subst hk
      rw [h] at hid
      obtain rfl := Option.some.inj hid
      exact ⟨insertUnique l i, assocGet_assocSet_self _ _ _, subset_insertUnique l i⟩
    · exact ⟨l, by rw [assocGet_assocSet_ne _ _ _ _ hk]; exact h, fun x hx => hx⟩

theorem addToParamSet_self {sets : List (Nat × List Nat)} {id : Nat} (i : Nat) {l : List Nat}
    (h : assocGet sets id = some l) :
    assocGet (addToParamSet sets id i) id = some (insertUnique l i) := by
  unfold addToParamSet
  rw [h, assocGet_assocSet_self]

theorem addToParamSet_bounds {sets : List (Nat × List Nat)} {id i n : Nat}
    (h : ∀ pr ∈ sets, pr.1 < n) : ∀ pr ∈ addToParamSet sets id i, pr.1 < n := by
  unfold addToParamSet
  cases hid : assocGet sets id with
  | none => exact h
  | some l =>
    intro pr hpr
    rcases mem_assocSet hpr with h' | h'
    · subst h'
      simpa using h (id, l) (assocGet_mem hid)
    · exact h pr h'

theorem translateBulk_eq (st : ConfigState) (c : BulkCommandJson) :
    translateBulkCommandToPhasedCommand st c =
      ({ kind := .phased
         isSynthetic := true
         safeForSimultaneousRushProcesses := c.safeForSimultaneousRushProcesses
         phasesId := some st.nextId
         watchPhasesId := some (if c.watchForChanges then st.nextId else st.nextId + 1)
         alwaysWatch := c.watchForChanges
         assocParamsId := if c.watchForChanges then st.nextId + 1 else st.nextId + 2 },
       { st with
         phases := assocSet st.phases c.name
           { isSynthetic := true
             logFilenameIdentifier := normalizeNameForLogFilenameIdentifiers c.name
             selfDeps := []
             upstreamDeps := if c.ignoreDependencyOrder then [] else [c.name]
             ignoreMissingScript := c.ignoreMissingScript
             allowWarningsOnSuccess := c.allowWarningsInSuccessfulBuild }
         syntheticPhasesByBulkName := assocSet st.syntheticPhasesByBulkName c.name c.name
         phaseSets := st.phaseSets ++ [(st.nextId, [c.name])] ++
           (if c.watchForChanges then [] else [(st.nextId + 1, [])])
         paramSets := st.paramSets ++
           [((if c.watchForChanges then st.nextId + 1 else st.nextId + 2), [])]
         nextId := if c.watchForChanges then st.nextId + 2 else st.nextId + 3 }) := by
  cases hw : c.watchForChanges <;>
    simp [translateBulkCommandToPhasedCommand, allocPhaseSet, allocParamSet, hw]

theorem translateBulk_stores (st : ConfigState) (c : BulkCommandJson) (hwf : StoreWF st) :
    StoreWF (translateBulkCommandToPhasedCommand st c).2 ∧
    (∃ ext, (translateBulkCommandToPhasedCommand st c).2.phaseSets = st.phaseSets ++ ext) ∧
    (∃ ext, (translateBulkCommandToPhasedCommand st c).2.paramSets = st.paramSets ++ ext) ∧
    assocGet (translateBulkCommandToPhasedCommand st c).2.phaseSets st.nextId =
      some [c.name] ∧
    assocGet (translateBulkCommandToPhasedCommand st c).2.paramSets
      (translateBulkCommandToPhasedCommand st c).1.assocParamsId = some [] := by
  have hfresh1 : assocGet st.phaseSets st.nextId = none := assocGet_of_forall_lt hwf.1
  have hfresh2a : assocGet st.paramSets (st.nextId + 1) = none :=
    assocGet_of_forall_lt (fun pr hpr => Nat.lt_succ_of_lt (hwf.2 pr hpr))
  have hfresh2b : assocGet st.paramSets (st.nextId + 2) = none :=
    assocGet_of_forall_lt (fun pr hpr => by
      have := hwf.2 pr hpr
      omega)
  rw [translateBulk_eq]
  cases hw : c.watchForChanges <;>
    simp only [hw, Bool.false_eq_true, if_false, if_true, ite_true, ite_false, reduceIte]
  · refine ⟨⟨?_, ?_⟩, ⟨_, List.append_assoc _ _ _⟩, ⟨_, rfl⟩, ?_, ?_⟩
    · intro pr hpr
      show pr.1 < st.nextId + 3
      simp only [List.append_assoc, List.mem_append, List.mem_singleton] at hpr
      rcases hpr with h' | h' | h'
      · have := hwf.1 pr h'
        omega
      · subst h'
        simp
      · subst h'
        simp
    · intro pr hpr
      show pr.1 < st.nextId + 3
      simp only [List.mem_append, List.mem_singleton] at hpr
      rcases hpr with h' | h'
      · have := hwf.2 pr h'
        omega
      · subst h'
        simp
    · rw [List.append_assoc, assocGet_append_right hfresh1]
      simp [assocGet]
    · exact assocGet_snoc_self hfresh2b
  · refine ⟨⟨?_, ?_⟩, ⟨_, List.append_assoc _ _ _⟩, ⟨_, rfl⟩, ?_, ?_⟩
    · intro pr hpr
      show pr.1 < st.nextId + 2
      simp only [List.append_assoc, List.mem_append, List.mem_singleton,
        List.append_nil] at hpr
      rcases hpr with h' | h'
      · have := hwf.1 pr h'
        omega
      · subst h'
        simp
    · intro pr hpr
      show pr.1 < st.nextId + 2
      simp only [List.mem_append, List.mem_singleton] at hpr
      rcases hpr with h' | h'
      · have := hwf.2 pr h'
        omega
      · subst h'
        simp
    · rw [List.append_assoc, assocGet_append_right hfresh1]
      simp [assocGet]
    · exact assocGet_snoc_self hfresh2a


theorem normalizeCommand_phased_eq {st : ConfigState} {pc : PhasedCommandJson}
    {initPhases : List String} {aw : Bool} {watch : List String}
    (h1 : resolveCommandPhases st.phases pc.name pc.phases [] = .ok initPhases)
    (h2 : resolveWatchOptions st.phases pc.name pc.watchOptions = .ok (aw, watch)) :
    normalizeCommand st (.phased pc) = .ok
      ({ kind := .phased
         isSynthetic := false
         safeForSimultaneousRushProcesses := pc.safeForSimultaneousRushProcesses
         phasesId := some st.nextId
         watchPhasesId := some (st.nextId + 1)
         alwaysWatch := aw
         assocParamsId := st.nextId + 2 },
       { st with
         phaseSets := st.phaseSets ++ [(st.nextId, expandPhases st.phases initPhases)] ++
           [(st.nextId + 1, watch)]
         paramSets := st.paramSets ++ [(st.nextId + 2, [])]
         nextId := st.nextId + 3 }) := by
  simp [normalizeCommand, h1, h2, allocPhaseSet, allocParamSet]

theorem normalizeCommand_global_eq (st : ConfigState) (gc : GlobalCommandJson) :
    normalizeCommand st (.global gc) = .ok
      ({ kind := .global
         isSynthetic := false
         safeForSimultaneousRushProcesses := gc.safeForSimultaneousRushProcesses
         phasesId := none
         watchPhasesId := none
         alwaysWatch := false
         assocParamsId := st.nextId },
       { st with paramSets := st.paramSets ++ [(st.nextId, [])], nextId := st.nextId + 1 }) :=
  rfl

theorem regNames_mem_assocSet (reg : List (String × PhaseData)) (n : String) (pd : PhaseData) :
    n ∈ regNames (assocSet reg n pd) := by
  unfold regNames
  rw [map_fst_assocSet]
  split <;> simp_all

theorem phaseDepsWF_assocSet_synth {reg : List (String × PhaseData)} {n : String}
    {pd : PhaseData} (hwf : PhaseDepsWF reg) (hself : pd.selfDeps = [])
    (hup : ∀ d ∈ pd.upstreamDeps, d = n) : PhaseDepsWF (assocSet reg n pd) := by
  intro pr hpr
  rcases mem_assocSet hpr with h' | h'
  · subst h'
    constructor
    · intro d hd
      simp only [hself] at hd
      simp at hd
    · intro d hd
      simp only [] at hd
      rw [hup d hd]
      exact regNames_mem_assocSet reg n pd
  · obtain ⟨h1, h2⟩ := hwf pr h'
    exact ⟨fun d hd => regNames_assocSet_superset n pd d (h1 d hd),
      fun d hd => regNames_assocSet_superset n pd d (h2 d hd)⟩

theorem processOneCommand_stateInv {st : ConfigState} {bcp : Option Nat} {c : CommandJson}
    {st' : ConfigState} {bcp' : Option Nat}
    (h : processOneCommand st bcp c = .ok (st', bcp')) (hinv : StateInv st) : StateInv st' := by
  obtain ⟨hsw, hpw, hdw, hcc⟩ := hinv
  obtain ⟨hdup, cd, st1, hnorm, hst, hbcp, hspec⟩ := processOneCommand_ok_inversion h
  subst hst
  cases c with
  | phased pc =>
    rcases hrc : resolveCommandPhases st.phases pc.name pc.phases [] with e | initPhases
    · simp only [normalizeCommand, hrc] at hnorm
      exact absurd hnorm (by simp)
    rcases hrw : resolveWatchOptions st.phases pc.name pc.watchOptions with e | ⟨aw, watch⟩
    · simp only [normalizeCommand, hrc, hrw] at hnorm
      exact absurd hnorm (by simp)
    rw [normalizeCommand_phased_eq hrc hrw] at hnorm
    obtain ⟨hcd, hst1⟩ := Prod.mk.injEq .. ▸ Except.ok.inj hnorm
    subst hcd
    subst hst1
    have hfreshE : assocGet st.phaseSets st.nextId = none := assocGet_of_forall_lt hsw.1
    have hfreshP : assocGet st.paramSets (st.nextId + 2) = none :=
      assocGet_of_forall_lt (fun pr hpr => by
        have := hsw.2 pr hpr
        omega)
    obtain ⟨hinit, -, hnodup⟩ := resolveCommandPhases_spec st.phases pc.name pc.phases [] hrc
    obtain ⟨-, -, hclosedE⟩ := expandPhases_spec st.phases initPhases hdw
      (hnodup List.nodup_nil)
    refine ⟨⟨?_, ?_⟩, ?_, hdw, ?_⟩
    · intro pr hpr
      show pr.1 < st.nextId + 3
      simp only [List.append_assoc, List.mem_append, List.mem_singleton] at hpr
      rcases hpr with h' | h' | h'
      · have := hsw.1 pr h'
        omega
      · subst h'
        simp
      · subst h'
        simp
    · intro pr hpr
      show pr.1 < st.nextId + 3
      simp only [List.mem_append, List.mem_singleton] at hpr
      rcases hpr with h' | h'
      · have := hsw.2 pr h'
        omega
      · subst h'
        simp
    · intro pr hpr
      rcases mem_assocSet hpr with h' | h'
      · subst h'
        show (assocGet (st.paramSets ++ [(st.nextId + 2, [])]) (st.nextId + 2)).isSome = true
        rw [assocGet_snoc_self hfreshP]
        rfl
      · exact assocGet_append_isSome _ (hpw pr h')
    · intro pr hpr pid hpid
      rcases mem_assocSet hpr with h' | h'
      · subst h'
        simp only [Option.some.injEq] at hpid
        refine ⟨expandPhases st.phases initPhases, ?_, hclosedE⟩
        rw [← hpid]
        exact assocGet_snoc2_self hfreshE
      · obtain ⟨ps, hps, hclosed⟩ := hcc pr h' pid hpid
        exact ⟨ps, by rw [List.append_assoc]; exact assocGet_append_left hps, hclosed⟩
  | global gc =>
    rw [normalizeCommand_global_eq] at hnorm
    obtain ⟨hcd, hst1⟩ := Prod.mk.injEq .. ▸ Except.ok.inj hnorm
    subst hcd
    subst hst1
    have hfreshP : assocGet st.paramSets st.nextId = none := assocGet_of_forall_lt hsw.2
    refine ⟨⟨?_, ?_⟩, ?_, hdw, ?_⟩
    · intro pr hpr
      show pr.1 < st.nextId + 1
      have := hsw.1 pr hpr
      omega
    · intro pr hpr
      show pr.1 < st.nextId + 1
      simp only [List.mem_append, List.mem_singleton] at hpr
      rcases hpr with h' | h'
      · have := hsw.2 pr h'
        omega
      · subst h'
        simp
    · intro pr hpr
      rcases mem_assocSet hpr with h' | h'
      · subst h'
        show (assocGet (st.paramSets ++ [(st.nextId, [])]) st.nextId).isSome = true
        rw [assocGet_snoc_self hfreshP]
        rfl
      · exact assocGet_append_isSome _ (hpw pr h')
    · intro pr hpr pid hpid
      rcases mem_assocSet hpr with h' | h'
      · subst h'
        simp at hpid
      · obtain ⟨ps, hps, hclosed⟩ := hcc pr h' pid hpid
        exact ⟨ps, hps, hclosed⟩
  | bulk bc =>
    simp only [normalizeCommand] at hnorm
    have hpair := Except.ok.inj hnorm
    obtain ⟨hswT, ⟨extP, hextP⟩, ⟨extQ, hextQ⟩, hlookP, hlookQ⟩ := translateBulk_stores st bc hsw
    obtain ⟨pd, hphases, hpdsynth, hpdself, hpdup⟩ := translateBulk_phases st bc
    have hcdf := translateBulk_fields st bc
    rw [hpair] at hswT hextP hextQ hlookP hlookQ hphases hcdf
    have hcomm : st1.commands = st.commands := hcdf.2.2.1
    refine ⟨hswT, ?_, ?_, ?_⟩
    · intro pr hpr
      rcases mem_assocSet hpr with h' | h'
      · subst h'
        rw [hlookQ]
        rfl
      · rw [hcomm] at h'
        rw [hextQ]
        exact assocGet_append_isSome _ (hpw pr h')
    · simp only []
      rw [hphases]
      exact phaseDepsWF_assocSet_synth hdw hpdself hpdup
    · intro pr hpr pid hpid
      rcases mem_assocSet hpr with h' | h'
      · subst h'
        rw [hcdf.2.1] at hpid
        simp only [Option.some.injEq] at hpid
        refine ⟨[bc.name], by rw [← hpid]; exact hlookP, ?_⟩
        intro ph hph
        simp only [List.mem_singleton] at hph
        subst hph
        simp only []
        rw [hphases]
        constructor
        · intro d hd
          rw [selfDepsOf_assocSet_self, hpdself] at hd
          simp at hd
        · intro d hd
          rw [upstreamDepsOf_assocSet_self] at hd
          rw [hpdup d hd]
          simp
      · rw [hcomm] at h'
        obtain ⟨ps, hps, hclosed⟩ := hcc pr h' pid hpid
        refine ⟨ps, by rw [hextP]; exact assocGet_append_left hps, ?_⟩
        simp only []
        rw [hphases]
        exact closedPhaseSet_assocSet_synth hclosed hpdself hpdup


theorem processCommands_stateInv :
    ∀ {cs : List CommandJson} {st : ConfigState} {bcp : Option Nat} {st' : ConfigState}
      {bcp' : Option Nat}, processCommands cs st bcp = .ok (st', bcp') →
      StateInv st → StateInv st' := by
  intro cs
  induction cs with
  | nil =>
    intro st bcp st' bcp' h hinv
    simp only [processCommands, Except.ok.injEq, Prod.mk.injEq] at h
    rw [← h.1]
    exact hinv
  | cons c rest ih =>
    intro st bcp st' bcp' h hinv
    simp only [processCommands] at h
    split at h
    · exact absurd h (by simp)
    · rename_i st1 bcp1 h1
      exact ih h (processOneCommand_stateInv h1 hinv)

theorem synthesizeDefaultRebuild_stateInv {st : ConfigState} {buildCmd : CommandData}
    {bcp : Option Nat} {st' : ConfigState}
    (h : synthesizeDefaultRebuild st buildCmd bcp = .ok st') (hinv : StateInv st)
    (hbuild : (assocGet st.paramSets buildCmd.assocParamsId).isSome = true)
    (hphases : ∀ pid, bcp = some pid →
      ∃ ps, assocGet st.phaseSets pid = some ps ∧ ClosedPhaseSet st.phases ps) :
    StateInv st' := by
  obtain ⟨hsw, hpw, hdw, hcc⟩ := hinv
  simp only [synthesizeDefaultRebuild] at h
  split at h
  · simp only [Except.ok.injEq] at h
    rw [← h]
    exact ⟨hsw, hpw, hdw, hcc⟩
  · split at h
    · exact absurd h (by simp)
    · rename_i pid
      simp only [Except.ok.injEq] at h
      subst h
      refine ⟨⟨?_, ?_⟩, ?_, hdw, ?_⟩
      · intro pr hpr
        show pr.1 < st.nextId + 1
        simp only [List.mem_append, List.mem_singleton] at hpr
        rcases hpr with h' | h'
        · have := hsw.1 pr h'
          omega
        · subst h'
          simp
      · intro pr hpr
        show pr.1 < st.nextId + 1
        have := hsw.2 pr hpr
        omega
      · intro pr hpr
        rcases mem_assocSet hpr with h' | h'
        · subst h'
          exact hbuild
        · exact hpw pr h'
      · intro pr hpr pid' hpid'
        rcases mem_assocSet hpr with h' | h'
        · subst h'
          simp only [Option.some.injEq] at hpid'
          obtain ⟨ps, hps, hclosed⟩ := hphases pid rfl
          exact ⟨ps, by rw [← hpid']; exact assocGet_append_left hps, hclosed⟩
        · obtain ⟨ps, hps, hclosed⟩ := hcc pr h' pid' hpid'
          exact ⟨ps, assocGet_append_left hps, hclosed⟩

theorem applyDefaults_stateInv {doNotInclude : Bool} {st : ConfigState} {bcp : Option Nat}
    {st' : ConfigState} (h : applyDefaultBuildCommands doNotInclude st bcp = .ok st')
    (hinv : StateInv st) (hbp : BuildPhasesInv st bcp) : StateInv st' := by
  cases doNotInclude with
  | true =>
    simp only [applyDefaultBuildCommands, if_true] at h
    simp only [Except.ok.injEq] at h
    rw [← h]
    exact hinv
  | false =>
    obtain ⟨hsw, hpw, hdw, hcc⟩ := hinv
    cases hbuild : assocGet st.commands buildCommandName with
    | some bc =>
      rw [applyDefaults_false_of_build hbuild] at h
      unfold BuildPhasesInv at hbp
      rw [hbuild] at hbp
      refine synthesizeDefaultRebuild_stateInv h ⟨hsw, hpw, hdw, hcc⟩
        (hpw _ (assocGet_mem hbuild)) ?_
      intro pid hpid
      refine hcc _ (assocGet_mem hbuild) pid ?_
      rw [← hbp.1, hpid]
    | none =>
      rw [applyDefaults_false_of_noBuild hbuild] at h
      obtain ⟨hswT, ⟨extP, hextP⟩, ⟨extQ, hextQ⟩, hlookP, hlookQ⟩ :=
        translateBulk_stores st defaultBuildCommandJson hsw
      obtain ⟨pd, hphases, hpdsynth, hpdself, hpdup⟩ :=
        translateBulk_phases st defaultBuildCommandJson
      have hcdf := translateBulk_fields st defaultBuildCommandJson
      set T := translateBulkCommandToPhasedCommand st defaultBuildCommandJson with hT
      refine synthesizeDefaultRebuild_stateInv h ⟨⟨?_, ?_⟩, ?_, ?_, ?_⟩
        (show (assocGet T.2.paramSets T.1.assocParamsId).isSome = true by rw [hlookQ]; rfl) ?_
      · exact hswT.1
      · exact hswT.2
      · intro pr hpr
        rcases mem_assocSet hpr with h' | h'
        · subst h'
          rw [hlookQ]
          rfl
        · rw [hcdf.2.2.1] at h'
          rw [hextQ]
          exact assocGet_append_isSome _ (hpw pr h')
      · show PhaseDepsWF T.2.phases
        rw [hphases]
        exact phaseDepsWF_assocSet_synth hdw hpdself hpdup
      · intro pr hpr pid hpid
        rcases mem_assocSet hpr with h' | h'
        · subst h'
          rw [hcdf.2.1] at hpid
          simp only [Option.some.injEq] at hpid
          refine ⟨[defaultBuildCommandJson.name], by rw [← hpid]; exact hlookP, ?_⟩
          intro ph hph
          show (∀ d ∈ selfDepsOf T.2.phases ph, d ∈ [defaultBuildCommandJson.name]) ∧
            (∀ d ∈ upstreamDepsOf T.2.phases ph, d ∈ [defaultBuildCommandJson.name])
          simp only [List.mem_singleton] at hph
          subst hph
          rw [hphases]
          constructor
          · intro d hd
            rw [selfDepsOf_assocSet_self, hpdself] at hd
            simp at hd
          · intro d hd
            rw [upstreamDepsOf_assocSet_self] at hd
            rw [hpdup d hd]
            simp
        · rw [hcdf.2.2.1] at h'
          obtain ⟨ps, hps, hclosed⟩ := hcc pr h' pid hpid
          refine ⟨ps, by rw [hextP]; exact assocGet_append_left hps, ?_⟩
          show ClosedPhaseSet T.2.phases ps
          rw [hphases]
          exact closedPhaseSet_assocSet_synth hclosed hpdself hpdup
      · intro pid hpid
        rw [hcdf.2.1] at hpid
        simp only [Option.some.injEq] at hpid
        refine ⟨[defaultBuildCommandJson.name], ?_, ?_⟩
        · show assocGet T.2.phaseSets pid = _
          rw [← hpid]
          exact hlookP
        · intro ph hph
          show (∀ d ∈ selfDepsOf T.2.phases ph, d ∈ [defaultBuildCommandJson.name]) ∧
            (∀ d ∈ upstreamDepsOf T.2.phases ph, d ∈ [defaultBuildCommandJson.name])
          simp only [List.mem_singleton] at hph
          subst hph
          rw [hphases]
          constructor
          · intro d hd
            rw [selfDepsOf_assocSet_self, hpdself] at hd
            simp at hd
          · intro d hd
            rw [upstreamDepsOf_assocSet_self] at hd
            rw [hpdup d hd]
            simp


theorem processOneParameter_ok_inversion {st : ConfigState} {p : ParameterJson}
    {st' : ConfigState} (h : processOneParameter st p = .ok st') :
    ∃ st1 acc' b1' b2',
      processParamCommands p.longName st.parameters.length p.associatedCommands
        { st with parameters := st.parameters ++ [p] } p.associatedPhases false true =
        .ok (st1, acc', b1', b2') ∧
      st' = { st1 with parameters :=
        st1.parameters.set st.parameters.length { p with associatedPhases := acc' } } := by
  simp only [processOneParameter] at h
  split at h
  · exact absurd h (by simp)
  · split at h
    · exact absurd h (by simp)
    · rename_i st1 acc' b1' b2' hloop
      split at h
      · exact absurd h (by simp)
      · split at h
        · exact absurd h (by simp)
        · split at h
          · exact absurd h (by simp)
          · simp only [Except.ok.injEq] at h
            exact ⟨st1, acc', b1', b2', hloop, h.symm⟩

theorem processParamCommands_paramSets (longName : String) (paramIdx : Nat) :
    ∀ (cmds : List String) (st : ConfigState) (acc : List String) (b1 b2 : Bool)
      {st1 : ConfigState} {acc' : List String} {b1' b2' : Bool},
      processParamCommands longName paramIdx cmds st acc b1 b2 = .ok (st1, acc', b1', b2') →
      (∀ k, (assocGet st.paramSets k).isSome = true →
        (assocGet st1.paramSets k).isSome = true) ∧
      (∀ pr ∈ st1.paramSets, pr.1 ∈ st.paramSets.map Prod.fst) ∧
      (∀ k l, assocGet st.paramSets k = some l →
        ∃ l', assocGet st1.paramSets k = some l' ∧ ∀ x ∈ l, x ∈ l') := by
  intro cmds
  induction cmds with
  | nil =>
    intro st acc b1 b2 st1 acc' b1' b2' h
    simp only [processParamCommands, Except.ok.injEq, Prod.mk.injEq] at h
    rw [← h.1]
    exact ⟨fun k hk => hk, fun pr hpr => List.mem_map.mpr ⟨pr, hpr, rfl⟩,
      fun k l hl => ⟨l, hl, fun x hx => hx⟩⟩
  | cons c rest ih =>
    intro st acc b1 b2 st1 acc' b1' b2' h
    simp only [processParamCommands] at h
    cases hc : assocGet st.commands c with
    | none => rw [hc] at h; exact absurd h (by simp)
    | some cd =>
      rw [hc] at h
      obtain ⟨ih1, ih2, ih3⟩ := ih _ _ _ _ h
      refine ⟨?_, ?_, ?_⟩
      · intro k hk
        refine ih1 k ?_
        show (assocGet (addToParamSet st.paramSets cd.assocParamsId paramIdx) k).isSome = true
        rw [addToParamSet_isSome]
        exact hk
      · intro pr hpr
        have h' := ih2 pr hpr
        show pr.1 ∈ st.paramSets.map Prod.fst
        have hsub : ∀ q ∈ (addToParamSet st.paramSets cd.assocParamsId paramIdx),
            q.1 ∈ st.paramSets.map Prod.fst := by
          intro q hq
          unfold addToParamSet at hq
          cases hid : assocGet st.paramSets cd.assocParamsId with
          | none =>
            rw [hid] at hq
            exact List.mem_map.mpr ⟨q, hq, rfl⟩
          | some l =>
            rw [hid] at hq
            rcases mem_assocSet hq with h'' | h''
            · subst h''
              exact List.mem_map.mpr ⟨_, assocGet_mem hid, rfl⟩
            · exact List.mem_map.mpr ⟨q, h'', rfl⟩
        obtain ⟨q, hq, hq1⟩ := List.mem_map.mp h'
        exact hq1 ▸ hsub q hq
      · intro k l hl
        obtain ⟨l1, hl1, hmono1⟩ :=
          @addToParamSet_mem_mono st.paramSets cd.assocParamsId paramIdx _ _ hl
        obtain ⟨l2, hl2, hmono2⟩ := ih3 k l1 hl1
        exact ⟨l2, hl2, fun x hx => hmono2 x (hmono1 x hx)⟩

theorem processOneParameter_stateInv {st : ConfigState} {p : ParameterJson}
    {st' : ConfigState} (h : processOneParameter st p = .ok st')
    (hinv : StateInv st) : StateInv st' := by
  obtain ⟨hsw, hpw, hdw, hcc⟩ := hinv
  obtain ⟨st1, acc', b1', b2', hloop, hst⟩ := processOneParameter_ok_inversion h
  obtain ⟨f1, f2, f3, f4, f5, f6⟩ := processParamCommands_frame hloop
  obtain ⟨g1, g2, g3⟩ := processParamCommands_paramSets _ _ _ _ _ _ _ hloop
  subst hst
  refine ⟨⟨?_, ?_⟩, ?_, ?_, ?_⟩
  · intro pr hpr
    show pr.1 < st1.nextId
    rw [f4] at hpr
    rw [f6]
    exact hsw.1 pr hpr
  · intro pr hpr
    show pr.1 < st1.nextId
    rw [f6]
    have := g2 pr hpr
    obtain ⟨q, hq, hq1⟩ := List.mem_map.mp this
    exact hq1 ▸ hsw.2 q hq
  · intro pr hpr
    rw [f1] at hpr
    exact g1 pr.2.assocParamsId (hpw pr hpr)
  · show PhaseDepsWF st1.phases
    rw [f2]
    exact hdw
  · intro pr hpr pid hpid
    rw [f1] at hpr
    obtain ⟨ps, hps, hclosed⟩ := hcc pr hpr pid hpid
    refine ⟨ps, ?_, ?_⟩
    · show assocGet st1.phaseSets pid = some ps
      rw [f4]
      exact hps
    · show ClosedPhaseSet st1.phases ps
      rw [f2]
      exact hclosed

theorem processParameters_stateInv :
    ∀ {ps : List ParameterJson} {st st' : ConfigState},
      processParameters ps st = .ok st' → StateInv st → StateInv st' := by
  intro ps
  induction ps with
  | nil =>
    intro st st' h hinv
    simp only [processParameters, Except.ok.injEq] at h
    rw [← h]
    exact hinv
  | cons p rest ih =>
    intro st st' h hinv
    simp only [processParameters] at h
    split at h
    · exact absurd h (by simp)
    · rename_i st1 h1
      exact ih h (processOneParameter_stateInv h1 hinv)

theorem resolveDepNames_subset {reg : List (String × PhaseData)} {phaseName : String}
    {isSelf : Bool} :
    ∀ {deps acc acc' : List String},
      resolveDepNames reg phaseName isSelf deps acc = .ok acc' →
      (∀ d ∈ acc, d ∈ regNames reg) → ∀ d ∈ acc', d ∈ regNames reg := by
  intro deps
  induction deps with
  | nil =>
    intro acc acc' h hacc
    simp only [resolveDepNames, Except.ok.injEq] at h
    subst h
    exact hacc
  | cons d rest ih =>
    intro acc acc' h hacc
    simp only [resolveDepNames] at h
    split at h
    · rename_i hd
      refine ih h (insertUnique_subset hacc ?_)
      unfold regNames
      rw [← assocGet_isSome_iff]
      simpa using hd
    · exact absurd h (by simp)

theorem registerPhases_append :
    ∀ {pj : List PhaseJson} {reg reg' : List (String × PhaseData)},
      registerPhases pj reg = .ok reg' →
      ∃ ext, reg' = reg ++ ext ∧ ∀ pr ∈ ext, pr.2.selfDeps = [] ∧ pr.2.upstreamDeps = [] := by
  intro pj
  induction pj with
  | nil =>
    intro reg reg' h
    simp only [registerPhases, Except.ok.injEq] at h
    exact ⟨[], by simp [← h], by simp⟩
  | cons p rest ih =>
    intro reg reg' h
    simp only [registerPhases] at h
    split at h
    · exact absurd h (by simp)
    · split at h
      · obtain ⟨ext, hext, hprop⟩ := ih h
        refine ⟨(p.name, freshPhase p) :: ext, by simpa using hext, ?_⟩
        intro pr hpr
        rcases List.mem_cons.mp hpr with rfl | hpr'
        · exact ⟨rfl, rfl⟩
        · exact hprop pr hpr'
      · exact absurd h (by simp)

theorem registerPhases_depsWF {pj : List PhaseJson} {reg reg' : List (String × PhaseData)}
    (h : registerPhases pj reg = .ok reg') (hwf : PhaseDepsWF reg) : PhaseDepsWF reg' := by
  obtain ⟨ext, hext, hprop⟩ := registerPhases_append h
  subst hext
  intro pr hpr
  rcases List.mem_append.mp hpr with h' | h'
  · obtain ⟨h1, h2⟩ := hwf pr h'
    constructor
    · intro d hd
      unfold regNames
      rw [List.map_append]
      exact List.mem_append.mpr (Or.inl (h1 d hd))
    · intro d hd
      unfold regNames
      rw [List.map_append]
      exact List.mem_append.mpr (Or.inl (h2 d hd))
  · obtain ⟨h1, h2⟩ := hprop pr h'
    rw [h1, h2]
    exact ⟨by simp, by simp⟩

theorem resolvePhaseDeps_depsWF :
    ∀ {pj : List PhaseJson} {reg reg' : List (String × PhaseData)},
      resolvePhaseDeps pj reg = .ok reg' → PhaseDepsWF reg → PhaseDepsWF reg' := by
  intro pj
  induction pj with
  | nil =>
    intro reg reg' h hwf
    simp only [resolvePhaseDeps, Except.ok.injEq] at h
    subst h
    exact hwf
  | cons p rest ih =>
    intro reg reg' h hwf
    simp only [resolvePhaseDeps] at h
    split at h
    · exact absurd h (by simp)
    · rename_i pd hpd
      split at h
      · exact absurd h (by simp)
      · rename_i sd hsd
        split at h
        · exact absurd h (by simp)
        · rename_i ud hud
          refine ih h ?_
          have hmem : p.name ∈ regNames reg := by
            unfold regNames
            rw [← assocGet_isSome_iff]
            rw [hpd]
            rfl
          have hnames :=
            @regNames_assocSet_of_mem reg p.name { pd with selfDeps := sd, upstreamDeps := ud }
              hmem
          intro pr hpr
          rcases mem_assocSet hpr with h' | h'
          · subst h'
            have hpdwf := hwf _ (assocGet_mem hpd)
            constructor
            · intro d hd
              rw [hnames]
              exact resolveDepNames_subset hsd hpdwf.1 d (by simpa using hd)
            · intro d hd
              rw [hnames]
              exact resolveDepNames_subset hud hpdwf.2 d (by simpa using hd)
          · obtain ⟨h1, h2⟩ := hwf pr h'
            exact ⟨fun d hd => by rw [hnames]; exact h1 d hd,
              fun d hd => by rw [hnames]; exact h2 d hd⟩

theorem processPhasesSection_depsWF {phasesJson : Option (List PhaseJson)}
    {reg : List (String × PhaseData)} (h : processPhasesSection phasesJson = .ok reg) :
    PhaseDepsWF reg := by
  cases phasesJson with
  | none =>
    simp only [processPhasesSection, Except.ok.injEq] at h
    subst h
    intro pr hpr
    simp at hpr
  | some pj =>
    simp only [processPhasesSection] at h
    split at h
    · exact absurd h (by simp)
    · rename_i reg0 hreg0
      split at h
      · exact absurd h (by simp)
      · rename_i reg1 hreg1
        split at h
        · exact absurd h (by simp)
        · simp only [Except.ok.injEq] at h
          subst h
          exact resolvePhaseDeps_depsWF hreg1
            (registerPhases_depsWF hreg0 (fun pr hpr => by simp at hpr))

theorem stateInv_start (reg : List (String × PhaseData)) (hdeps : PhaseDepsWF reg) :
    StateInv { initialState with phases := reg } := by
  refine ⟨⟨?_, ?_⟩, ?_, hdeps, ?_⟩
  · intro pr hpr
    simp [initialState] at hpr
  · intro pr hpr
    simp [initialState] at hpr
  · intro pr hpr
    simp [initialState] at hpr
  · intro pr hpr
    simp [initialState] at hpr


theorem normalizeCommand_phaseSets_ext {st : ConfigState} {c : CommandJson} {cd : CommandData}
    {st1 : ConfigState} (h : normalizeCommand st c = .ok (cd, st1)) :
    ∃ ext, st1.phaseSets = st.phaseSets ++ ext := by
  cases c with
  | phased pc =>
    simp only [normalizeCommand] at h
    split at h
    · exact absurd h (by simp)
    · split at h
      · exact absurd h (by simp)
      · simp only [allocPhaseSet, allocParamSet, Except.ok.injEq, Prod.mk.injEq] at h
        obtain ⟨-, h2⟩ := h
        subst h2
        exact ⟨_, List.append_assoc _ _ _⟩
  | global gc =>
    simp only [normalizeCommand, allocParamSet, Except.ok.injEq, Prod.mk.injEq] at h
    obtain ⟨-, h2⟩ := h
    subst h2
    exact ⟨[], (List.append_nil _).symm⟩
  | bulk bc =>
    simp only [normalizeCommand, translateBulk_eq, Except.ok.injEq, Prod.mk.injEq] at h
    obtain ⟨-, h2⟩ := h
    subst h2
    exact ⟨_, List.append_assoc _ _ _⟩

theorem processOneCommand_phaseSets_ext {st : ConfigState} {bcp : Option Nat} {c : CommandJson}
    {st' : ConfigState} {bcp' : Option Nat}
    (h : processOneCommand st bcp c = .ok (st', bcp')) :
    ∃ ext, st'.phaseSets = st.phaseSets ++ ext := by
  obtain ⟨-, cd, st1, hnorm, hst, -, -⟩ := processOneCommand_ok_inversion h
  obtain ⟨ext, hext⟩ := normalizeCommand_phaseSets_ext hnorm
  exact ⟨ext, by rw [hst]; exact hext⟩

theorem processCommands_phaseSets_ext :
    ∀ {cs : List CommandJson} {st : ConfigState} {bcp : Option Nat} {st' : ConfigState}
      {bcp' : Option Nat}, processCommands cs st bcp = .ok (st', bcp') →
      ∃ ext, st'.phaseSets = st.phaseSets ++ ext := by
  intro cs
  induction cs with
  | nil =>
    intro st bcp st' bcp' h
    simp only [processCommands, Except.ok.injEq, Prod.mk.injEq] at h
    exact ⟨[], by rw [← h.1, List.append_nil]⟩
  | cons c rest ih =>
    intro st bcp st' bcp' h
    simp only [processCommands] at h
    split at h
    · exact absurd h (by simp)
    · rename_i st1 bcp1 h1
      obtain ⟨e1, he1⟩ := processOneCommand_phaseSets_ext h1
      obtain ⟨e2, he2⟩ := ih h
      exact ⟨e1 ++ e2, by rw [he2, he1, List.append_assoc]⟩

theorem synthesizeDefaultRebuild_phaseSets_ext {st : ConfigState} {buildCmd : CommandData}
    {bcp : Option Nat} {st' : ConfigState}
    (h : synthesizeDefaultRebuild st buildCmd bcp = .ok st') :
    ∃ ext, st'.phaseSets = st.phaseSets ++ ext := by
  simp only [synthesizeDefaultRebuild] at h
  split at h
  · simp only [Except.ok.injEq] at h
    exact ⟨[], by rw [← h, List.append_nil]⟩
  · split at h
    · exact absurd h (by simp)
    · simp only [Except.ok.injEq] at h
      exact ⟨[(st.nextId, [])], by rw [← h]⟩

theorem translateBulk_phaseSets_ext (st : ConfigState) (c : BulkCommandJson) :
    ∃ ext, (translateBulkCommandToPhasedCommand st c).2.phaseSets = st.phaseSets ++ ext := by
  rw [translateBulk_eq]
  exact ⟨_, List.append_assoc _ _ _⟩

theorem applyDefaults_phaseSets_ext {doNotInclude : Bool} {st : ConfigState} {bcp : Option Nat}
    {st' : ConfigState} (h : applyDefaultBuildCommands doNotInclude st bcp = .ok st') :
    ∃ ext, st'.phaseSets = st.phaseSets ++ ext := by
  cases doNotInclude with
  | true =>
    simp only [applyDefaultBuildCommands, if_true, Except.ok.injEq] at h
    exact ⟨[], by rw [← h, List.append_nil]⟩
  | false =>
    cases hbuild : assocGet st.commands buildCommandName with
    | some bc =>
      rw [applyDefaults_false_of_build hbuild] at h
      exact synthesizeDefaultRebuild_phaseSets_ext h
    | none =>
      rw [applyDefaults_false_of_noBuild hbuild] at h
      obtain ⟨e1, he1⟩ := translateBulk_phaseSets_ext st defaultBuildCommandJson
      obtain ⟨e2, he2⟩ := synthesizeDefaultRebuild_phaseSets_ext h
      refine ⟨e1 ++ e2, ?_⟩
      rw [he2]
      show (translateBulkCommandToPhasedCommand st defaultBuildCommandJson).2.phaseSets ++
        e2 = _
      rw [he1, List.append_assoc]

theorem processOneCommand_preserves_command {st : ConfigState} {bcp : Option Nat}
    {c : CommandJson} {st' : ConfigState} {bcp' : Option Nat} {k : String} {v : CommandData}
    (h : processOneCommand st bcp c = .ok (st', bcp'))
    (hget : assocGet st.commands k = some v) : assocGet st'.commands k = some v := by
  obtain ⟨hdup, cd, st1, hnorm, hst, -, -⟩ := processOneCommand_ok_inversion h
  have hk : k ≠ c.name := by
    intro hcontra
    rw [hcontra, hdup] at hget
    exact absurd hget (by simp)
  rw [hst]
  show assocGet (assocSet st1.commands c.name cd) k = some v
  rw [assocGet_assocSet_ne _ _ _ _ hk, (normalizeCommand_frame hnorm).1]
  exact hget

theorem processCommands_preserves_command :
    ∀ {cs : List CommandJson} {st : ConfigState} {bcp : Option Nat} {st' : ConfigState}
      {bcp' : Option Nat} {k : String} {v : CommandData},
      processCommands cs st bcp = .ok (st', bcp') →
      assocGet st.commands k = some v → assocGet st'.commands k = some v := by
  intro cs
  induction cs with
  | nil =>
    intro st bcp st' bcp' k v h hget
    simp only [processCommands, Except.ok.injEq, Prod.mk.injEq] at h
    rw [← h.1]
    exact hget
  | cons c rest ih =>
    intro st bcp st' bcp' k v h hget
    simp only [processCommands] at h
    split at h
    · exact absurd h (by simp)
    · rename_i st1 bcp1 h1
      exact ih h (processOneCommand_preserves_command h1 hget)

theorem synthesizeDefaultRebuild_preserves_command {st : ConfigState} {buildCmd : CommandData}
    {bcp : Option Nat} {st' : ConfigState} {k : String} {v : CommandData}
    (h : synthesizeDefaultRebuild st buildCmd bcp = .ok st')
    (hget : assocGet st.commands k = some v) : assocGet st'.commands k = some v := by
  simp only [synthesizeDefaultRebuild] at h
  split at h
  · simp only [Except.ok.injEq] at h
    rw [← h]
    exact hget
  · rename_i hnone
    split at h
    · exact absurd h (by simp)
    · rename_i pid
      simp only [Except.ok.injEq] at h
      have hrb : assocGet st.commands rebuildCommandName = none := by
        cases hcase : assocGet st.commands rebuildCommandName with
        | none => rfl
        | some w => exact absurd (by rw [hcase]; rfl) hnone
      have hk : k ≠ rebuildCommandName := by
        intro hcontra
        rw [hcontra, hrb] at hget
        exact absurd hget (by simp)
      rw [← h]
      show assocGet (assocSet st.commands rebuildCommandName _) k = some v
      rw [assocGet_assocSet_ne _ _ _ _ hk]
      exact hget

theorem applyDefaults_preserves_command {doNotInclude : Bool} {st : ConfigState}
    {bcp : Option Nat} {st' : ConfigState} {k : String} {v : CommandData}
    (h : applyDefaultBuildCommands doNotInclude st bcp = .ok st')
    (hget : assocGet st.commands k = some v) : assocGet st'.commands k = some v := by
  cases doNotInclude with
  | true =>
    simp only [applyDefaultBuildCommands, if_true, Except.ok.injEq] at h
    rw [← h]
    exact hget
  | false =>
    cases hbuild : assocGet st.commands buildCommandName with
    | some bc =>
      rw [applyDefaults_false_of_build hbuild] at h
      exact synthesizeDefaultRebuild_preserves_command h hget
    | none =>
      rw [applyDefaults_false_of_noBuild hbuild] at h
      have hk : k ≠ buildCommandName := by
        intro hcontra
        rw [hcontra, hbuild] at hget
        exact absurd hget (by simp)
      refine synthesizeDefaultRebuild_preserves_command h ?_
      show assocGet (assocSet
        (translateBulkCommandToPhasedCommand st defaultBuildCommandJson).2.commands
        buildCommandName
        (translateBulkCommandToPhasedCommand st defaultBuildCommandJson).1) k = some v
      rw [assocGet_assocSet_ne _ _ _ _ hk]
      exact hget

theorem normalizeCommand_phased_inversion {st : ConfigState} {pc : PhasedCommandJson}
    {cd : CommandData} {st1 : ConfigState}
    (h : normalizeCommand st (.phased pc) = .ok (cd, st1)) :
    ∃ initPhases watch,
      resolveCommandPhases st.phases pc.name pc.phases [] = .ok initPhases ∧
      cd.phasesId = some st.nextId ∧
      st1.phaseSets = st.phaseSets ++ [(st.nextId, expandPhases st.phases initPhases)] ++
        [(st.nextId + 1, watch)] := by
  simp only [normalizeCommand] at h
  split at h
  · exact absurd h (by simp)
  · rename_i initPhases hres
    split at h
    · exact absurd h (by simp)
    · rename_i aw watch hwatch
      simp only [allocPhaseSet, allocParamSet, Except.ok.injEq, Prod.mk.injEq] at h
      obtain ⟨h1, h2⟩ := h
      refine ⟨initPhases, watch, hres, ?_, ?_⟩
      · rw [← h1]
      · rw [← h2]

theorem processCommands_phased_declared :
    ∀ {cs : List CommandJson} {st : ConfigState} {bcp : Option Nat} {st' : ConfigState}
      {bcp' : Option Nat},
      processCommands cs st bcp = .ok (st', bcp') → StateInv st →
      ∀ pc : PhasedCommandJson, CommandJson.phased pc ∈ cs →
        ∃ cd pid ps, assocGet st'.commands pc.name = some cd ∧ cd.phasesId = some pid ∧
          assocGet st'.phaseSets pid = some ps ∧ ∀ ph ∈ pc.phases, ph ∈ ps := by
  intro cs
  induction cs with
  | nil =>
    intro st bcp st' bcp' h hinv pc hpc
    simp at hpc
  | cons c rest ih =>
    intro st bcp st' bcp' h hinv pc hpc
    simp only [processCommands] at h
    split at h
    · exact absurd h (by simp)
    · rename_i st1 bcp1 h1
      rcases List.mem_cons.mp hpc with hceq | hpc'
      · subst hceq
        obtain ⟨hdup, cd, stn, hnorm, hst, -, -⟩ := processOneCommand_ok_inversion h1
        obtain ⟨initPhases, watch, hres, hpid, hsets⟩ := normalizeCommand_phased_inversion hnorm
        have hcmdst1 : assocGet st1.commands pc.name = some cd := by
          rw [hst]
          show assocGet (assocSet stn.commands _ cd) pc.name = some cd
          exact assocGet_assocSet_self _ _ _
        have hsetst1 : assocGet st1.phaseSets st.nextId =
            some (expandPhases st.phases initPhases) := by
          rw [hst]
          show assocGet stn.phaseSets st.nextId = _
          rw [hsets]
          exact assocGet_snoc2_self (assocGet_of_forall_lt hinv.1.1)
        have hmemE : ∀ ph ∈ pc.phases, ph ∈ expandPhases st.phases initPhases := by
          obtain ⟨-, h2, h3⟩ := resolveCommandPhases_spec st.phases pc.name pc.phases [] hres
          obtain ⟨hsup, -, -⟩ :=
            expandPhases_spec st.phases initPhases hinv.2.2.1 (h3 List.nodup_nil)
          exact fun ph hph => hsup ph (h2 ph hph)
        obtain ⟨ext, hext⟩ := processCommands_phaseSets_ext h
        refine ⟨cd, st.nextId, expandPhases st.phases initPhases,
          processCommands_preserves_command h hcmdst1, hpid, ?_, hmemE⟩
        rw [hext]
        exact assocGet_append_left hsetst1
      · exact ih h (processOneCommand_stateInv h1 hinv) pc hpc'

theorem construct_ok_inversion {json : Option CommandLineJson}
    {opts : CommandLineConfigurationOptions} {st : ConfigState}
    (h : constructCommandLineConfiguration json opts = .ok st) :
    ∃ reg st1 bcp st2,
      processPhasesSection (json.bind (fun j => j.phases)) = .ok reg ∧
      processCommands ((json.bind (fun j => j.commands)).getD [])
        { initialState with phases := reg } none = .ok (st1, bcp) ∧
      applyDefaultBuildCommands opts.doNotIncludeDefaultBuildCommands st1 bcp = .ok st2 ∧
      processParameters ((json.bind (fun j => j.parameters)).getD []) st2 = .ok st := by
  simp only [constructCommandLineConfiguration] at h
  split at h
  · exact absurd h (by simp)
  · rename_i reg hreg
    split at h
    · exact absurd h (by simp)
    · rename_i st1 bcp hcmds
      split at h
      · exact absurd h (by simp)
      · rename_i st2 hdef
        exact ⟨reg, st1, bcp, st2, hreg, hcmds, hdef, h⟩

theorem construct_stateInv {json : Option CommandLineJson}
    {opts : CommandLineConfigurationOptions} {st : ConfigState}
    (h : constructCommandLineConfiguration json opts = .ok st) : StateInv st := by
  obtain ⟨reg, st1, bcp, st2, hreg, hcmds, hdef, hpar⟩ := construct_ok_inversion h
  have inv0 := stateInv_start reg (processPhasesSection_depsWF hreg)
  have inv1 := processCommands_stateInv hcmds inv0
  have hbp0 : BuildPhasesInv { initialState with phases := reg } none := rfl
  have hbp1 := processCommands_buildPhasesInv hcmds hbp0
  have inv2 := applyDefaults_stateInv hdef inv1 hbp1
  exact processParameters_stateInv hpar inv2

/-- C2: after a successful construction, every registered command's `phases`
set is closed under self and upstream dependency edges (no member phase has a
self or upstream dependency outside the set), and for every phased command
declared in the file, the registered command's `phases` set is a superset of
its declared phase names. -/
theorem phasedCommand_phaseSet_closed_superset (json : Option CommandLineJson)
    (opts : CommandLineConfigurationOptions) (st : ConfigState)
    (h : constructCommandLineConfiguration json opts = .ok st) :
    (∀ pr ∈ st.commands, ∀ pid, pr.2.phasesId = some pid →
      ∃ ps, assocGet st.phaseSets pid = some ps ∧ ClosedPhaseSet st.phases ps) ∧
    (∀ pc : PhasedCommandJson,
      CommandJson.phased pc ∈ (json.bind (fun j => j.commands)).getD [] →
      ∃ cd pid ps, assocGet st.commands pc.name = some cd ∧ cd.phasesId = some pid ∧
        assocGet st.phaseSets pid = some ps ∧ ∀ ph ∈ pc.phases, ph ∈ ps) := by
  obtain ⟨reg, st1, bcp, st2, hreg, hcmds, hdef, hpar⟩ := construct_ok_inversion h
  constructor
  · exact (construct_stateInv h).2.2.2
  · intro pc hpc
    have inv0 := stateInv_start reg (processPhasesSection_depsWF hreg)
    obtain ⟨cd, pid, ps, hcmd, hpid, hset, hmem⟩ :=
      processCommands_phased_declared hcmds inv0 pc hpc
    have hcmd2 := applyDefaults_preserves_command hdef hcmd
    obtain ⟨ext2, hext2⟩ := applyDefaults_phaseSets_ext hdef
    obtain ⟨f1, -, -, f4, -⟩ := processParameters_frame hpar
    refine ⟨cd, pid, ps, ?_, hpid, ?_, hmem⟩
    · rw [f1]
      exact hcmd2
    · rw [f4, hext2]
      exact assocGet_append_left hset

theorem phasedCommand_phaseSet_closed_superset_witness :
    (∀ pr ∈ examplePhasedState.commands, ∀ pid, pr.2.phasesId = some pid →
      ∃ ps, assocGet examplePhasedState.phaseSets pid = some ps ∧
        ClosedPhaseSet examplePhasedState.phases ps) ∧
    (∀ pc : PhasedCommandJson,
      CommandJson.phased pc ∈
        ((some examplePhasedJson).bind (fun j => j.commands)).getD [] →
      ∃ cd pid ps, assocGet examplePhasedState.commands pc.name = some cd ∧
        cd.phasesId = some pid ∧
        assocGet examplePhasedState.phaseSets pid = some ps ∧
        ∀ ph ∈ pc.phases, ph ∈ ps) :=
  phasedCommand_phaseSet_closed_superset (some examplePhasedJson)
    { doNotIncludeDefaultBuildCommands := true } examplePhasedState (by rfl)


theorem processParamCommands_adds (longName : String) (paramIdx : Nat) :
    ∀ (cmds : List String) (st : ConfigState) (acc : List String) (b1 b2 : Bool)
      {st1 : ConfigState} {acc' : List String} {b1' b2' : Bool},
      processParamCommands longName paramIdx cmds st acc b1 b2 = .ok (st1, acc', b1', b2') →
      ∀ c ∈ cmds, ∀ cd, assocGet st.commands c = some cd →
        (assocGet st.paramSets cd.assocParamsId).isSome = true →
        ∃ l, assocGet st1.paramSets cd.assocParamsId = some l ∧ paramIdx ∈ l := by
  intro cmds
  induction cmds with
  | nil =>
    intro st acc b1 b2 st1 acc' b1' b2' h c hc
    simp at hc
  | cons c0 rest ih =>
    intro st acc b1 b2 st1 acc' b1' b2' h c hc cd hcd hsome
    simp only [processParamCommands] at h
    cases hc0 : assocGet st.commands c0 with
    | none => rw [hc0] at h; exact absurd h (by simp)
    | some cd0 =>
      rw [hc0] at h
      rcases List.mem_cons.mp hc with rfl | hc'
      · rw [hc0] at hcd
        obtain rfl := Option.some.inj hcd
        obtain ⟨l, hl⟩ := Option.isSome_iff_exists.mp hsome
        have hafter : assocGet (addToParamSet st.paramSets cd0.assocParamsId paramIdx)
            cd0.assocParamsId = some (insertUnique l paramIdx) := addToParamSet_self paramIdx hl
        obtain ⟨-, -, g3⟩ := processParamCommands_paramSets longName paramIdx rest _ _ _ _ h
        obtain ⟨l', hl', hmono⟩ := g3 cd0.assocParamsId (insertUnique l paramIdx) hafter
        exact ⟨l', hl', hmono paramIdx (self_mem_insertUnique l paramIdx)⟩
      · exact ih _ _ _ _ h c hc' cd hcd (by
          show (assocGet (addToParamSet st.paramSets cd0.assocParamsId paramIdx)
            cd.assocParamsId).isSome = true
          rw [addToParamSet_isSome]
          exact hsome)

theorem processParamCommands_first_missing (longName : String) (paramIdx : Nat) :
    ∀ (cmds : List String) (st : ConfigState) (acc : List String) (b1 b2 : Bool),
      (∃ c ∈ cmds, assocGet st.commands c = none) →
      ∃ c, c ∈ cmds ∧ assocGet st.commands c = none ∧
        processParamCommands longName paramIdx cmds st acc b1 b2 =
          .error (.paramCommandMissing longName c) := by
  intro cmds
  induction cmds with
  | nil =>
    intro st acc b1 b2 hex
    simp at hex
  | cons c0 rest ih =>
    intro st acc b1 b2 hex
    cases hc0 : assocGet st.commands c0 with
    | none =>
      exact ⟨c0, by simp, hc0, by simp only [processParamCommands, hc0]⟩
    | some cd0 =>
      have hex' : ∃ c ∈ rest, assocGet st.commands c = none := by
        obtain ⟨c, hc, hnone⟩ := hex
        rcases List.mem_cons.mp hc with rfl | hc'
        · rw [hc0] at hnone
          exact absurd hnone (by simp)
        · exact ⟨c, hc', hnone⟩
      obtain ⟨c, hc, hnone, heq⟩ := ih
        { st with paramSets := addToParamSet st.paramSets cd0.assocParamsId paramIdx }
        (match assocGet st.syntheticPhasesByBulkName c0 with
         | some synthName => acc ++ [synthName]
         | none => acc) true (b2 && decide (cd0.kind = .phased)) (by exact hex')
      refine ⟨c, by simp [hc], hnone, ?_⟩
      simp only [processParamCommands, hc0]
      exact heq

theorem checkParamPhases_first_missing (longName : String) (reg : List (String × PhaseData)) :
    ∀ (phs : List String) (b : Bool),
      (∃ ph ∈ phs, assocGet reg ph = none) →
      ∃ ph, ph ∈ phs ∧ assocGet reg ph = none ∧
        checkParamPhases longName reg phs b = .error (.paramPhaseMissing longName ph) := by
  intro phs
  induction phs with
  | nil =>
    intro b hex
    simp at hex
  | cons ph0 rest ih =>
    intro b hex
    cases hp0 : assocGet reg ph0 with
    | none => exact ⟨ph0, by simp, hp0, by simp only [checkParamPhases, hp0]⟩
    | some pd =>
      have hex' : ∃ ph ∈ rest, assocGet reg ph = none := by
        obtain ⟨ph, hph, hnone⟩ := hex
        rcases List.mem_cons.mp hph with rfl | hph'
        · rw [hp0] at hnone
          exact absurd hnone (by simp)
        · exact ⟨ph, hph', hnone⟩
      obtain ⟨ph, hph, hnone, heq⟩ := ih true hex'
      refine ⟨ph, by simp [hph], hnone, ?_⟩
      simp only [checkParamPhases, hp0]
      exact heq

/-- C9: processing one declared parameter appends it to `this.parameters` with
its `associatedPhases` augmented by the synthetic phase of every associated
translated bulk command; the parameter's index is added to the associated
parameter set of every named command that exists; and a nonexistent associated
command or phase throws the error naming the parameter and the missing
entity. -/
theorem parameterAssociation_spec (st : ConfigState) (p : ParameterJson)
    (hw : ParamSetsWF st) :
    (∀ st', processOneParameter st p = .ok st' →
      st'.parameters = st.parameters ++
        [{ p with associatedPhases := paramAugmentedPhases st p }] ∧
      (∀ c ∈ p.associatedCommands, ∀ synth,
        assocGet st.syntheticPhasesByBulkName c = some synth →
        synth ∈ paramAugmentedPhases st p) ∧
      (∀ c ∈ p.associatedCommands, ∀ cd, assocGet st.commands c = some cd →
        ∃ l, assocGet st'.paramSets cd.assocParamsId = some l ∧
          st.parameters.length ∈ l)) ∧
    (choiceDefaultCheck p = .ok () →
      (∃ c ∈ p.associatedCommands, assocGet st.commands c = none) →
      ∃ c, c ∈ p.associatedCommands ∧ assocGet st.commands c = none ∧
        processOneParameter st p = .error (.paramCommandMissing p.longName c) ∧
        (ConfigError.paramCommandMissing p.longName c).render =
          commandLineFilename ++ " defines a parameter \"" ++ p.longName ++
          "\" that is associated with a command \"" ++ c ++
          "\" that does not exist or does not support custom parameters.") ∧
    (choiceDefaultCheck p = .ok () →
      (∀ c ∈ p.associatedCommands, (assocGet st.commands c).isSome) →
      (∃ ph ∈ paramAugmentedPhases st p, assocGet st.phases ph = none) →
      ∃ ph, ph ∈ paramAugmentedPhases st p ∧ assocGet st.phases ph = none ∧
        processOneParameter st p = .error (.paramPhaseMissing p.longName ph) ∧
        (ConfigError.paramPhaseMissing p.longName ph).render =
          commandLineFilename ++ " defines a parameter \"" ++ p.longName ++
          "\" that is associated with a phase \"" ++ ph ++
          "\" that does not exist.") := by
  refine ⟨?_, ?_, ?_⟩
  · intro st' h
    obtain ⟨st1, acc', b1', b2', hloop, hst⟩ := processOneParameter_ok_inversion h
    obtain ⟨e1, -, -⟩ := processParamCommands_ok_spec _ _ _ _ _ _ _ hloop
    obtain ⟨-, -, -, -, f5, -⟩ := processParamCommands_frame hloop
    have hacc : acc' = paramAugmentedPhases st p := by
      rw [e1]
      rfl
    refine ⟨?_, ?_, ?_⟩
    · rw [hst]
      show st1.parameters.set st.parameters.length { p with associatedPhases := acc' } = _
      rw [f5]
      show (st.parameters ++ [p]).set st.parameters.length _ = _
      rw [set_append_length, hacc]
    · intro c hc synth hsynth
      unfold paramAugmentedPhases
      exact List.mem_append.mpr (Or.inr (List.mem_filterMap.mpr ⟨c, hc, hsynth⟩))
    · intro c hc cd hcd
      obtain ⟨l, hl, hmem⟩ := processParamCommands_adds p.longName st.parameters.length
        p.associatedCommands _ p.associatedPhases false true hloop c hc cd hcd
        (hw _ (assocGet_mem hcd))
      rw [hst]
      exact ⟨l, hl, hmem⟩
  · intro hchoice hex
    obtain ⟨c, hc, hnone, heq⟩ := processParamCommands_first_missing p.longName
      st.parameters.length p.associatedCommands
      { st with parameters := st.parameters ++ [p] } p.associatedPhases false true
      (by exact hex)
    refine ⟨c, hc, hnone, ?_, rfl⟩
    simp only [processOneParameter, hchoice, heq]
  · intro hchoice hall hex
    obtain ⟨r, hloop⟩ := (processParamCommands_ok_iff p.longName st.parameters.length
      p.associatedCommands { st with parameters := st.parameters ++ [p] }
      p.associatedPhases false true).mpr (by exact hall)
    obtain ⟨st1, acc', b1', b2'⟩ := r
    obtain ⟨e1, -, -⟩ := processParamCommands_ok_spec _ _ _ _ _ _ _ hloop
    have hacc : acc' = paramAugmentedPhases st p := by
      rw [e1]
      rfl
    obtain ⟨-, f2, -, -, -, -⟩ := processParamCommands_frame hloop
    obtain ⟨ph, hph, hnone, heq⟩ := checkParamPhases_first_missing p.longName st1.phases acc'
      false (by rw [hacc, f2]; exact hex)
    refine ⟨ph, by rwa [hacc] at hph, by rw [f2] at hnone; exact hnone, ?_, rfl⟩
    simp only [processOneParameter, hchoice, hloop, heq]

theorem parameterAssociation_spec_witness :
    (∀ st', processOneParameter exampleParamState exampleParamJson = .ok st' →
      st'.parameters = exampleParamState.parameters ++
        [{ exampleParamJson with
           associatedPhases := paramAugmentedPhases exampleParamState exampleParamJson }] ∧
      (∀ c ∈ exampleParamJson.associatedCommands, ∀ synth,
        assocGet exampleParamState.syntheticPhasesByBulkName c = some synth →
        synth ∈ paramAugmentedPhases exampleParamState exampleParamJson) ∧
      (∀ c ∈ exampleParamJson.associatedCommands, ∀ cd,
        assocGet exampleParamState.commands c = some cd →
        ∃ l, assocGet st'.paramSets cd.assocParamsId = some l ∧
          exampleParamState.parameters.length ∈ l)) ∧
    (choiceDefaultCheck exampleParamJson = .ok () →
      (∃ c ∈ exampleParamJson.associatedCommands,
        assocGet exampleParamState.commands c = none) →
      ∃ c, c ∈ exampleParamJson.associatedCommands ∧
        assocGet exampleParamState.commands c = none ∧
        processOneParameter exampleParamState exampleParamJson =
          .error (.paramCommandMissing exampleParamJson.longName c) ∧
        (ConfigError.paramCommandMissing exampleParamJson.longName c).render =
          commandLineFilename ++ " defines a parameter \"" ++ exampleParamJson.longName ++
          "\" that is associated with a command \"" ++ c ++
          "\" that does not exist or does not support custom parameters.") ∧
    (choiceDefaultCheck exampleParamJson = .ok () →
      (∀ c ∈ exampleParamJson.associatedCommands,
        (assocGet exampleParamState.commands c).isSome) →
      (∃ ph ∈ paramAugmentedPhases exampleParamState exampleParamJson,
        assocGet exampleParamState.phases ph = none) →
      ∃ ph, ph ∈ paramAugmentedPhases exampleParamState exampleParamJson ∧
        assocGet exampleParamState.phases ph = none ∧
        processOneParameter exampleParamState exampleParamJson =
          .error (.paramPhaseMissing exampleParamJson.longName ph) ∧
        (ConfigError.paramPhaseMissing exampleParamJson.longName ph).render =
          commandLineFilename ++ " defines a parameter \"" ++ exampleParamJson.longName ++
          "\" that is associated with a phase \"" ++ ph ++
          "\" that does not exist.") :=
  parameterAssociation_spec exampleParamState exampleParamJson
    (by unfold ParamSetsWF; decide)


theorem cycleFree_of_succs {reg : List (String × PhaseData)} {name : String}
    (h : ∀ d, selfEdge reg name d → CycleFree reg d) : CycleFree reg name := by
  rintro ⟨y, hreach, hcyc⟩
  rcases Relation.ReflTransGen.cases_head hreach with rfl | ⟨c, hc, hrest⟩
  · obtain ⟨d, hd, hdrest⟩ := Relation.TransGen.head'_iff.mp hcyc
    exact h d hd ⟨d, Relation.ReflTransGen.refl, Relation.TransGen.tail' hdrest hd⟩
  · exact h c hc ⟨y, hrest, hcyc⟩

theorem goSelfDepsF_ok_spec (reg : List (String × PhaseData))
    (rec : String → List String → List String → Except ConfigError (List String))
    (hrec : ∀ (n : String) (path safe safe' : List String),
      rec n path safe = .ok safe' → (∀ x ∈ safe, CycleFree reg x) →
      (∀ x ∈ safe', CycleFree reg x) ∧ (∀ x ∈ safe, x ∈ safe') ∧ n ∈ safe') :
    ∀ (deps path safe : List String) {safe' : List String},
      goSelfDepsF rec deps path safe = .ok safe' →
      (∀ x ∈ safe, CycleFree reg x) →
      (∀ x ∈ safe', CycleFree reg x) ∧ (∀ x ∈ safe, x ∈ safe') ∧ ∀ d ∈ deps, d ∈ safe' := by
  intro deps
  induction deps with
  | nil =>
    intro path safe safe' h hsafe
    simp only [goSelfDepsF, Except.ok.injEq] at h
    subst h
    exact ⟨hsafe, fun x hx => hx, by simp⟩
  | cons d rest ih =>
    intro path safe safe' h hsafe
    simp only [goSelfDepsF] at h
    split at h
    · exact absurd h (by simp)
    · split at h
      · exact absurd h (by simp)
      · rename_i safe₁ hrece
        obtain ⟨h1, h2, h3⟩ := hrec _ _ _ _ hrece hsafe
        obtain ⟨g1, g2, g3⟩ := ih _ _ h h1
        refine ⟨g1, fun x hx => g2 x (h2 x hx), ?_⟩
        intro x hx
        rcases List.mem_cons.mp hx with rfl | hx'
        · exact g2 x h3
        · exact g3 x hx'

theorem checkForPhaseSelfCycles_ok_spec (reg : List (String × PhaseData)) :
    ∀ (fuel : Nat) (name : String) (path safe : List String) {safe' : List String},
      checkForPhaseSelfCycles reg fuel name path safe = .ok safe' →
      (∀ x ∈ safe, CycleFree reg x) →
      (∀ x ∈ safe', CycleFree reg x) ∧ (∀ x ∈ safe, x ∈ safe') ∧ name ∈ safe' := by
  intro fuel
  induction fuel with
  | zero =>
    intro name path safe safe' h
    exact absurd h (by simp [checkForPhaseSelfCycles])
  | succ fuel ih =>
    intro name path safe safe' h hsafe
    simp only [checkForPhaseSelfCycles] at h
    split at h
    · rename_i hmem
      simp only [Except.ok.injEq] at h
      subst h
      exact ⟨hsafe, fun x hx => hx, hmem⟩
    · split at h
      · exact absurd h (by simp)
      · rename_i safe₀ hgo
        simp only [Except.ok.injEq] at h
        subst h
        obtain ⟨g1, g2, g3⟩ := goSelfDepsF_ok_spec reg _
          (fun n p s s' hr hs => ih n p s hr hs) _ _ _ hgo hsafe
        refine ⟨?_, fun x hx => subset_insertUnique _ _ x (g2 x hx),
          self_mem_insertUnique _ _⟩
        intro x hx
        rcases (mem_insertUnique _ _ _).mp hx with hx' | rfl
        · exact g1 x hx'
        · refine cycleFree_of_succs ?_
          intro d hd
          obtain ⟨pd, hpd, hdmem⟩ := hd
          refine g1 d (g3 d ?_)
          unfold selfDepsOf
          rw [hpd]
          exact hdmem

theorem checkAllPhaseCycles_ok_spec (reg : List (String × PhaseData)) :
    ∀ (starts : List (String × PhaseData)) (safe : List String) {safe' : List String},
      checkAllPhaseCycles reg starts safe = .ok safe' →
      (∀ x ∈ safe, CycleFree reg x) →
      (∀ x ∈ safe', CycleFree reg x) ∧ (∀ x ∈ safe, x ∈ safe') ∧
        ∀ pr ∈ starts, pr.1 ∈ safe' := by
  intro starts
  induction starts with
  | nil =>
    intro safe safe' h hsafe
    simp only [checkAllPhaseCycles, Except.ok.injEq] at h
    subst h
    exact ⟨hsafe, fun x hx => hx, by simp⟩
  | cons pr rest ih =>
    obtain ⟨name, pd⟩ := pr
    intro safe safe' h hsafe
    simp only [checkAllPhaseCycles] at h
    split at h
    · exact absurd h (by simp)
    · rename_i safe₁ hchk
      obtain ⟨h1, h2, h3⟩ := checkForPhaseSelfCycles_ok_spec reg _ _ _ _ hchk hsafe
      obtain ⟨g1, g2, g3⟩ := ih _ h h1
      refine ⟨g1, fun x hx => g2 x (h2 x hx), ?_⟩
      intro q hq
      rcases List.mem_cons.mp hq with rfl | hq'
      · exact g2 _ h3
      · exact g3 q hq'

theorem checkAll_ok_selfAcyclic {reg : List (String × PhaseData)} {safe : List String}
    (h : checkAllPhaseCycles reg reg [] = .ok safe) : SelfAcyclic reg := by
  obtain ⟨h1, -, h3⟩ := checkAllPhaseCycles_ok_spec reg reg [] h (by simp)
  intro a hcyc
  obtain ⟨b, hab, -⟩ := Relation.TransGen.head'_iff.mp hcyc
  obtain ⟨pd, hpd, -⟩ := hab
  exact h1 a (h3 (a, pd) (assocGet_mem hpd)) ⟨a, Relation.ReflTransGen.refl, hcyc⟩

theorem chain'_mem_getLast_reflTransGen {α : Type} {R : α → α → Prop} :
    ∀ {p : List α} {x l : α}, List.Chain' R p → x ∈ p → p.getLast? = some l →
      Relation.ReflTransGen R x l := by
  intro p
  induction p with
  | nil =>
    intro x l _ hx _
    simp at hx
  | cons a rest ih =>
    intro x l hch hx hl
    cases rest with
    | nil =>
      simp only [List.mem_singleton] at hx
      simp only [List.getLast?_singleton, Option.some.injEq] at hl
      subst hx
      subst hl
      exact Relation.ReflTransGen.refl
    | cons b rest' =>
      have hab : R a b := (List.chain'_cons.mp hch).1
      have hch' : List.Chain' R (b :: rest') := (List.chain'_cons.mp hch).2
      have hl' : (b :: rest').getLast? = some l := by
        rw [List.getLast?_cons_cons] at hl
        exact hl
      rcases List.mem_cons.mp hx with rfl | hx'
      · exact Relation.ReflTransGen.head hab (ih hch' (by simp) hl')
      · exact ih hch' hx' hl'

theorem goodCycleErr_cycle {reg : List (String × PhaseData)} {d : String} {p : List String}
    (h : GoodCycleErr reg d p) : Relation.TransGen (selfEdge reg) d d := by
  have h' : d ∈ p ∧ List.Chain' (selfEdge reg) p ∧
      ∃ l, p.getLast? = some l ∧ selfEdge reg l d := h
  obtain ⟨hdp, hch, l, hl, hedge⟩ := h'
  exact Relation.TransGen.tail' (chain'_mem_getLast_reflTransGen hch hdp hl) hedge

theorem goSelfDepsF_err_spec (reg : List (String × PhaseData)) (F : Nat)
    (rec : String → List String → List String → Except ConfigError (List String))
    (hrec : ∀ (n : String) (path safe : List String),
      path.Nodup → (∀ x ∈ path, x ∈ regNames reg) →
      path.getLast? = some n → List.Chain' (selfEdge reg) path →
      reg.length + 1 ≤ F + path.length →
      (∃ s, rec n path safe = .ok s) ∨
      ∃ d p, rec n path safe = .error (.phaseSelfCycle d p) ∧ GoodCycleErr reg d p) :
    ∀ (deps : List String) (name : String) (path safe : List String),
      (∀ d ∈ deps, selfEdge reg name d) → (∀ d ∈ deps, d ∈ regNames reg) →
      path.Nodup → (∀ x ∈ path, x ∈ regNames reg) →
      (path = [] ∨ (path.getLast? = some name ∧ List.Chain' (selfEdge reg) path)) →
      reg.length ≤ F + path.length →
      (∃ s, goSelfDepsF rec deps path safe = .ok s) ∨
      ∃ d p, goSelfDepsF rec deps path safe = .error (.phaseSelfCycle d p) ∧
        GoodCycleErr reg d p := by
  intro deps
  induction deps with
  | nil =>
    intro name path safe hdeps hdepsreg hnd hreg hlast hbound
    exact Or.inl ⟨safe, rfl⟩
  | cons d rest ih =>
    intro name path safe hdeps hdepsreg hnd hreg hlast hbound
    by_cases hdp : d ∈ path
    · have hpne : path ≠ [] := by
        intro hnil
        rw [hnil] at hdp
        simp at hdp
      obtain ⟨hl, hch⟩ : path.getLast? = some name ∧ List.Chain' (selfEdge reg) path := by
        rcases hlast with rfl | h'
        · exact absurd rfl hpne
        · exact h'
      refine Or.inr ⟨d, path, ?_, ?_⟩
      · simp only [goSelfDepsF, if_pos hdp]
      · exact ⟨hdp, hch, name, hl, hdeps d (by simp)⟩
    · have hinv : (path ++ [d]).Nodup := by
        rw [List.nodup_append]
        refine ⟨hnd, List.nodup_singleton d, ?_⟩
        intro a ha hb
        rw [List.mem_singleton] at hb
        subst hb
        exact hdp ha
      have hreg' : ∀ x ∈ path ++ [d], x ∈ regNames reg := by
        intro x hx
        rcases List.mem_append.mp hx with hx' | hx'
        · exact hreg x hx'
        · rw [List.mem_singleton] at hx'
          subst hx'
          exact hdepsreg x (by simp)
      have hlast' : (path ++ [d]).getLast? = some d := List.getLast?_concat path
      have hch' : List.Chain' (selfEdge reg) (path ++ [d]) := by
        rcases hlast with rfl | ⟨hl, hch⟩
        · simp
        · rw [List.chain'_append]
          refine ⟨hch, List.chain'_singleton d, ?_⟩
          intro x hx y hy
          simp only [hl, Option.mem_def, Option.some.injEq] at hx
          simp only [List.head?_cons, Option.mem_def, Option.some.injEq] at hy
          subst hx
          subst hy
          exact hdeps d (by simp)
      rcases hrec d (path ++ [d]) safe hinv hreg' hlast' hch'
        (by rw [List.length_append, List.length_singleton]; omega) with
        ⟨s, hs⟩ | ⟨d', p', herr, hgood⟩
      · rcases ih name path s (fun x hx => hdeps x (by simp [hx]))
          (fun x hx => hdepsreg x (by simp [hx])) hnd hreg hlast hbound with
          ⟨s2, hs2⟩ | ⟨d2, p2, herr2, hgood2⟩
        · refine Or.inl ⟨s2, ?_⟩
          simp only [goSelfDepsF, if_neg hdp, hs]
          exact hs2
        · refine Or.inr ⟨d2, p2, ?_, hgood2⟩
          simp only [goSelfDepsF, if_neg hdp, hs]
          exact herr2
      · refine Or.inr ⟨d', p', ?_, hgood⟩
        simp only [goSelfDepsF, if_neg hdp, herr]

theorem checkForPhaseSelfCycles_err_spec (reg : List (String × PhaseData))
    (hwf : RegWF reg) :
    ∀ (fuel : Nat) (name : String) (path safe : List String),
      path.Nodup → (∀ x ∈ path, x ∈ regNames reg) →
      (path = [] ∨ (path.getLast? = some name ∧ List.Chain' (selfEdge reg) path)) →
      reg.length + 1 ≤ fuel + path.length →
      (∃ s, checkForPhaseSelfCycles reg fuel name path safe = .ok s) ∨
      ∃ d p, checkForPhaseSelfCycles reg fuel name path safe =
        .error (.phaseSelfCycle d p) ∧ GoodCycleErr reg d p := by
  intro fuel
  induction fuel with
  | zero =>
    intro name path safe hnd hreg hlast hbound
    exfalso
    have hlen := (List.subperm_of_subset hnd hreg).length_le
    have hrn : (regNames reg).length = reg.length := by
      unfold regNames
      simp
    omega
  | succ fuel ih =>
    intro name path safe hnd hreg hlast hbound
    by_cases hmem : name ∈ safe
    · exact Or.inl ⟨safe, by simp [checkForPhaseSelfCycles, hmem]⟩
    · have hdeps : ∀ d ∈ selfDepsOf reg name, selfEdge reg name d := by
        intro d hd
        unfold selfDepsOf at hd
        cases hpd : assocGet reg name with
        | none =>
          rw [hpd] at hd
          simp at hd
        | some pd =>
          rw [hpd] at hd
          exact ⟨pd, hpd, hd⟩
      have hdepsreg : ∀ d ∈ selfDepsOf reg name, d ∈ regNames reg := by
        intro d hd
        unfold selfDepsOf at hd
        cases hpd : assocGet reg name with
        | none =>
          rw [hpd] at hd
          simp at hd
        | some pd =>
          rw [hpd] at hd
          exact (hwf.2 (name, pd) (assocGet_mem hpd)) d hd
      rcases goSelfDepsF_err_spec reg fuel (checkForPhaseSelfCycles reg fuel)
        (fun n p s hnd' hreg' hl' hch' hb' => ih n p s hnd' hreg' (Or.inr ⟨hl', hch'⟩) hb')
        (selfDepsOf reg name) name path safe hdeps hdepsreg hnd hreg hlast
        (by omega) with ⟨s, hs⟩ | ⟨d, p, herr, hgood⟩
      · exact Or.inl ⟨insertUnique s name,
          by simp only [checkForPhaseSelfCycles, if_neg hmem, hs]⟩
      · refine Or.inr ⟨d, p, ?_, hgood⟩
        simp only [checkForPhaseSelfCycles, if_neg hmem, herr]

theorem checkAllPhaseCycles_err_spec (reg : List (String × PhaseData)) (hwf : RegWF reg) :
    ∀ (starts : List (String × PhaseData)) (safe : List String),
      (∃ s, checkAllPhaseCycles reg starts safe = .ok s) ∨
      ∃ d p, checkAllPhaseCycles reg starts safe = .error (.phaseSelfCycle d p) ∧
        GoodCycleErr reg d p := by
  intro starts
  induction starts with
  | nil =>
    intro safe
    exact Or.inl ⟨safe, rfl⟩
  | cons pr rest ih =>
    obtain ⟨name, pd⟩ := pr
    intro safe
    rcases checkForPhaseSelfCycles_err_spec reg hwf (reg.length + 1) name [] safe
      List.nodup_nil (by simp) (Or.inl rfl) (by simp) with ⟨s, hs⟩ | ⟨d, p, herr, hgood⟩
    · rcases ih s with ⟨s2, hs2⟩ | ⟨d2, p2, herr2, hgood2⟩
      · refine Or.inl ⟨s2, ?_⟩
        simp only [checkAllPhaseCycles, hs]
        exact hs2
      · refine Or.inr ⟨d2, p2, ?_, hgood2⟩
        simp only [checkAllPhaseCycles, hs]
        exact herr2
    · refine Or.inr ⟨d, p, ?_, hgood⟩
      simp only [checkAllPhaseCycles, herr]

/-- C1: under a well-formed phase registry (distinct names, registered self
dependencies), the self-dependency cycle check succeeds exactly on acyclic
configurations, and on a cyclic configuration it throws the cycle error whose
path is a self-dependency chain in traversal order containing the cycle
target, closed by the detected back-edge, and whose message lists that path. -/
theorem cycleCheck_ok_iff_selfAcyclic (reg : List (String × PhaseData)) (hwf : RegWF reg) :
    ((∃ safe, checkAllPhaseCycles reg reg [] = .ok safe) ↔ SelfAcyclic reg) ∧
    (¬ SelfAcyclic reg →
      ∃ dep path,
        checkAllPhaseCycles reg reg [] = .error (.phaseSelfCycle dep path) ∧
        dep ∈ path ∧ List.Chain' (selfEdge reg) path ∧
        (∃ l, path.getLast? = some l ∧ selfEdge reg l dep) ∧
        Relation.TransGen (selfEdge reg) dep dep ∧
        (ConfigError.phaseSelfCycle dep path).render =
          "In " ++ commandLineFilename ++ ", there exists a cycle within the set of " ++
          dep ++ " dependencies: " ++ String.intercalate ", " path) := by
  constructor
  · constructor
    · rintro ⟨safe, hok⟩
      exact checkAll_ok_selfAcyclic hok
    · intro hacyc
      rcases checkAllPhaseCycles_err_spec reg hwf reg [] with hok | ⟨d, p, herr, hgood⟩
      · exact hok
      · exact absurd (goodCycleErr_cycle hgood) (hacyc d)
  · intro hnot
    rcases checkAllPhaseCycles_err_spec reg hwf reg [] with ⟨safe, hok⟩ | ⟨d, p, herr, hgood⟩
    · exact absurd (checkAll_ok_selfAcyclic hok) hnot
    · have hg : d ∈ p ∧ List.Chain' (selfEdge reg) p ∧
          ∃ l, p.getLast? = some l ∧ selfEdge reg l d := hgood
      obtain ⟨hdp, hch, hlast⟩ := hg
      exact ⟨d, p, herr, hdp, hch, hlast, goodCycleErr_cycle hgood, rfl⟩

theorem cycleCheck_ok_iff_selfAcyclic_witness :
    ((∃ safe, checkAllPhaseCycles exampleCycleReg exampleCycleReg [] = .ok safe) ↔
      SelfAcyclic exampleCycleReg) ∧
    (¬ SelfAcyclic exampleCycleReg →
      ∃ dep path,
        checkAllPhaseCycles exampleCycleReg exampleCycleReg [] =
          .error (.phaseSelfCycle dep path) ∧
        dep ∈ path ∧ List.Chain' (selfEdge exampleCycleReg) path ∧
        (∃ l, path.getLast? = some l ∧ selfEdge exampleCycleReg l dep) ∧
        Relation.TransGen (selfEdge exampleCycleReg) dep dep ∧
        (ConfigError.phaseSelfCycle dep path).render =
          "In " ++ commandLineFilename ++ ", there exists a cycle within the set of " ++
          dep ++ " dependencies: " ++ String.intercalate ", " path) :=
  cycleCheck_ok_iff_selfAcyclic exampleCycleReg (by unfold RegWF; decide)

end RushConfig
